import Mathlib

/-!
An open-addressing hash table with triangular probing and tombstones.

Shallow embedding of `HashTable.hpp` / `HashTableUtils.cpp` (namespace `artemreyt`)
together with the properties of its operations.

Modelling conventions.

* The slot array `node_t<Key, T> *table` is a total map from slot indices to nodes;
  only indices below `tableSize` are ever read or written by the operations.
* An `iterator` is the pair of offsets (`ptr - table`, `end - table`).
* `size_t` values are natural numbers (the sizes involved stay far below `2 ^ 64`).
* `double maxLoadFactor` and the quotient `(double)elementsCount / tableSize` are exact
  rationals.
* `throw std::logic_error` is the error value `Exn.logic_error`.
* `insert_key`, `insert` and `rehash` call each other in the source.  The recursion is
  cut at `rehash`: `insert_key_with` and `insert_with` take the rehash procedure as an
  argument and `rehash_fuel` bounds the nesting depth of rehashes by a counter.  The
  public `rehash` starts with more fuel than the table has slots, which is proved to
  be enough (`rehash_fuel_spec`); more fuel never changes a result (`rehash_fuel_mono`,
  `rehash_fuel_stable`).
-/

namespace artemreyt

/-! ## Definitions -/

/-- Initial number of slots, `start_size`. -/
def start_size : Nat := 1024

/-- Condition of a node in the table. -/
inductive condition where
  | EMPTY
  | DELETED
  | BUSY
  deriving DecidableEq, Repr

/-- A node of the table: its state and its key/value payload. -/
structure node_t (Key Value : Type) where
  state : condition
  pair : Key × Value

/-- A default-constructed node: `state = EMPTY` and a value-initialised pair. -/
def node_t.fresh {Key Value : Type} [Inhabited Key] [Inhabited Value] : node_t Key Value :=
  ⟨condition.EMPTY, (default, default)⟩

/-- The functor generating the probe sequence. -/
structure ProbPolicy where
  current_proba : Nat
  next_proba : Nat
  m : Nat
  i : Nat
  deriving DecidableEq, Repr

/-- Constructor `ProbPolicy(hash, m_)`. -/
def ProbPolicy.new (hash m_ : Nat) : ProbPolicy :=
  { current_proba := hash, next_proba := hash, m := m_, i := 0 }

/-- One call of `ProbPolicy::operator()`: the returned index and the new state. -/
def ProbPolicy.call (p : ProbPolicy) : Nat × ProbPolicy :=
  (p.next_proba,
   { current_proba := p.next_proba
     next_proba := (p.next_proba + p.i + 1) % p.m
     m := p.m
     i := p.i + 1 })

/-- The value returned by the call number `j` (counted from zero) of a probe functor. -/
def ProbPolicy.nth : ProbPolicy → Nat → Nat
  | p, 0 => p.call.1
  | p, j + 1 => ProbPolicy.nth p.call.2 j

/-- A `std::string`: its sequence of `char` bytes. -/
abbrev CppString := List (Fin 256)

/-- Conversion of a (signed) `char` to `size_t`. -/
def char_to_size_t (c : Fin 256) : Nat :=
  if c.val < 128 then c.val else 2 ^ 64 - 256 + c.val

/-- The string hash `DefaultHash<std::string>::operator()`, with `a = 53`. -/
def DefaultHash_string (str : CppString) (m : Nat) : Nat :=
  str.foldl (fun hash c => ((hash * 53 + char_to_size_t c) % 2 ^ 64) % m) 0

/-- The table: slot array, capacity, element counter and load-factor threshold. -/
structure HashTable (Key T : Type) where
  table : Nat → node_t Key T
  tableSize : Nat
  elementsCount : Nat
  maxLoadFactor : ℚ

/-- An iterator: offsets of `ptr` and `end` from the start of the slot array. -/
structure iterator where
  ptr : Nat
  end_ptr : Nat
  deriving DecidableEq, Repr

/-- What an operation can raise. -/
inductive Exn where
  | logic_error (what : String)
  | fuel_exhausted
  deriving DecidableEq, Repr

section Operations

variable {Key T : Type} [DecidableEq Key] [Inhabited Key] [Inhabited T]

/-- Constructor `HashTable(maxLoadFactor)`. -/
def HashTable.new (maxLoadFactor_ : ℚ) : HashTable Key T :=
  { table := fun _ => node_t.fresh
    tableSize := start_size
    elementsCount := 0
    maxLoadFactor := maxLoadFactor_ }

/-- The iterator `begin()`. -/
def HashTable.begin_ (t : HashTable Key T) : iterator :=
  ⟨0, t.tableSize⟩

/-- The iterator `end()`. -/
def HashTable.end_ (t : HashTable Key T) : iterator :=
  ⟨t.tableSize, t.tableSize⟩

/-- The test `isFree(node)`. -/
def isFree (node : node_t Key T) : Bool :=
  decide (node.state ≠ condition.BUSY)

/-- The helper `fillNode(pos, key)`: writes the key and the state, not the value. -/
def fillNode (t : HashTable Key T) (pos : Nat) (key : Key) : HashTable Key T × iterator :=
  ({ t with
      table := Function.update t.table pos
        (node_t.mk condition.BUSY (key, (t.table pos).pair.2)) },
   ⟨pos, t.tableSize⟩)

/-- The probing loop of `insert_key`; the first argument counts the remaining
iterations `tableSize - i`. -/
def insert_key_loop (t : HashTable Key T) (key : Key) :
    Nat → ProbPolicy → Bool × Nat → Except Exn (HashTable Key T × iterator)
  | 0, _, first_deleted =>
    if first_deleted.1 = false then Except.error (Exn.logic_error "No free space in table!")
    else Except.ok (fillNode t first_deleted.2 key)
  | n + 1, proba, first_deleted =>
    if (t.table proba.call.1).state = condition.DELETED then
      insert_key_loop t key n proba.call.2
        (if first_deleted.1 = false then (true, proba.call.1) else first_deleted)
    else if (t.table proba.call.1).state = condition.EMPTY then
      Except.ok (fillNode t (if first_deleted.1 then first_deleted.2 else proba.call.1) key)
    else if (t.table proba.call.1).pair.1 = key then
      Except.ok (t, t.end_)
    else insert_key_loop t key n proba.call.2 first_deleted

/-- The body of `insert_key` after the load-factor check. -/
def insert_key_probe (hasher : Key → Nat → Nat) (t : HashTable Key T) (key : Key) :
    Except Exn (HashTable Key T × iterator) :=
  insert_key_loop t key t.tableSize
    (ProbPolicy.new (hasher key t.tableSize) t.tableSize) (false, 0)

/-- The method `insert_key`, with the rehash procedure it calls as an argument. -/
def insert_key_with (hasher : Key → Nat → Nat)
    (rh : HashTable Key T → Except Exn (HashTable Key T))
    (t : HashTable Key T) (key : Key) : Except Exn (HashTable Key T × iterator) :=
  match (if ((t.elementsCount + 1 : Nat) : ℚ) / (t.tableSize : ℚ) ≥ t.maxLoadFactor
      then rh { t with elementsCount := t.elementsCount + 1 }
      else Except.ok { t with elementsCount := t.elementsCount + 1 }) with
  | Except.error e => Except.error e
  | Except.ok t1 => insert_key_probe hasher t1 key

/-- The method `insert`, with the rehash procedure as an argument. -/
def insert_with (hasher : Key → Nat → Nat)
    (rh : HashTable Key T → Except Exn (HashTable Key T))
    (t : HashTable Key T) (insert_pair : Key × T) : Except Exn (HashTable Key T × iterator) :=
  match insert_key_with hasher rh t insert_pair.1 with
  | Except.error e => Except.error e
  | Except.ok (t1, iter) =>
    if iter.ptr ≠ t1.end_.ptr then
      Except.ok ({ t1 with
          table := Function.update t1.table iter.ptr
            (node_t.mk (t1.table iter.ptr).state insert_pair) }, iter)
    else Except.ok (t1, t1.end_)

/-- The loop of `rehash` over the slots of the old array. -/
def rehash_loop (ins : HashTable Key T → Key × T → Except Exn (HashTable Key T × iterator))
    (old_table : Nat → node_t Key T) : List Nat → HashTable Key T → Except Exn (HashTable Key T)
  | [], t => Except.ok t
  | i :: rest, t =>
    if isFree (old_table i) = false then
      match ins t (old_table i).pair with
      | Except.error e => Except.error e
      | Except.ok r => rehash_loop ins old_table rest r.1
    else rehash_loop ins old_table rest t

/-- The method `rehash`; the first argument bounds the depth of nested rehashes. -/
def rehash_fuel (hasher : Key → Nat → Nat) : Nat → HashTable Key T → Except Exn (HashTable Key T)
  | 0, _ => Except.error Exn.fuel_exhausted
  | fuel + 1, t =>
    rehash_loop (insert_with hasher (rehash_fuel hasher fuel)) t.table (List.range t.tableSize)
      { table := fun _ => node_t.fresh
        tableSize := t.tableSize * 2
        elementsCount := 0
        maxLoadFactor := t.maxLoadFactor }

/-- The public method `rehash()`. -/
def rehash (hasher : Key → Nat → Nat) (t : HashTable Key T) : Except Exn (HashTable Key T) :=
  rehash_fuel hasher (t.tableSize + 1) t

/-- The private method `insert_key`. -/
def insert_key (hasher : Key → Nat → Nat) (t : HashTable Key T) (key : Key) :
    Except Exn (HashTable Key T × iterator) :=
  insert_key_with hasher (rehash hasher) t key

/-- The public method `insert`. -/
def insert (hasher : Key → Nat → Nat) (t : HashTable Key T) (insert_pair : Key × T) :
    Except Exn (HashTable Key T × iterator) :=
  insert_with hasher (rehash hasher) t insert_pair

/-- The loop of `find`; the first argument counts the remaining iterations. -/
def find_loop (t : HashTable Key T) (key : Key) : Nat → ProbPolicy → iterator
  | 0, _ => t.end_
  | n + 1, proba =>
    if (t.table proba.call.1).state = condition.EMPTY then t.end_
    else if (t.table proba.call.1).state = condition.BUSY
        ∧ (t.table proba.call.1).pair.1 = key then ⟨proba.call.1, t.tableSize⟩
    else find_loop t key n proba.call.2

/-- The public method `find`. -/
def find (hasher : Key → Nat → Nat) (t : HashTable Key T) (key : Key) : iterator :=
  find_loop t key t.tableSize (ProbPolicy.new (hasher key t.tableSize) t.tableSize)

/-- The public method `operator[]`: the table afterwards and the slot whose value the
returned reference designates. -/
def access (hasher : Key → Nat → Nat) (t : HashTable Key T) (key : Key) :
    Except Exn (HashTable Key T × Nat) :=
  if (find hasher t key).ptr ≠ t.end_.ptr then Except.ok (t, (find hasher t key).ptr)
  else
    match insert_key hasher t key with
    | Except.error e => Except.error e
    | Except.ok r => Except.ok (r.1, r.2.ptr)

/-- A write of `value` through a reference to the value of slot `pos`. -/
def write_value (t : HashTable Key T) (pos : Nat) (value : T) : HashTable Key T :=
  { t with
    table := Function.update t.table pos
      (node_t.mk (t.table pos).state ((t.table pos).pair.1, value)) }

/-- The statement `t[key] = value`. -/
def assign (hasher : Key → Nat → Nat) (t : HashTable Key T) (key : Key) (value : T) :
    Except Exn (HashTable Key T) :=
  match access hasher t key with
  | Except.error e => Except.error e
  | Except.ok r => Except.ok (write_value r.1 r.2 value)

/-- The public method `erase`: the table afterwards and the returned flag. -/
def erase (hasher : Key → Nat → Nat) (t : HashTable Key T) (key : Key) :
    HashTable Key T × Bool :=
  if (find hasher t key).ptr ≠ t.end_.ptr then
    ({ t with
        table := Function.update t.table (find hasher t key).ptr
          (node_t.mk condition.DELETED (t.table (find hasher t key).ptr).pair) }, true)
  else (t, false)

/-- The skipping loop of the iterator increment, `while (ptr < end && ptr->state != BUSY) ptr++`;
the first argument bounds the number of iterations. -/
def iterator.skip (t : HashTable Key T) (end_ptr : Nat) : Nat → Nat → Nat
  | 0, ptr => ptr
  | n + 1, ptr =>
    if ptr < end_ptr ∧ (t.table ptr).state ≠ condition.BUSY then
      iterator.skip t end_ptr n (ptr + 1)
    else ptr

/-- The increment `operator++` of an iterator into the table `t`. -/
def iterator.incr (t : HashTable Key T) (it : iterator) : iterator :=
  ⟨(if iterator.skip t it.end_ptr it.end_ptr (it.ptr + 1) > it.end_ptr then it.end_ptr
    else iterator.skip t it.end_ptr it.end_ptr (it.ptr + 1)), it.end_ptr⟩

/-- The entries met by `for (it = first; it != end(); ++it)`, dereferencing each time;
the first argument bounds the number of steps. -/
def collect (t : HashTable Key T) : Nat → iterator → List (Key × T)
  | 0, _ => []
  | n + 1, it =>
    if it.ptr ≠ t.end_.ptr then (t.table it.ptr).pair :: collect t n (iterator.incr t it)
    else []

/-- The entries met by iterating from `begin()` to `end()`. -/
def traverse (t : HashTable Key T) : List (Key × T) :=
  collect t (t.tableSize + 1) t.begin_

end Operations

/-! ## Vocabulary of the specification -/

/-- Triangular numbers: the offset of the probe number `j` from the initial hash. -/
def tri : Nat → Nat
  | 0 => 0
  | j + 1 => tri j + (j + 1)

section Vocabulary

variable {Key T : Type} [DecidableEq Key] [Inhabited Key] [Inhabited T]

/-- The contract of a hash strategy: an index below the capacity. -/
def HashRange (hasher : Key → Nat → Nat) : Prop :=
  ∀ k m, 0 < m → hasher k m < m

/-- The table with slot `pos` made OCCUPIED by the pair `(key, value)`. -/
def put (t : HashTable Key T) (pos : Nat) (key : Key) (value : T) : HashTable Key T :=
  { t with table := Function.update t.table pos (node_t.mk condition.BUSY (key, value)) }

/-- The table with slot `pos` turned into a tombstone, its payload kept. -/
def tombstone (t : HashTable Key T) (pos : Nat) : HashTable Key T :=
  { t with
    table := Function.update t.table pos
      (node_t.mk condition.DELETED (t.table pos).pair) }

/-- A freshly allocated table of the given capacity. -/
def blank [Inhabited Key] [Inhabited T] (c : Nat) (L : ℚ) : HashTable Key T :=
  { table := fun _ => node_t.fresh
    tableSize := c
    elementsCount := 0
    maxLoadFactor := L }

/-- The table with the element counter incremented (first statement of `insert_key`). -/
def bump (t : HashTable Key T) : HashTable Key T :=
  { t with elementsCount := t.elementsCount + 1 }

/-- The load-factor test of `insert_key`, made after the counter is incremented. -/
def overloaded (t : HashTable Key T) : Prop :=
  ((t.elementsCount + 1 : Nat) : ℚ) / (t.tableSize : ℚ) ≥ t.maxLoadFactor

/-- The slot visited by probe number `j` of a search for `key` in `t`. -/
def probe (hasher : Key → Nat → Nat) (t : HashTable Key T) (key : Key) (j : Nat) : Nat :=
  ProbPolicy.nth (ProbPolicy.new (hasher key t.tableSize) t.tableSize) j

/-- Number of slots in state `BUSY` (the OCCUPIED slots). -/
def busyCount (t : HashTable Key T) : Nat :=
  (List.range t.tableSize).countP (fun i => decide ((t.table i).state = condition.BUSY))

/-- Number of slots in state `DELETED`. -/
def deletedCount (t : HashTable Key T) : Nat :=
  (List.range t.tableSize).countP (fun i => decide ((t.table i).state = condition.DELETED))

/-- Some OCCUPIED slot holds the pair `(key, value)`. -/
def Holds (t : HashTable Key T) (key : Key) (value : T) : Prop :=
  ∃ p, p < t.tableSize ∧ (t.table p).state = condition.BUSY ∧ (t.table p).pair = (key, value)

/-- The result of `find` read as an optional value: `none` for `end()`. -/
def lookup (hasher : Key → Nat → Nat) (t : HashTable Key T) (key : Key) : Option T :=
  if (find hasher t key).ptr ≠ t.end_.ptr then some (t.table (find hasher t key).ptr).pair.2
  else none

/-- Structural invariant of the slot array: the capacity is `1024 * 2 ^ a`, no key is held
by two OCCUPIED slots, and every OCCUPIED slot is met by the probe sequence of its key
before any EMPTY slot. -/
structure Inv (hasher : Key → Nat → Nat) (t : HashTable Key T) : Prop where
  cap : ∃ a, t.tableSize = start_size * 2 ^ a
  uniq : ∀ p q, p < t.tableSize → q < t.tableSize →
    (t.table p).state = condition.BUSY → (t.table q).state = condition.BUSY →
    (t.table p).pair.1 = (t.table q).pair.1 → p = q
  path : ∀ p, p < t.tableSize → (t.table p).state = condition.BUSY →
    ∃ j, j < t.tableSize ∧ probe hasher t (t.table p).pair.1 j = p ∧
      ∀ i, i < j → (t.table (probe hasher t (t.table p).pair.1 i)).state ≠ condition.EMPTY

/-- No two distinct OCCUPIED slots hold equal keys. -/
def UniqueKeys (t : HashTable Key T) : Prop :=
  ∀ p q, p < t.tableSize → q < t.tableSize →
    (t.table p).state = condition.BUSY → (t.table q).state = condition.BUSY →
    (t.table p).pair.1 = (t.table q).pair.1 → p = q

/-- The outcome of the load-factor check of `insert_key`: the table `t1` in which the
probing loop then runs. -/
def Pre (rh : HashTable Key T → Except Exn (HashTable Key T)) (t t1 : HashTable Key T) : Prop :=
  (overloaded t ∧ rh (bump t) = Except.ok t1) ∨ (¬ overloaded t ∧ t1 = bump t)

/-- Size bookkeeping of a rehash of a table of capacity `c0`, once `n` of its entries have
been placed: capacity `c` and counter `e` of the table under construction. -/
structure Sized (L : ℚ) (c0 n c e : Nat) : Prop where
  cap : ∃ b, c = 2 * c0 * 2 ^ b
  cnt_le : e ≤ n
  drift : 2 ^ (n - e) * (2 * c0) ≤ c
  nest : e = n ∨ 2 * L ≤ 1
  plain : 1 / 2 < L → c = 2 * c0 ∧ e = n

/-- Postcondition of `rehash` from table `t` to table `t1`. -/
def RehashPost (hasher : Key → Nat → Nat) (t t1 : HashTable Key T) : Prop :=
  Inv hasher t1 ∧
  (∀ i, i < t1.tableSize → (t1.table i).state ≠ condition.DELETED) ∧
  busyCount t1 = busyCount t ∧
  t1.maxLoadFactor = t.maxLoadFactor ∧
  Sized t.maxLoadFactor t.tableSize (busyCount t) t1.tableSize t1.elementsCount ∧
  ∀ k v, Holds t1 k v ↔ Holds t k v

/-- Relation between `elementsCount` and the number of OCCUPIED slots. -/
def CountInv (t : HashTable Key T) : Prop :=
  busyCount t ≤ t.elementsCount + 1 ∨
    (2 * t.maxLoadFactor ≤ 1 ∧ 2 ^ (busyCount t - t.elementsCount) ≤ t.tableSize)

/-- The relation between counter and OCCUPIED slots right after the load-factor check of
`insert_key`, before the probing loop places the key. -/
def PreCount (t : HashTable Key T) : Prop :=
  busyCount t ≤ t.elementsCount ∨
    (2 * t.maxLoadFactor ≤ 1 ∧ 2 ^ (busyCount t + 1 - t.elementsCount) ≤ t.tableSize)

/-- What every reachable table satisfies: the structural invariant, the counter relation
and the load-factor threshold it was constructed with. -/
structure Good (hasher : Key → Nat → Nat) (L : ℚ) (t : HashTable Key T) : Prop where
  inv : Inv hasher t
  cnt : CountInv t
  lf : t.maxLoadFactor = L

/-- The tables built from `HashTable(L)` by `insert`, `operator[]` (read or assigned
through), `erase` and `rehash`. -/
inductive Reachable (hasher : Key → Nat → Nat) (L : ℚ) : HashTable Key T → Prop
  | new : Reachable hasher L (HashTable.new L)
  | insert {t t1 : HashTable Key T} {p : Key × T} {it : iterator} :
      Reachable hasher L t → insert hasher t p = Except.ok (t1, it) → Reachable hasher L t1
  | access {t t1 : HashTable Key T} {k : Key} {pos : Nat} :
      Reachable hasher L t → access hasher t k = Except.ok (t1, pos) → Reachable hasher L t1
  | assign {t t1 : HashTable Key T} {k : Key} {v : T} :
      Reachable hasher L t → assign hasher t k v = Except.ok t1 → Reachable hasher L t1
  | erase {t : HashTable Key T} {k : Key} :
      Reachable hasher L t → Reachable hasher L (erase hasher t k).1
  | rehash {t t1 : HashTable Key T} :
      Reachable hasher L t → rehash hasher t = Except.ok t1 → Reachable hasher L t1

end Vocabulary

/-! ## Sequences of operations and the reference map -/

/-- One call among those the tester makes: `insert`, `erase`, or `t[k] = v`. -/
inductive Op (Key T : Type) where
  | insert (p : Key × T)
  | erase (k : Key)
  | assign (k : Key) (v : T)

section Sequences

variable {Key T : Type} [DecidableEq Key] [Inhabited Key] [Inhabited T]

/-- The table after one call. -/
def apply_op (hasher : Key → Nat → Nat) (t : HashTable Key T) :
    Op Key T → Except Exn (HashTable Key T)
  | Op.insert p =>
    match insert hasher t p with
    | Except.error e => Except.error e
    | Except.ok r => Except.ok r.1
  | Op.erase k => Except.ok (erase hasher t k).1
  | Op.assign k v => assign hasher t k v

/-- The table after a sequence of calls. -/
def run_ops (hasher : Key → Nat → Nat) :
    List (Op Key T) → HashTable Key T → Except Exn (HashTable Key T)
  | [], t => Except.ok t
  | op :: ops, t =>
    match apply_op hasher t op with
    | Except.error e => Except.error e
    | Except.ok t1 => run_ops hasher ops t1

/-- The table after a sequence of `insert` calls. -/
def insert_all (hasher : Key → Nat → Nat) (l : List (Key × T)) (t : HashTable Key T) :
    Except Exn (HashTable Key T) :=
  run_ops hasher (l.map Op.insert) t

/-- The value of the first pair of `l` whose key is `k`. -/
def first_value (l : List (Key × T)) (k : Key) : Option T :=
  (l.find? (fun p => decide (p.1 = k))).map Prod.snd

/-- The value of the last pair of `l` whose key is `k`. -/
def last_value (l : List (Key × T)) (k : Key) : Option T :=
  first_value l.reverse k

/-- The reference finite map the table is compared with (`std::unordered_map`). -/
def RefMap (Key T : Type) : Type := Key → Option T

/-- The empty reference map. -/
def RefMap.empty : RefMap Key T := fun _ => none

/-- Reference `insert`: insert-if-absent. -/
def RefMap.insert_if_absent (m : RefMap Key T) (p : Key × T) : RefMap Key T :=
  fun k => if k = p.1 then (match m p.1 with
    | some w => some w
    | none => some p.2) else m k

/-- Reference `erase`: remove. -/
def RefMap.remove (m : RefMap Key T) (k0 : Key) : RefMap Key T :=
  fun k => if k = k0 then none else m k

/-- Reference `m[k] = v`: insert-or-overwrite. -/
def RefMap.insert_or_overwrite (m : RefMap Key T) (k0 : Key) (v : T) : RefMap Key T :=
  fun k => if k = k0 then some v else m k

/-- The reference map after one call. -/
def RefMap.apply_op (m : RefMap Key T) : Op Key T → RefMap Key T
  | Op.insert p => m.insert_if_absent p
  | Op.erase k => m.remove k
  | Op.assign k v => m.insert_or_overwrite k v

/-- The reference map after a sequence of calls. -/
def RefMap.run : List (Op Key T) → RefMap Key T → RefMap Key T
  | [], m => m
  | op :: ops, m => RefMap.run ops (m.apply_op op)

end Sequences

/-- The scenario of the specification: `("a",1)`, `("b",2)`, `("a",3)`. -/
def scenario_pairs : List (CppString × Int) :=
  [([97], 1), ([98], 2), ([97], 3)]

/-- A sample sequence of calls on string keys: two inserts, an erase, an assignment to a
new key and a duplicate insert. -/
def sample_ops : List (Op CppString Int) :=
  [Op.insert ([97], 1), Op.insert ([98], 2), Op.erase [97], Op.assign [99] 7,
    Op.insert ([98], 9)]

/-! ## The other default hash strategies -/

/-- The generic hash `DefaultHash<T>::operator()`, `static_cast<size_t>(key) % m`; the
conversion of the key type to `size_t` is the first argument. -/
def DefaultHash {T : Type} (to_size_t : T → Nat) (key : T) (m : Nat) : Nat :=
  to_size_t key % m

/-- Conversion of an `int` to `size_t`: the value modulo `2 ^ 64`. -/
def int_to_size_t (key : Int) : Nat :=
  (key % (2 ^ 64 : Int)).toNat

/-- The loop of `DefaultHash<int>::find_pow`, `while (pow_of_2 < m) { i++; pow_of_2 <<= 1; }`
on `size_t` values; the first argument bounds the number of tests of the condition, and
`none` stands for a loop that does not end. -/
def find_pow_loop (m : Nat) : Nat → Nat → Nat → Option Nat
  | 0, _, _ => none
  | fuel + 1, i, pow_of_2 =>
    if pow_of_2 < m then find_pow_loop m fuel (i + 1) ((pow_of_2 * 2) % 2 ^ 64)
    else some i

/-- The method `DefaultHash<int>::find_pow`.  After 64 doublings `pow_of_2` is zero for
good, so 65 tests decide whether the loop ends. -/
def find_pow (m : Nat) : Option Nat :=
  find_pow_loop m 65 0 1

/-- The constant `s` of `DefaultHash<int>`. -/
def DefaultHash_int_s : Nat := 2654435769

/-- The constant `power2_32` of `DefaultHash<int>`: the `int` expression `1 << 31`, which
is `-2 ^ 31`, converted to `size_t`. -/
def DefaultHash_int_power2_32 : Nat := 2 ^ 64 - 2 ^ 31

/-- The integer hash `DefaultHash<int>::operator()` with the constant `power2_32` as an
argument: `(((key * s) % power2_32) >> (32 - find_pow(m))) % m` in `size_t` arithmetic.
The shift count `32 - find_pow(m)` is meant for `find_pow(m) ≤ 32`. -/
def DefaultHash_int_with (power2_32 : Nat) (key : Int) (m : Nat) : Option Nat :=
  match find_pow m with
  | none => none
  | some fp =>
    some (((((int_to_size_t key * DefaultHash_int_s) % 2 ^ 64) % power2_32) >>> (32 - fp)) % m)

/-- The integer hash `DefaultHash<int>::operator()`. -/
def DefaultHash_int (key : Int) (m : Nat) : Option Nat :=
  DefaultHash_int_with DefaultHash_int_power2_32 key m

/-! ## Sample inputs -/

/-- The first `n` of a family of pairwise distinct two-byte string keys, key number `i`
paired with the value `i`. -/
def sample_keys (n : Nat) : List (CppString × Int) :=
  (List.range n).map (fun i => ([Fin.ofNat (i / 256), Fin.ofNat (i % 256)], (i : Int)))

/-! ## Theorems -/

set_option linter.unusedSectionVars false
set_option linter.unusedVariables false

/-! ## The probe sequence -/

theorem two_mul_tri (j : Nat) : 2 * tri j = j * (j + 1) := by
  induction j with
  | zero => simp [tri]
  | succ n ih => simp only [tri]; rw [Nat.mul_add, ih]; ring

theorem nth_closed (c x m i : Nat) (hx : x < m) (j : Nat) :
    ProbPolicy.nth ⟨c, x, m, i⟩ j = (x + j * i + tri j) % m := by
  induction j generalizing c x i with
  | zero => simp [ProbPolicy.nth, ProbPolicy.call, tri, Nat.mod_eq_of_lt hx]
  | succ n ih =>
    have hm : 0 < m := by omega
    simp only [ProbPolicy.nth, ProbPolicy.call]
    rw [ih _ _ _ (Nat.mod_lt _ hm), tri]
    rw [Nat.add_assoc ((x + i + 1) % m), Nat.add_mod, Nat.mod_mod, ← Nat.add_mod]
    congr 1
    ring

theorem nth_new (h m : Nat) (hh : h < m) (j : Nat) :
    ProbPolicy.nth (ProbPolicy.new h m) j = (h + tri j) % m := by
  unfold ProbPolicy.new
  rw [nth_closed _ _ _ _ hh]
  simp

theorem nth_new_lt (h m : Nat) (hh : h < m) (j : Nat) :
    ProbPolicy.nth (ProbPolicy.new h m) j < m := by
  rw [nth_new h m hh]
  exact Nat.mod_lt _ (by omega)

theorem nth_succ (p : ProbPolicy) (j : Nat) :
    ProbPolicy.nth p (j + 1) = ProbPolicy.nth p.call.2 j := rfl

theorem nth_zero (p : ProbPolicy) : ProbPolicy.nth p 0 = p.call.1 := rfl

/-- Two triangular numbers below `2 ^ n` steps that agree modulo `2 ^ n` are equal. -/
theorem tri_inj_aux (n i j : Nat) (hij : i < j) (hj : j < 2 ^ n)
    (h : tri i % 2 ^ n = tri j % 2 ^ n) : False := by
  have hi2 := two_mul_tri i
  have hj2 := two_mul_tri j
  have hle : tri i ≤ tri j := by
    have : i * (i + 1) ≤ j * (j + 1) := Nat.mul_le_mul (by omega) (by omega)
    omega
  have hdvd : 2 ^ n ∣ tri j - tri i := (Nat.modEq_iff_dvd' hle).mp h
  have hprod : 2 * (tri j - tri i) = (j - i) * (i + j + 1) := by
    rw [Nat.mul_sub, hi2, hj2]
    obtain ⟨d, rfl⟩ : ∃ d, j = i + d := ⟨j - i, by omega⟩
    have e1 : i + d - i = d := by omega
    rw [e1]
    have e2 : (i + d) * (i + d + 1) = i * (i + 1) + d * (i + (i + d) + 1) := by ring
    rw [e2]
    omega
  have hdvd2 : 2 ^ (n + 1) ∣ (j - i) * (i + j + 1) := by
    rw [← hprod, pow_succ, Nat.mul_comm]
    exact Nat.mul_dvd_mul_left 2 hdvd
  rcases Nat.even_or_odd (j - i) with he | ho
  · -- then i + j + 1 is odd
    have ho2 : Odd (i + j + 1) := by
      rcases he with ⟨a, ha⟩
      exact ⟨i + a, by omega⟩
    have hc : Nat.Coprime (2 ^ (n + 1)) (i + j + 1) :=
      Nat.Coprime.pow_left _ (Nat.coprime_two_left.mpr ho2)
    have hd := hc.dvd_of_dvd_mul_right hdvd2
    have hle2 := Nat.le_of_dvd (by omega) hd
    have : 2 ^ (n + 1) = 2 * 2 ^ n := by rw [pow_succ]; ring
    omega
  · have hc : Nat.Coprime (2 ^ (n + 1)) (j - i) :=
      Nat.Coprime.pow_left _ (Nat.coprime_two_left.mpr ho)
    have hd := hc.dvd_of_dvd_mul_left hdvd2
    have hle2 := Nat.le_of_dvd (by omega) hd
    have : 2 ^ (n + 1) = 2 * 2 ^ n := by rw [pow_succ]; ring
    omega

theorem tri_inj (n i j : Nat) (hi : i < 2 ^ n) (hj : j < 2 ^ n)
    (h : tri i % 2 ^ n = tri j % 2 ^ n) : i = j := by
  rcases Nat.lt_trichotomy i j with hlt | heq | hgt
  · exact (tri_inj_aux n i j hlt hj h).elim
  · exact heq
  · exact (tri_inj_aux n j i hgt hi h.symm).elim

/-- Probes of a power-of-two table are pairwise distinct during the first `m` steps. -/
theorem nth_new_inj (n h i j : Nat) (hh : h < 2 ^ n) (hi : i < 2 ^ n) (hj : j < 2 ^ n)
    (he : ProbPolicy.nth (ProbPolicy.new h (2 ^ n)) i = ProbPolicy.nth (ProbPolicy.new h (2 ^ n)) j) :
    i = j := by
  rw [nth_new _ _ hh, nth_new _ _ hh] at he
  apply tri_inj n i j hi hj
  have : (h + tri i) ≡ (h + tri j) [MOD 2 ^ n] := he
  exact Nat.ModEq.add_left_cancel' h this

/-- Every slot of a power-of-two table is met within the first `m` probes. -/
theorem nth_new_surj (n h s : Nat) (hh : h < 2 ^ n) (hs : s < 2 ^ n) :
    ∃ j, j < 2 ^ n ∧ ProbPolicy.nth (ProbPolicy.new h (2 ^ n)) j = s := by
  let f : Fin (2 ^ n) → Fin (2 ^ n) :=
    fun j => ⟨ProbPolicy.nth (ProbPolicy.new h (2 ^ n)) j.val, nth_new_lt _ _ hh _⟩
  have hf : Function.Injective f := by
    intro a b hab
    apply Fin.ext
    apply nth_new_inj n h a.val b.val hh a.isLt b.isLt
    exact congrArg Fin.val hab
  obtain ⟨j, hj⟩ := (Finite.injective_iff_surjective.mp hf) ⟨s, hs⟩
  exact ⟨j.val, j.isLt, congrArg Fin.val hj⟩

section Loops

variable {Key T : Type} [DecidableEq Key]

/-! ## The loops of `find` and `insert_key` -/

theorem find_loop_end_ptr (t : HashTable Key T) (k : Key) (n : Nat) (p : ProbPolicy) :
    (find_loop t k n p).end_ptr = t.tableSize := by
  induction n generalizing p with
  | zero => rfl
  | succ n ih =>
    unfold find_loop
    split_ifs
    · rfl
    · rfl
    · exact ih _

/-- A hit of the loop of `find` is a probed OCCUPIED slot holding the key, with no EMPTY
slot probed before it. -/
theorem find_loop_hit (t : HashTable Key T) (k : Key) (n : Nat) (p : ProbPolicy)
    (h : (find_loop t k n p).ptr ≠ t.tableSize) :
    ∃ j, j < n ∧ (find_loop t k n p).ptr = p.nth j ∧
      (t.table (p.nth j)).state = condition.BUSY ∧ (t.table (p.nth j)).pair.1 = k ∧
      ∀ i, i < j → (t.table (p.nth i)).state ≠ condition.EMPTY := by
  induction n generalizing p with
  | zero => exact absurd rfl h
  | succ n ih =>
    unfold find_loop at h ⊢
    by_cases hE : (t.table p.call.1).state = condition.EMPTY
    · rw [if_pos hE] at h
      exact absurd rfl h
    · rw [if_neg hE] at h ⊢
      by_cases hM : (t.table p.call.1).state = condition.BUSY ∧ (t.table p.call.1).pair.1 = k
      · rw [if_pos hM]
        exact ⟨0, Nat.succ_pos n, rfl, hM.1, hM.2, fun i hi => absurd hi (Nat.not_lt_zero i)⟩
      · rw [if_neg hM] at h ⊢
        obtain ⟨j, hj, e, hb, hk, hpre⟩ := ih p.call.2 h
        refine ⟨j + 1, Nat.succ_lt_succ hj, e, hb, hk, ?_⟩
        intro i hi
        cases i with
        | zero => exact hE
        | succ i => exact hpre i (Nat.lt_of_succ_lt_succ hi)

/-- When the key sits on the probe path with no EMPTY slot before it, the loop of `find`
stops at an OCCUPIED slot holding the key, at that probe or an earlier one. -/
theorem find_loop_of_path (t : HashTable Key T) (k : Key) (n : Nat) (p : ProbPolicy) (j : Nat)
    (hj : j < n) (hb : (t.table (p.nth j)).state = condition.BUSY)
    (hk : (t.table (p.nth j)).pair.1 = k)
    (hpre : ∀ i, i < j → (t.table (p.nth i)).state ≠ condition.EMPTY) :
    ∃ j0, j0 ≤ j ∧ find_loop t k n p = ⟨p.nth j0, t.tableSize⟩ ∧
      (t.table (p.nth j0)).state = condition.BUSY ∧ (t.table (p.nth j0)).pair.1 = k := by
  induction n generalizing p j with
  | zero => exact absurd hj (Nat.not_lt_zero j)
  | succ n ih =>
    unfold find_loop
    by_cases hM : (t.table p.call.1).state = condition.BUSY ∧ (t.table p.call.1).pair.1 = k
    · have hE : (t.table p.call.1).state ≠ condition.EMPTY := by rw [hM.1]; decide
      rw [if_neg hE, if_pos hM]
      exact ⟨0, Nat.zero_le j, rfl, hM.1, hM.2⟩
    · cases j with
      | zero => exact absurd ⟨hb, hk⟩ hM
      | succ j =>
        have hE : (t.table p.call.1).state ≠ condition.EMPTY := hpre 0 (Nat.succ_pos j)
        rw [if_neg hE, if_neg hM]
        obtain ⟨j0, hj0, e, hb0, hk0⟩ := ih p.call.2 j (Nat.lt_of_succ_lt_succ hj) hb hk
          (fun i hi => hpre (i + 1) (Nat.succ_lt_succ hi))
        exact ⟨j0 + 1, Nat.succ_le_succ hj0, e, hb0, hk0⟩

/-- On a hit of `find`, the loop of `insert_key` returns `end()` and leaves the table. -/
theorem insert_key_loop_of_hit (t : HashTable Key T) (k : Key) (n : Nat) (p : ProbPolicy)
    (fd : Bool × Nat) (h : (find_loop t k n p).ptr ≠ t.tableSize) :
    insert_key_loop t k n p fd = Except.ok (t, t.end_) := by
  induction n generalizing p fd with
  | zero => exact absurd rfl h
  | succ n ih =>
    unfold find_loop at h
    unfold insert_key_loop
    by_cases hE : (t.table p.call.1).state = condition.EMPTY
    · rw [if_pos hE] at h
      exact absurd rfl h
    · rw [if_neg hE] at h
      by_cases hD : (t.table p.call.1).state = condition.DELETED
      · have hM : ¬((t.table p.call.1).state = condition.BUSY ∧ (t.table p.call.1).pair.1 = k) := by
          rw [hD]; simp
        rw [if_neg hM] at h
        rw [if_pos hD]
        exact ih _ _ h
      · rw [if_neg hD, if_neg hE]
        have hB : (t.table p.call.1).state = condition.BUSY := by
          cases hs : (t.table p.call.1).state <;> simp_all
        by_cases hK : (t.table p.call.1).pair.1 = k
        · rw [if_pos hK]
        · rw [if_neg hK]
          have hM : ¬((t.table p.call.1).state = condition.BUSY ∧ (t.table p.call.1).pair.1 = k) :=
            fun hc => hK hc.2
          rw [if_neg hM] at h
          exact ih _ _ h

/-- On a miss of `find`, once a DELETED slot has been remembered the loop of `insert_key`
fills that slot. -/
theorem insert_key_loop_of_miss_deleted (t : HashTable Key T) (k : Key) (n : Nat)
    (p : ProbPolicy) (q : Nat) (hr : ∀ j, j < n → p.nth j ≠ t.tableSize)
    (h : (find_loop t k n p).ptr = t.tableSize) :
    insert_key_loop t k n p (true, q) = Except.ok (fillNode t q k) := by
  induction n generalizing p with
  | zero => simp [insert_key_loop]
  | succ n ih =>
    have hr' : ∀ j, j < n → p.call.2.nth j ≠ t.tableSize :=
      fun j hj => hr (j + 1) (Nat.succ_lt_succ hj)
    unfold find_loop at h
    unfold insert_key_loop
    by_cases hD : (t.table p.call.1).state = condition.DELETED
    · have hE : (t.table p.call.1).state ≠ condition.EMPTY := by rw [hD]; decide
      have hM : ¬((t.table p.call.1).state = condition.BUSY ∧ (t.table p.call.1).pair.1 = k) := by
        rw [hD]; simp
      rw [if_neg hE, if_neg hM] at h
      rw [if_pos hD]
      simpa using ih _ hr' h
    · rw [if_neg hD]
      by_cases hE : (t.table p.call.1).state = condition.EMPTY
      · rw [if_pos hE]
        simp
      · rw [if_neg hE] at h ⊢
        have hB : (t.table p.call.1).state = condition.BUSY := by
          cases hs : (t.table p.call.1).state <;> simp_all
        by_cases hK : (t.table p.call.1).pair.1 = k
        · rw [if_pos ⟨hB, hK⟩] at h
          exact absurd h (hr 0 (Nat.succ_pos n))
        · have hM : ¬((t.table p.call.1).state = condition.BUSY ∧ (t.table p.call.1).pair.1 = k) :=
            fun hc => hK hc.2
          rw [if_neg hM] at h
          rw [if_neg hK]
          exact ih _ hr' h

/-- On a miss of `find`, the loop of `insert_key` fills the first probed slot that is not
OCCUPIED, and raises the error exactly when all probed slots are OCCUPIED. -/
theorem insert_key_loop_of_miss (t : HashTable Key T) (k : Key) (n : Nat)
    (p : ProbPolicy) (x : Nat) (hr : ∀ j, j < n → p.nth j ≠ t.tableSize)
    (h : (find_loop t k n p).ptr = t.tableSize) :
    (∃ j, j < n ∧ (t.table (p.nth j)).state ≠ condition.BUSY ∧
        (∀ i, i < j → (t.table (p.nth i)).state = condition.BUSY ∧
          (t.table (p.nth i)).pair.1 ≠ k) ∧
        insert_key_loop t k n p (false, x) = Except.ok (fillNode t (p.nth j) k)) ∨
    ((∀ j, j < n → (t.table (p.nth j)).state = condition.BUSY ∧
          (t.table (p.nth j)).pair.1 ≠ k) ∧
      insert_key_loop t k n p (false, x)
        = Except.error (Exn.logic_error "No free space in table!")) := by
  induction n generalizing p with
  | zero =>
    right
    exact ⟨fun j hj => absurd hj (Nat.not_lt_zero j), by simp [insert_key_loop]⟩
  | succ n ih =>
    have hr' : ∀ j, j < n → p.call.2.nth j ≠ t.tableSize :=
      fun j hj => hr (j + 1) (Nat.succ_lt_succ hj)
    unfold find_loop at h
    unfold insert_key_loop
    by_cases hD : (t.table p.call.1).state = condition.DELETED
    · have hE : (t.table p.call.1).state ≠ condition.EMPTY := by rw [hD]; decide
      have hM : ¬((t.table p.call.1).state = condition.BUSY ∧ (t.table p.call.1).pair.1 = k) := by
        rw [hD]; simp
      rw [if_neg hE, if_neg hM] at h
      left
      refine ⟨0, Nat.succ_pos n, ?_, fun i hi => absurd hi (Nat.not_lt_zero i), ?_⟩
      · show (t.table p.call.1).state ≠ condition.BUSY
        rw [hD]; decide
      · rw [if_pos hD]
        simpa using insert_key_loop_of_miss_deleted t k n p.call.2 p.call.1 hr' h
    · rw [if_neg hD]
      by_cases hE : (t.table p.call.1).state = condition.EMPTY
      · left
        refine ⟨0, Nat.succ_pos n, ?_, fun i hi => absurd hi (Nat.not_lt_zero i), ?_⟩
        · show (t.table p.call.1).state ≠ condition.BUSY
          rw [hE]; decide
        · rw [if_pos hE]
          simp [ProbPolicy.nth]
      · rw [if_neg hE] at h ⊢
        have hB : (t.table p.call.1).state = condition.BUSY := by
          cases hs : (t.table p.call.1).state <;> simp_all
        by_cases hK : (t.table p.call.1).pair.1 = k
        · rw [if_pos ⟨hB, hK⟩] at h
          exact absurd h (hr 0 (Nat.succ_pos n))
        · have hM : ¬((t.table p.call.1).state = condition.BUSY ∧ (t.table p.call.1).pair.1 = k) :=
            fun hc => hK hc.2
          rw [if_neg hM] at h
          rw [if_neg hK]
          rcases ih p.call.2 hr' h with ⟨j, hj, hnb, hpre, he⟩ | ⟨hall, he⟩
          · left
            refine ⟨j + 1, Nat.succ_lt_succ hj, hnb, ?_, he⟩
            intro i hi
            cases i with
            | zero => exact ⟨hB, hK⟩
            | succ i => exact hpre i (Nat.lt_of_succ_lt_succ hi)
          · right
            refine ⟨?_, he⟩
            intro j hj
            cases j with
            | zero => exact ⟨hB, hK⟩
            | succ j => exact hall j (Nat.lt_of_succ_lt_succ hj)

end Loops

section Slots

variable {Key T : Type} [DecidableEq Key]

/-! ## Counting slots -/

theorem countP_update_aux (q q' : Nat → Bool) (pos : Nat) (hq : ∀ i, i ≠ pos → q' i = q i)
    (c : Nat) :
    (List.range c).countP q' + (if pos < c ∧ q pos = true then 1 else 0)
      = (List.range c).countP q + (if pos < c ∧ q' pos = true then 1 else 0) := by
  induction c with
  | zero => simp
  | succ c ih =>
    rw [List.range_succ, List.countP_append, List.countP_append]
    simp only [List.countP_cons, List.countP_nil, Nat.zero_add]
    by_cases hpc : pos = c
    · subst hpc
      have h1 : ¬ (pos < pos ∧ q pos = true) := fun h => Nat.lt_irrefl _ h.1
      have h2 : ¬ (pos < pos ∧ q' pos = true) := fun h => Nat.lt_irrefl _ h.1
      rw [if_neg h1, if_neg h2] at ih
      simp only [Nat.lt_succ_self, true_and]
      omega
    · have e := hq c (Ne.symm hpc)
      rw [e]
      have l1 : pos < c + 1 ↔ pos < c := by omega
      simp only [l1]
      omega

theorem busyCount_le (t : HashTable Key T) : busyCount t ≤ t.tableSize := by
  unfold busyCount
  calc _ ≤ (List.range t.tableSize).length := List.countP_le_length _
    _ = t.tableSize := List.length_range _

theorem exists_not_busy (t : HashTable Key T) (h : busyCount t < t.tableSize) :
    ∃ s, s < t.tableSize ∧ (t.table s).state ≠ condition.BUSY := by
  by_contra hc
  push_neg at hc
  have : busyCount t = (List.range t.tableSize).length := by
    unfold busyCount
    rw [List.countP_eq_length]
    intro a ha
    simpa using hc a (List.mem_range.mp ha)
  rw [List.length_range] at this
  omega

theorem busyCount_put (t : HashTable Key T) (pos : Nat) (k : Key) (w : T)
    (hp : pos < t.tableSize) (hs : (t.table pos).state ≠ condition.BUSY) :
    busyCount (put t pos k w) = busyCount t + 1 := by
  have h := countP_update_aux
    (fun i => decide ((t.table i).state = condition.BUSY))
    (fun i => decide (((put t pos k w).table i).state = condition.BUSY)) pos
    (by intro i hi; simp [put, Function.update_noteq hi]) t.tableSize
  simp only [put, Function.update_same, decide_eq_true_eq, and_true, hp, hs, and_false,
    if_true, if_false] at h
  unfold busyCount
  simpa [put] using h

theorem busyCount_congr (t t' : HashTable Key T) (hc : t'.tableSize = t.tableSize)
    (hs : ∀ i, (t'.table i).state = (t.table i).state) : busyCount t' = busyCount t := by
  unfold busyCount
  rw [hc]
  congr 1
  funext i
  rw [hs]

end Slots

section Single

variable {Key T : Type} [DecidableEq Key]
variable (hasher : Key → Nat → Nat)

/-! ## Probes of a table -/

theorem Inv.cap_pow {t : HashTable Key T} (h : Inv hasher t) :
    ∃ n, t.tableSize = 2 ^ n := by
  obtain ⟨a, ha⟩ := h.cap
  refine ⟨10 + a, ?_⟩
  rw [ha, pow_add]
  rfl

theorem Inv.cap_pos {t : HashTable Key T} (h : Inv hasher t) : 0 < t.tableSize := by
  obtain ⟨n, hn⟩ := h.cap_pow
  rw [hn]
  exact Nat.pos_pow_of_pos n (by decide)

theorem probe_lt (hh : HashRange hasher) (t : HashTable Key T) (hc : 0 < t.tableSize)
    (k : Key) (j : Nat) : probe hasher t k j < t.tableSize :=
  nth_new_lt _ _ (hh k _ hc) j

theorem probe_congr (t t' : HashTable Key T) (hc : t'.tableSize = t.tableSize)
    (k : Key) (j : Nat) : probe hasher t' k j = probe hasher t k j := by
  unfold probe
  rw [hc]

theorem probe_surj (hh : HashRange hasher) {t : HashTable Key T} (hi : Inv hasher t)
    (k : Key) (s : Nat) (hs : s < t.tableSize) :
    ∃ j, j < t.tableSize ∧ probe hasher t k j = s := by
  obtain ⟨n, hn⟩ := hi.cap_pow
  have hc := hi.cap_pos
  have h1 := hh k _ hc
  unfold probe
  rw [hn] at h1 hs ⊢
  exact nth_new_surj n _ s h1 hs

/-! ## `find` on a table satisfying the invariant -/

theorem find_end_ptr (t : HashTable Key T) (k : Key) :
    (find hasher t k).end_ptr = t.tableSize :=
  find_loop_end_ptr t k _ _

/-- A hit of `find` designates an OCCUPIED slot that holds the key. -/
theorem find_hit_sound (hh : HashRange hasher) (t : HashTable Key T) (hc : 0 < t.tableSize)
    (k : Key) (h : (find hasher t k).ptr ≠ t.tableSize) :
    (find hasher t k).ptr < t.tableSize ∧
      (t.table (find hasher t k).ptr).state = condition.BUSY ∧
      (t.table (find hasher t k).ptr).pair.1 = k := by
  obtain ⟨j, _, e, hb, hk, _⟩ := find_loop_hit t k _ _ h
  unfold find
  rw [e]
  exact ⟨probe_lt hasher hh t hc k j, hb, hk⟩

/-- The key of an OCCUPIED slot is found by `find`, at that slot. -/
theorem find_hit_complete (hh : HashRange hasher) {t : HashTable Key T} (hi : Inv hasher t)
    (p : Nat) (hp : p < t.tableSize) (hb : (t.table p).state = condition.BUSY) :
    find hasher t (t.table p).pair.1 = ⟨p, t.tableSize⟩ := by
  obtain ⟨j, hj, hjp, hpre⟩ := hi.path p hp hb
  have hb' : (t.table (probe hasher t (t.table p).pair.1 j)).state = condition.BUSY := by
    rw [hjp]; exact hb
  have hk' : (t.table (probe hasher t (t.table p).pair.1 j)).pair.1 = (t.table p).pair.1 := by
    rw [hjp]
  obtain ⟨j0, _, e, hb0, hk0⟩ :=
    find_loop_of_path t (t.table p).pair.1 t.tableSize _ j hj hb' hk' hpre
  have hlt := probe_lt hasher hh t hi.cap_pos (t.table p).pair.1 j0
  have := hi.uniq _ p hlt hp hb0 hb hk0
  unfold find
  rw [e]
  unfold probe at this
  rw [this]

theorem find_miss_iff (hh : HashRange hasher) {t : HashTable Key T} (hi : Inv hasher t)
    (k : Key) : (find hasher t k).ptr = t.tableSize ↔
      ∀ p, p < t.tableSize → (t.table p).state = condition.BUSY → (t.table p).pair.1 ≠ k := by
  constructor
  · intro h p hp hb hk
    have := find_hit_complete hasher hh hi p hp hb
    rw [hk] at this
    rw [this] at h
    simp at h
    omega
  · intro h
    by_contra hne
    obtain ⟨h1, h2, h3⟩ := find_hit_sound hasher hh t hi.cap_pos k hne
    exact h _ h1 h2 h3

/-! ## `lookup` and `Holds` -/

theorem lookup_eq_some_iff (hh : HashRange hasher) {t : HashTable Key T} (hi : Inv hasher t)
    (k : Key) (v : T) : lookup hasher t k = some v ↔ Holds t k v := by
  unfold lookup HashTable.end_
  constructor
  · intro h
    by_cases hf : (find hasher t k).ptr ≠ t.tableSize
    · rw [if_pos hf] at h
      obtain ⟨h1, h2, h3⟩ := find_hit_sound hasher hh t hi.cap_pos k hf
      refine ⟨_, h1, h2, ?_⟩
      apply Prod.ext
      · exact h3
      · exact Option.some.inj h
    · rw [if_neg hf] at h
      exact absurd h (by simp)
  · rintro ⟨p, hp, hb, he⟩
    have hk : (t.table p).pair.1 = k := by rw [he]
    have := find_hit_complete hasher hh hi p hp hb
    rw [hk] at this
    rw [this]
    have hne : p ≠ t.tableSize := by omega
    simp only [ne_eq, hne, not_false_eq_true, if_true, he]

theorem lookup_eq_none_iff (t : HashTable Key T)
    (k : Key) : lookup hasher t k = none ↔ (find hasher t k).ptr = t.tableSize := by
  unfold lookup HashTable.end_
  by_cases hf : (find hasher t k).ptr = t.tableSize
  · simp [hf]
  · simp [hf]

/-- Two tables holding the same pairs answer every lookup alike. -/
theorem lookup_congr (hh : HashRange hasher) {t t' : HashTable Key T}
    (hi : Inv hasher t) (hi' : Inv hasher t')
    (h : ∀ k v, Holds t' k v ↔ Holds t k v) (k : Key) :
    lookup hasher t' k = lookup hasher t k := by
  apply Option.ext
  intro v
  rw [Option.mem_def, Option.mem_def, lookup_eq_some_iff hasher hh hi',
    lookup_eq_some_iff hasher hh hi, h]

theorem Holds.unique {t : HashTable Key T} (hi : Inv hasher t) {k : Key} {v w : T}
    (h1 : Holds t k v) (h2 : Holds t k w) : v = w := by
  obtain ⟨p, hp, hb, he⟩ := h1
  obtain ⟨q, hq, hb', he'⟩ := h2
  have := hi.uniq p q hp hq hb hb' (by rw [he, he'])
  subst this
  rw [he] at he'
  exact (Prod.mk.inj he').2

end Single

section Preserve

variable {Key T : Type} [DecidableEq Key]
variable (hasher : Key → Nat → Nat)

/-! ## Preservation of the structural invariant -/

/-- The invariant only reads the capacity, the states and the keys. -/
theorem Inv.congr {t t' : HashTable Key T} (hi : Inv hasher t)
    (hc : t'.tableSize = t.tableSize)
    (hs : ∀ i, (t'.table i).state = (t.table i).state)
    (hk : ∀ i, (t'.table i).pair.1 = (t.table i).pair.1) : Inv hasher t' := by
  constructor
  · rw [hc]; exact hi.cap
  · intro p q hp hq hbp hbq he
    rw [hc] at hp hq
    rw [hs] at hbp hbq
    rw [hk, hk] at he
    exact hi.uniq p q hp hq hbp hbq he
  · intro p hp hb
    rw [hc] at hp
    rw [hs] at hb
    obtain ⟨j, hj, hjp, hpre⟩ := hi.path p hp hb
    refine ⟨j, by rw [hc]; exact hj, ?_, ?_⟩
    · rw [hk, probe_congr hasher t t' hc]; exact hjp
    · intro i hij
      rw [hk, probe_congr hasher t t' hc, hs]
      exact hpre i hij

theorem Inv.bump_keeps {t : HashTable Key T} (hi : Inv hasher t) : Inv hasher (bump t) := by
  have hc : (artemreyt.bump t).tableSize = t.tableSize := rfl
  exact hi.congr hasher hc (fun _ => rfl) (fun _ => rfl)

theorem Inv.write_value_keeps {t : HashTable Key T} (hi : Inv hasher t) (pos : Nat) (v : T) :
    Inv hasher (write_value t pos v) := by
  have hc : (artemreyt.write_value t pos v).tableSize = t.tableSize := rfl
  apply hi.congr hasher hc
  · intro i
    by_cases h : i = pos
    · subst h; simp [artemreyt.write_value]
    · simp [artemreyt.write_value, Function.update_noteq h]
  · intro i
    by_cases h : i = pos
    · subst h; simp [artemreyt.write_value]
    · simp [artemreyt.write_value, Function.update_noteq h]

theorem put_state (t : HashTable Key T) (pos : Nat) (k : Key) (w : T) (i : Nat) :
    ((put t pos k w).table i).state
      = if i = pos then condition.BUSY else (t.table i).state := by
  by_cases h : i = pos
  · subst h; simp [put]
  · simp [put, Function.update_noteq h, h]

theorem put_pair (t : HashTable Key T) (pos : Nat) (k : Key) (w : T) (i : Nat) :
    ((put t pos k w).table i).pair = if i = pos then (k, w) else (t.table i).pair := by
  by_cases h : i = pos
  · subst h; simp [put]
  · simp [put, Function.update_noteq h, h]

/-- Filling a slot on the probe path of an absent key, with no EMPTY slot before it on
that path, keeps the invariant. -/
theorem Inv.put_keeps {t : HashTable Key T} (hi : Inv hasher t) (pos : Nat) (k : Key) (w : T)
    (habs : ∀ p, p < t.tableSize → (t.table p).state = condition.BUSY → (t.table p).pair.1 ≠ k)
    (j : Nat) (hj : j < t.tableSize) (hjp : probe hasher t k j = pos)
    (hpre : ∀ i, i < j → (t.table (probe hasher t k i)).state ≠ condition.EMPTY) :
    Inv hasher (artemreyt.put t pos k w) := by
  have hc : (artemreyt.put t pos k w).tableSize = t.tableSize := rfl
  constructor
  · exact hi.cap
  · intro p q hp' hq' hbp hbq he
    rw [put_state] at hbp hbq
    rw [put_pair, put_pair] at he
    by_cases h1 : p = pos
    · by_cases h2 : q = pos
      · rw [h1, h2]
      · rw [if_neg h2] at hbq
        rw [if_pos h1, if_neg h2] at he
        exact absurd he.symm (habs q hq' hbq)
    · rw [if_neg h1] at hbp
      by_cases h2 : q = pos
      · rw [if_neg h1, if_pos h2] at he
        exact absurd he (habs p hp' hbp)
      · rw [if_neg h2] at hbq
        rw [if_neg h1, if_neg h2] at he
        exact hi.uniq p q hp' hq' hbp hbq he
  · intro p hp' hb
    rw [put_state] at hb
    rw [put_pair]
    by_cases h1 : p = pos
    · rw [if_pos h1]
      refine ⟨j, hj, ?_, ?_⟩
      · rw [probe_congr hasher t _ hc, h1]; exact hjp
      · intro i hij
        rw [probe_congr hasher t _ hc, put_state]
        split_ifs
        · decide
        · exact hpre i hij
    · rw [if_neg h1] at hb ⊢
      obtain ⟨j', hj', hjp', hpre'⟩ := hi.path p hp' hb
      refine ⟨j', hj', ?_, ?_⟩
      · rw [probe_congr hasher t _ hc]; exact hjp'
      · intro i hij
        rw [probe_congr hasher t _ hc, put_state]
        split_ifs
        · decide
        · exact hpre' i hij

theorem tombstone_state (t : HashTable Key T) (pos i : Nat) :
    ((tombstone t pos).table i).state
      = if i = pos then condition.DELETED else (t.table i).state := by
  by_cases h : i = pos
  · subst h; simp [tombstone]
  · simp [tombstone, Function.update_noteq h, h]

theorem tombstone_pair (t : HashTable Key T) (pos i : Nat) :
    ((tombstone t pos).table i).pair = (t.table i).pair := by
  by_cases h : i = pos
  · subst h; simp [tombstone]
  · simp [tombstone, Function.update_noteq h]

/-- Turning a slot into a tombstone, as `erase` does, keeps the invariant. -/
theorem Inv.tombstone_keeps {t : HashTable Key T} (hi : Inv hasher t) (pos : Nat) :
    Inv hasher (artemreyt.tombstone t pos) := by
  have hst := tombstone_state t pos
  have hpr := tombstone_pair t pos
  constructor
  · exact hi.cap
  · intro p q hp hq hbp hbq he
    simp only [hst, hpr] at hbp hbq he
    by_cases h1 : p = pos
    · rw [if_pos h1] at hbp; exact absurd hbp (by decide)
    · by_cases h2 : q = pos
      · rw [if_pos h2] at hbq; exact absurd hbq (by decide)
      · rw [if_neg h1] at hbp
        rw [if_neg h2] at hbq
        exact hi.uniq p q hp hq hbp hbq he
  · intro p hp hb
    simp only [hst, hpr] at hb ⊢
    by_cases h1 : p = pos
    · rw [if_pos h1] at hb; exact absurd hb (by decide)
    · rw [if_neg h1] at hb
      obtain ⟨j, hj, hjp, hpre⟩ := hi.path p hp hb
      have hc' : (artemreyt.tombstone t pos).tableSize = t.tableSize := rfl
      refine ⟨j, hj, by rw [probe_congr hasher t _ hc']; exact hjp, ?_⟩
      intro i hij
      have := hpre i hij
      have hc : (artemreyt.tombstone t pos).tableSize = t.tableSize := rfl
      rw [probe_congr hasher t _ hc]
      split_ifs
      · decide
      · exact this

/-- A freshly allocated slot array satisfies the invariant. -/
theorem Inv.of_blank [Inhabited Key] [Inhabited T] (c : Nat) (L : ℚ)
    (hc : ∃ a, c = start_size * 2 ^ a) :
    Inv hasher (artemreyt.blank c L : HashTable Key T) := by
  constructor
  · exact hc
  · intro p q _ _ hbp
    exact absurd hbp (by simp [artemreyt.blank, node_t.fresh])
  · intro p _ hb
    exact absurd hb (by simp [artemreyt.blank, node_t.fresh])

theorem busyCount_blank [Inhabited Key] [Inhabited T] (c : Nat) (L : ℚ) :
    busyCount (blank c L : HashTable Key T) = 0 := by
  unfold busyCount
  rw [List.countP_eq_zero]
  intro a _
  simp [blank, node_t.fresh]

/-! ## How the held pairs change -/

theorem Holds_put (t : HashTable Key T) (pos : Nat) (k : Key) (w : T)
    (hp : pos < t.tableSize) (hs : (t.table pos).state ≠ condition.BUSY) (k' : Key) (v' : T) :
    Holds (put t pos k w) k' v' ↔ Holds t k' v' ∨ (k' = k ∧ v' = w) := by
  constructor
  · rintro ⟨p, hp', hb, he⟩
    rw [put_state] at hb
    rw [put_pair] at he
    by_cases h1 : p = pos
    · rw [if_pos h1] at he
      right
      exact ⟨(Prod.mk.inj he).1.symm, (Prod.mk.inj he).2.symm⟩
    · rw [if_neg h1] at hb he
      left
      exact ⟨p, hp', hb, he⟩
  · rintro (⟨p, hp', hb, he⟩ | ⟨rfl, rfl⟩)
    · have h1 : p ≠ pos := by
        rintro rfl
        exact hs hb
      refine ⟨p, hp', ?_, ?_⟩
      · rw [put_state, if_neg h1]; exact hb
      · rw [put_pair, if_neg h1]; exact he
    · refine ⟨pos, hp, ?_, ?_⟩
      · rw [put_state, if_pos rfl]
      · rw [put_pair, if_pos rfl]

theorem Holds_write_value {t : HashTable Key T} (hi : Inv hasher t) (pos : Nat) (v : T)
    (hp : pos < t.tableSize) (hb : (t.table pos).state = condition.BUSY) (k' : Key) (v' : T) :
    Holds (write_value t pos v) k' v' ↔
      (k' ≠ (t.table pos).pair.1 ∧ Holds t k' v') ∨ (k' = (t.table pos).pair.1 ∧ v' = v) := by
  have hst : ∀ i, ((write_value t pos v).table i).state = (t.table i).state := by
    intro i
    by_cases h : i = pos
    · subst h; simp [write_value]
    · simp [write_value, Function.update_noteq h]
  have hpr : ∀ i, ((write_value t pos v).table i).pair
      = if i = pos then ((t.table pos).pair.1, v) else (t.table i).pair := by
    intro i
    by_cases h : i = pos
    · subst h; simp [write_value]
    · simp [write_value, Function.update_noteq h, h]
  constructor
  · rintro ⟨p, hp', hb', he⟩
    rw [hst] at hb'
    rw [hpr] at he
    by_cases h1 : p = pos
    · rw [if_pos h1] at he
      right
      exact ⟨(Prod.mk.inj he).1.symm, (Prod.mk.inj he).2.symm⟩
    · rw [if_neg h1] at he
      left
      refine ⟨?_, p, hp', hb', he⟩
      intro hk
      apply h1
      apply hi.uniq p pos hp' hp hb' hb
      rw [he, hk]
  · rintro (⟨hne, p, hp', hb', he⟩ | ⟨rfl, rfl⟩)
    · have h1 : p ≠ pos := by
        rintro rfl
        apply hne
        rw [he]
      refine ⟨p, hp', ?_, ?_⟩
      · rw [hst]; exact hb'
      · rw [hpr, if_neg h1]; exact he
    · refine ⟨pos, hp, ?_, ?_⟩
      · rw [hst]; exact hb
      · rw [hpr, if_pos rfl]

theorem Holds_tombstone {t : HashTable Key T} (hi : Inv hasher t) (pos : Nat)
    (hp : pos < t.tableSize) (hb : (t.table pos).state = condition.BUSY) (k' : Key) (v' : T) :
    Holds (tombstone t pos) k' v' ↔
      (k' ≠ (t.table pos).pair.1 ∧ Holds t k' v') := by
  constructor
  · rintro ⟨p, hp', hb', he⟩
    rw [tombstone_state] at hb'
    rw [tombstone_pair] at he
    by_cases h1 : p = pos
    · rw [if_pos h1] at hb'
      exact absurd hb' (by decide)
    · rw [if_neg h1] at hb'
      refine ⟨?_, p, hp', hb', he⟩
      intro hk
      apply h1
      apply hi.uniq p pos hp' hp hb' hb
      rw [he, hk]
  · rintro ⟨hne, p, hp', hb', he⟩
    have h1 : p ≠ pos := by
      rintro rfl
      apply hne
      rw [he]
    refine ⟨p, hp', ?_, ?_⟩
    · rw [tombstone_state, if_neg h1]; exact hb'
    · rw [tombstone_pair]; exact he

theorem Holds_congr_table {t t' : HashTable Key T} (hc : t'.tableSize = t.tableSize)
    (ht : t'.table = t.table) (k : Key) (v : T) : Holds t' k v ↔ Holds t k v := by
  unfold Holds
  rw [hc, ht]

end Preserve

/-! ## Size bookkeeping of `rehash` -/

theorem two_mul_le_two_pow (d : Nat) : 2 * d ≤ 2 ^ d := by
  induction d with
  | zero => simp
  | succ n ih =>
    rw [pow_succ]
    have : 1 ≤ 2 ^ n := Nat.one_le_two_pow
    omega

theorem Sized.init (L : ℚ) (c0 : Nat) : Sized L c0 0 (c0 * 2) 0 := by
  constructor
  · exact ⟨0, by ring⟩
  · exact Nat.le_refl 0
  · simp; omega
  · exact Or.inl rfl
  · intro _; exact ⟨by ring, rfl⟩

theorem Sized.cap_ge {L : ℚ} {c0 n c e : Nat} (h : Sized L c0 n c e) : 2 * c0 ≤ c := by
  obtain ⟨b, hb⟩ := h.cap
  rw [hb]
  exact Nat.le_mul_of_pos_right _ (Nat.pos_pow_of_pos b (by decide))

/-- One more entry placed without a nested rehash. -/
theorem Sized.step {L : ℚ} {c0 n c e : Nat} (h : Sized L c0 n c e) :
    Sized L c0 (n + 1) c (e + 1) := by
  constructor
  · exact h.cap
  · exact Nat.succ_le_succ h.cnt_le
  · rw [Nat.add_sub_add_right]; exact h.drift
  · rcases h.nest with h1 | h1
    · left; rw [h1]
    · right; exact h1
  · intro hl
    obtain ⟨h1, h2⟩ := h.plain hl
    exact ⟨h1, by rw [h2]⟩

/-- The load-factor test can only succeed during a rehash when the threshold is at most
one half. -/
theorem half_of_overloaded (L : ℚ) (c0 n c e : Nat) (hc0 : 0 < c0) (hc : 2 * c0 ≤ c)
    (he : e ≤ n) (hn : n < c0) (hov : ((e + 1 : Nat) : ℚ) / (c : ℚ) ≥ L) : 2 * L ≤ 1 := by
  have hcpos : (0 : ℚ) < (c : ℚ) := by
    have : 0 < c := by omega
    exact_mod_cast this
  have h1 : L * (c : ℚ) ≤ ((e + 1 : Nat) : ℚ) := by
    have := (le_div_iff₀ hcpos).mp hov
    exact this
  have h2 : (2 : ℚ) * ((e + 1 : Nat) : ℚ) ≤ (c : ℚ) := by
    have : 2 * (e + 1) ≤ c := by omega
    exact_mod_cast this
  by_contra hcon
  push_neg at hcon
  have h3 : (c : ℚ) < 2 * L * (c : ℚ) := by
    have := mul_lt_mul_of_pos_right hcon hcpos
    linarith
  linarith

/-- One more entry placed after a nested rehash of the table under construction. -/
theorem Sized.nested {L : ℚ} {c0 n c e c1 e1 : Nat} (h : Sized L c0 n c e)
    (hc0 : 0 < c0) (hn : n < c0) (hov : ((e + 1 : Nat) : ℚ) / (c : ℚ) ≥ L)
    (h1 : Sized L c n c1 e1) : Sized L c0 (n + 1) c1 e1 := by
  have hge := h.cap_ge
  have hhalf : 2 * L ≤ 1 := half_of_overloaded L c0 n c e hc0 hge h.cnt_le hn hov
  constructor
  · obtain ⟨b, hb⟩ := h.cap
    obtain ⟨b1, hb1⟩ := h1.cap
    refine ⟨b + b1 + 1, ?_⟩
    rw [hb1, hb]
    ring
  · exact Nat.le_succ_of_le h1.cnt_le
  · have hd := h1.drift
    have he1 := h1.cnt_le
    have e2 : n + 1 - e1 = (n - e1) + 1 := by omega
    rw [e2, pow_succ]
    calc 2 ^ (n - e1) * 2 * (2 * c0) = 2 ^ (n - e1) * (2 * (2 * c0)) := by ring
      _ ≤ 2 ^ (n - e1) * (2 * c) := Nat.mul_le_mul_left _ (by omega)
      _ ≤ c1 := hd
  · exact Or.inr hhalf
  · intro hl
    exfalso
    linarith

section InsertSpec

variable {Key T : Type} [DecidableEq Key]
variable (hasher : Key → Nat → Nat)

/-! ## `insert_key` and `insert` after the load-factor check -/

theorem insert_key_with_of_pre (rh : HashTable Key T → Except Exn (HashTable Key T))
    {t t1 : HashTable Key T} (hpre : Pre rh t t1) (k : Key) :
    insert_key_with hasher rh t k = insert_key_probe hasher t1 k := by
  unfold insert_key_with
  rcases hpre with ⟨hov, he⟩ | ⟨hov, he⟩
  · unfold overloaded at hov
    unfold bump at he
    rw [if_pos hov, he]
  · unfold overloaded at hov
    rw [if_neg hov, he]
    rfl

theorem insert_key_probe_present {t : HashTable Key T} (k : Key)
    (hf : (find hasher t k).ptr ≠ t.tableSize) :
    insert_key_probe hasher t k = Except.ok (t, t.end_) :=
  insert_key_loop_of_hit t k _ _ _ hf

/-- On a table with a free slot, `insert_key` puts an absent key into the first slot of
its probe sequence that is not OCCUPIED. -/
theorem insert_key_probe_absent (hh : HashRange hasher) {t : HashTable Key T}
    (hi : Inv hasher t) (k : Key) (hf : (find hasher t k).ptr = t.tableSize)
    (hfree : busyCount t < t.tableSize) :
    ∃ j, j < t.tableSize ∧ (t.table (probe hasher t k j)).state ≠ condition.BUSY ∧
      (∀ i, i < j → (t.table (probe hasher t k i)).state = condition.BUSY ∧
        (t.table (probe hasher t k i)).pair.1 ≠ k) ∧
      insert_key_probe hasher t k = Except.ok (fillNode t (probe hasher t k j) k) := by
  have hr : ∀ j, j < t.tableSize →
      (ProbPolicy.new (hasher k t.tableSize) t.tableSize).nth j ≠ t.tableSize := by
    intro j _
    exact Nat.ne_of_lt (probe_lt hasher hh t hi.cap_pos k j)
  rcases insert_key_loop_of_miss t k t.tableSize _ 0 hr hf with ⟨j, hj, hnb, hpre, he⟩ | ⟨hall, _⟩
  · exact ⟨j, hj, hnb, hpre, he⟩
  · exfalso
    obtain ⟨s, hs, hsb⟩ := exists_not_busy t hfree
    obtain ⟨j, hj, hjs⟩ := probe_surj hasher hh hi k s hs
    apply hsb
    rw [← hjs]
    exact (hall j hj).1

theorem fillNode_eq (t : HashTable Key T) (pos : Nat) (k : Key) :
    fillNode t pos k = (put t pos k (t.table pos).pair.2, ⟨pos, t.tableSize⟩) := rfl

theorem put_put (t : HashTable Key T) (pos : Nat) (k : Key) (w v : T) :
    ({ put t pos k w with
        table := Function.update (put t pos k w).table pos
          (node_t.mk ((put t pos k w).table pos).state (k, v)) } : HashTable Key T)
      = put t pos k v := by
  simp [put]

theorem insert_with_present (rh : HashTable Key T → Except Exn (HashTable Key T))
    {t t1 : HashTable Key T} (hpre : Pre rh t t1) (k : Key) (v : T)
    (hf : (find hasher t1 k).ptr ≠ t1.tableSize) :
    insert_with hasher rh t (k, v) = Except.ok (t1, t1.end_) := by
  unfold insert_with
  rw [insert_key_with_of_pre hasher rh hpre, insert_key_probe_present hasher k hf]
  simp

theorem insert_with_absent (hh : HashRange hasher)
    (rh : HashTable Key T → Except Exn (HashTable Key T))
    {t t1 : HashTable Key T} (hpre : Pre rh t t1) (hi : Inv hasher t1) (k : Key) (v : T)
    (hf : (find hasher t1 k).ptr = t1.tableSize) (hfree : busyCount t1 < t1.tableSize) :
    ∃ j, j < t1.tableSize ∧ (t1.table (probe hasher t1 k j)).state ≠ condition.BUSY ∧
      (∀ i, i < j → (t1.table (probe hasher t1 k i)).state = condition.BUSY ∧
        (t1.table (probe hasher t1 k i)).pair.1 ≠ k) ∧
      insert_with hasher rh t (k, v)
        = Except.ok (put t1 (probe hasher t1 k j) k v, ⟨probe hasher t1 k j, t1.tableSize⟩) := by
  obtain ⟨j, hj, hnb, hprev, he⟩ := insert_key_probe_absent hasher hh hi k hf hfree
  refine ⟨j, hj, hnb, hprev, ?_⟩
  have hlt := probe_lt hasher hh t1 hi.cap_pos k j
  unfold insert_with
  rw [insert_key_with_of_pre hasher rh hpre, he, fillNode_eq]
  have hne : probe hasher t1 k j ≠ (put t1 (probe hasher t1 k j) k
      (t1.table (probe hasher t1 k j)).pair.2).end_.ptr := by
    show probe hasher t1 k j ≠ t1.tableSize
    omega
  simp only [ne_eq, hne, not_false_eq_true, if_true]
  rw [put_put]

/-- What a successful placement of an absent key establishes. -/
theorem put_facts (hh : HashRange hasher) {t1 : HashTable Key T} (hi : Inv hasher t1)
    (k : Key) (v : T) (hf : (find hasher t1 k).ptr = t1.tableSize) (j : Nat)
    (hj : j < t1.tableSize)
    (hnb : (t1.table (probe hasher t1 k j)).state ≠ condition.BUSY)
    (hprev : ∀ i, i < j → (t1.table (probe hasher t1 k i)).state = condition.BUSY ∧
        (t1.table (probe hasher t1 k i)).pair.1 ≠ k) :
    Inv hasher (put t1 (probe hasher t1 k j) k v) ∧
    busyCount (put t1 (probe hasher t1 k j) k v) = busyCount t1 + 1 ∧
    (∀ k' v', Holds (put t1 (probe hasher t1 k j) k v) k' v' ↔
      Holds t1 k' v' ∨ (k' = k ∧ v' = v)) := by
  have hlt := probe_lt hasher hh t1 hi.cap_pos k j
  refine ⟨?_, busyCount_put t1 _ k v hlt hnb, Holds_put t1 _ k v hlt hnb⟩
  apply hi.put_keeps hasher _ k v ((find_miss_iff hasher hh hi k).mp hf) j hj rfl
  intro i hij
  rw [(hprev i hij).1]
  decide

end InsertSpec

section RehashSpec

variable {Key T : Type} [DecidableEq Key] [Inhabited Key] [Inhabited T]
variable (hasher : Key → Nat → Nat)

/-! ## `rehash` -/

theorem find_miss_of_not_holds (hh : HashRange hasher) {t : HashTable Key T}
    (hi : Inv hasher t) (k : Key) (h : ∀ w, ¬ Holds t k w) :
    (find hasher t k).ptr = t.tableSize := by
  rw [find_miss_iff hasher hh hi]
  intro p hp hb hk
  apply h (t.table p).pair.2
  exact ⟨p, hp, hb, by rw [← hk]⟩

theorem not_holds_of_find_miss (hh : HashRange hasher) {t : HashTable Key T}
    (hi : Inv hasher t) (k : Key) (h : (find hasher t k).ptr = t.tableSize) (w : T) :
    ¬ Holds t k w := by
  rintro ⟨p, hp, hb, he⟩
  exact (find_miss_iff hasher hh hi k).mp h p hp hb (by rw [he])

/-- One insertion of the loop of `rehash`: an entry whose key is not yet in the table
under construction is added, whether or not a nested rehash takes place. -/
theorem rehash_insert_step (hh : HashRange hasher)
    (rh : HashTable Key T → Except Exn (HashTable Key T)) (L : ℚ) (c0 n : Nat)
    (acc : HashTable Key T) (k : Key) (v : T)
    (hc0 : 0 < c0) (hn : n < c0)
    (hi : Inv hasher acc)
    (hnd : ∀ i, i < acc.tableSize → (acc.table i).state ≠ condition.DELETED)
    (hb : busyCount acc = n) (hl : acc.maxLoadFactor = L)
    (hs : Sized L c0 n acc.tableSize acc.elementsCount)
    (hrh : overloaded acc → ∃ t1, rh (bump acc) = Except.ok t1 ∧ RehashPost hasher (bump acc) t1)
    (habs : ∀ w, ¬ Holds acc k w) :
    ∃ acc2 it, insert_with hasher rh acc (k, v) = Except.ok (acc2, it) ∧
      Inv hasher acc2 ∧
      (∀ i, i < acc2.tableSize → (acc2.table i).state ≠ condition.DELETED) ∧
      busyCount acc2 = n + 1 ∧ acc2.maxLoadFactor = L ∧
      Sized L c0 (n + 1) acc2.tableSize acc2.elementsCount ∧
      (∀ k' v', Holds acc2 k' v' ↔ Holds acc k' v' ∨ (k' = k ∧ v' = v)) := by
  -- the table in which the probing loop runs
  have key : ∃ t1, Pre rh acc t1 ∧ Inv hasher t1 ∧
      (∀ i, i < t1.tableSize → (t1.table i).state ≠ condition.DELETED) ∧
      busyCount t1 = n ∧ t1.maxLoadFactor = L ∧
      Sized L c0 (n + 1) t1.tableSize t1.elementsCount ∧
      (∀ k' v', Holds t1 k' v' ↔ Holds acc k' v') := by
    by_cases hov : overloaded acc
    · obtain ⟨t1, e1, hi1, hnd1, hb1, hl1, hs1, hh1⟩ := hrh hov
      have hbb : busyCount (bump acc) = n := hb
      rw [hbb] at hb1 hs1
      have hlb : (bump acc).maxLoadFactor = L := hl
      rw [hlb] at hl1 hs1
      refine ⟨t1, Or.inl ⟨hov, e1⟩, hi1, hnd1, hb1, hl1, ?_, hh1⟩
      have hov' : ((acc.elementsCount + 1 : Nat) : ℚ) / (acc.tableSize : ℚ) ≥ L := by
        rw [← hl]; exact hov
      exact hs.nested hc0 hn hov' hs1
    · exact ⟨bump acc, Or.inr ⟨hov, rfl⟩, hi.bump_keeps hasher, hnd, hb, hl, hs.step,
        fun _ _ => Iff.rfl⟩
  obtain ⟨t1, hpre, hi1, hnd1, hb1, hl1, hs1, hh1⟩ := key
  have hmiss : (find hasher t1 k).ptr = t1.tableSize :=
    find_miss_of_not_holds hasher hh hi1 k (fun w hw => habs w ((hh1 k w).mp hw))
  have hfree : busyCount t1 < t1.tableSize := by
    have := hs1.cap_ge
    omega
  obtain ⟨j, hj, hnb, hprev, he⟩ := insert_with_absent hasher hh rh hpre hi1 k v hmiss hfree
  obtain ⟨hi2, hb2, hh2⟩ := put_facts hasher hh hi1 k v hmiss j hj hnb hprev
  refine ⟨_, _, he, hi2, ?_, by rw [hb2, hb1], hl1, hs1, ?_⟩
  · intro i hi'
    rw [put_state]
    split_ifs
    · decide
    · exact hnd1 i hi'
  · intro k' v'
    rw [hh2, hh1]

/-- The loop of `rehash`, from any point of the scan of the old array on. -/
theorem rehash_loop_spec (hh : HashRange hasher)
    (rh : HashTable Key T → Except Exn (HashTable Key T)) (old : HashTable Key T)
    (hio : Inv hasher old) (f : Nat)
    (hrh : ∀ t1, Inv hasher t1 → busyCount t1 < f →
      ∃ t2, rh t1 = Except.ok t2 ∧ RehashPost hasher t1 t2)
    (hf : busyCount old ≤ f) :
    ∀ (rest done : List Nat) (acc : HashTable Key T),
      done ++ rest = List.range old.tableSize →
      Inv hasher acc →
      (∀ i, i < acc.tableSize → (acc.table i).state ≠ condition.DELETED) →
      busyCount acc = done.countP (fun i => decide ((old.table i).state = condition.BUSY)) →
      acc.maxLoadFactor = old.maxLoadFactor →
      Sized old.maxLoadFactor old.tableSize
        (done.countP (fun i => decide ((old.table i).state = condition.BUSY)))
        acc.tableSize acc.elementsCount →
      (∀ k v, Holds acc k v ↔
        ∃ i, i ∈ done ∧ (old.table i).state = condition.BUSY ∧ (old.table i).pair = (k, v)) →
      ∃ t1, rehash_loop (insert_with hasher rh) old.table rest acc = Except.ok t1 ∧
        RehashPost hasher old t1 := by
  intro rest
  induction rest with
  | nil =>
    intro done acc hd hi hnd hb hl hs hh'
    rw [List.append_nil] at hd
    subst hd
    refine ⟨acc, rfl, hi, hnd, hb, hl, hs, ?_⟩
    intro k v
    rw [hh']
    constructor
    · rintro ⟨i, hi1, hi2, hi3⟩
      exact ⟨i, List.mem_range.mp hi1, hi2, hi3⟩
    · rintro ⟨i, hi1, hi2, hi3⟩
      exact ⟨i, List.mem_range.mpr hi1, hi2, hi3⟩
  | cons i rest ih =>
    intro done acc hd hi hnd hb hl hs hh'
    have hd' : (done ++ [i]) ++ rest = List.range old.tableSize := by
      rw [List.append_assoc]; exact hd
    have hnodup : (done ++ i :: rest).Nodup := by rw [hd]; exact List.nodup_range _
    have hi_notin : i ∉ done := by
      intro hmem
      have := List.disjoint_of_nodup_append hnodup hmem
      exact this (List.mem_cons_self i rest)
    have hic : i < old.tableSize := by
      apply List.mem_range.mp
      rw [← hd]
      exact List.mem_append_right _ (List.mem_cons_self i rest)
    unfold rehash_loop
    by_cases hbusy : (old.table i).state = condition.BUSY
    · have hfr : isFree (old.table i) = false := by simp [isFree, hbusy]
      rw [if_pos hfr]
      -- the number of entries placed so far is below the number of entries
      have hcount : done.countP (fun i => decide ((old.table i).state = condition.BUSY)) + 1
          ≤ busyCount old := by
        unfold busyCount
        rw [← hd, List.countP_append, List.countP_cons]
        simp only [hbusy, decide_True, if_true]
        omega
      have hble := busyCount_le old
      have habs : ∀ w, ¬ Holds acc (old.table i).pair.1 w := by
        intro w hw
        obtain ⟨i', hm, hb', hp'⟩ := (hh' _ _).mp hw
        have hi'c : i' < old.tableSize := by
          apply List.mem_range.mp
          rw [← hd]
          exact List.mem_append_left _ hm
        have := hio.uniq i' i hi'c hic hb' hbusy (by rw [hp'])
        rw [this] at hm
        exact hi_notin hm
      have hrh' : overloaded acc → ∃ t1, rh (bump acc) = Except.ok t1 ∧
          RehashPost hasher (bump acc) t1 := by
        intro _
        apply hrh (bump acc) (hi.bump_keeps hasher)
        have : busyCount (bump acc) = busyCount acc := rfl
        omega
      obtain ⟨acc2, it, he, hi2, hnd2, hb2, hl2, hs2, hh2⟩ :=
        rehash_insert_step hasher hh rh old.maxLoadFactor old.tableSize _ acc
          (old.table i).pair.1 (old.table i).pair.2 (hio.cap_pos hasher) (by omega)
          hi hnd hb hl hs hrh' habs
      have hpe : ((old.table i).pair.1, (old.table i).pair.2) = (old.table i).pair := rfl
      rw [hpe] at he
      rw [he]
      simp only
      have hcnt : (done ++ [i]).countP (fun i => decide ((old.table i).state = condition.BUSY))
          = done.countP (fun i => decide ((old.table i).state = condition.BUSY)) + 1 := by
        rw [List.countP_append]
        simp [hbusy]
      apply ih (done ++ [i]) acc2 hd' hi2 hnd2 (by rw [hb2, hcnt]) hl2 (by rw [hcnt]; exact hs2)
      intro k v
      rw [hh2, hh']
      constructor
      · rintro (⟨i', hm, hb', hp'⟩ | ⟨rfl, rfl⟩)
        · exact ⟨i', List.mem_append_left _ hm, hb', hp'⟩
        · exact ⟨i, List.mem_append_right _ (List.mem_singleton_self i), hbusy, rfl⟩
      · rintro ⟨i', hm, hb', hp'⟩
        rcases List.mem_append.mp hm with hm1 | hm1
        · exact Or.inl ⟨i', hm1, hb', hp'⟩
        · rw [List.mem_singleton.mp hm1] at hp'
          right
          rw [hp']
          exact ⟨rfl, rfl⟩
    · have hfr : ¬ (isFree (old.table i) = false) := by simp [isFree, hbusy]
      rw [if_neg hfr]
      have hcnt : (done ++ [i]).countP (fun i => decide ((old.table i).state = condition.BUSY))
          = done.countP (fun i => decide ((old.table i).state = condition.BUSY)) := by
        rw [List.countP_append]
        simp [hbusy]
      apply ih (done ++ [i]) acc hd' hi hnd (by rw [hb, hcnt]) hl (by rw [hcnt]; exact hs)
      intro k v
      rw [hh']
      constructor
      · rintro ⟨i', hm, hb', hp'⟩
        exact ⟨i', List.mem_append_left _ hm, hb', hp'⟩
      · rintro ⟨i', hm, hb', hp'⟩
        rcases List.mem_append.mp hm with hm1 | hm1
        · exact ⟨i', hm1, hb', hp'⟩
        · rw [List.mem_singleton.mp hm1] at hb'
          exact absurd hb' hbusy

theorem rehash_fuel_succ (fuel : Nat) (t : HashTable Key T) :
    rehash_fuel hasher (fuel + 1) t
      = rehash_loop (insert_with hasher (rehash_fuel hasher fuel)) t.table
          (List.range t.tableSize) (blank (t.tableSize * 2) t.maxLoadFactor) := rfl

/-- With more fuel than the table has OCCUPIED slots, `rehash` returns a table that
satisfies its postcondition; in particular the fuel is never exhausted. -/
theorem rehash_fuel_spec (hh : HashRange hasher) :
    ∀ (fuel : Nat) (t : HashTable Key T), Inv hasher t → busyCount t < fuel →
      ∃ t1, rehash_fuel hasher fuel t = Except.ok t1 ∧ RehashPost hasher t t1 := by
  intro fuel
  induction fuel with
  | zero => intro t _ h; exact absurd h (Nat.not_lt_zero _)
  | succ fuel ih =>
    intro t hi hb
    rw [rehash_fuel_succ]
    apply rehash_loop_spec hasher hh (rehash_fuel hasher fuel) t hi fuel ih (by omega)
      (List.range t.tableSize) [] (blank (t.tableSize * 2) t.maxLoadFactor) rfl
    · apply Inv.of_blank
      obtain ⟨a, ha⟩ := hi.cap
      exact ⟨a + 1, by rw [ha, pow_succ]; ring⟩
    · intro i _
      simp [blank, node_t.fresh]
    · rw [busyCount_blank]; rfl
    · rfl
    · exact Sized.init _ _
    · intro k v
      constructor
      · rintro ⟨p, _, hb', _⟩
        exact absurd hb' (by simp [blank, node_t.fresh])
      · rintro ⟨i, hm, _⟩
        exact absurd hm (List.not_mem_nil i)

theorem rehash_spec (hh : HashRange hasher) (t : HashTable Key T) (hi : Inv hasher t) :
    ∃ t1, rehash hasher t = Except.ok t1 ∧ RehashPost hasher t t1 := by
  unfold rehash
  apply rehash_fuel_spec hasher hh _ t hi
  have := busyCount_le t
  omega

end RehashSpec

section FuelIrrelevance

variable {Key T : Type} [DecidableEq Key] [Inhabited Key] [Inhabited T]
variable (hasher : Key → Nat → Nat)

/-! ## The result of `rehash` does not depend on the fuel -/

theorem insert_with_mono (rh1 rh2 : HashTable Key T → Except Exn (HashTable Key T))
    (h : ∀ t r, rh1 t = Except.ok r → rh2 t = Except.ok r)
    (t : HashTable Key T) (p : Key × T) (r : HashTable Key T × iterator)
    (he : insert_with hasher rh1 t p = Except.ok r) :
    insert_with hasher rh2 t p = Except.ok r := by
  unfold insert_with insert_key_with at he ⊢
  by_cases hov : ((t.elementsCount + 1 : Nat) : ℚ) / (t.tableSize : ℚ) ≥ t.maxLoadFactor
  · rw [if_pos hov] at he ⊢
    cases h1 : rh1 { t with elementsCount := t.elementsCount + 1 } with
    | error e =>
      rw [h1] at he
      simp at he
    | ok t1 =>
      rw [h1] at he
      rw [h _ _ h1]
      exact he
  · rw [if_neg hov] at he ⊢
    exact he

theorem rehash_loop_mono
    (ins1 ins2 : HashTable Key T → Key × T → Except Exn (HashTable Key T × iterator))
    (h : ∀ t p r, ins1 t p = Except.ok r → ins2 t p = Except.ok r)
    (old : Nat → node_t Key T) (l : List Nat) :
    ∀ (acc t1 : HashTable Key T), rehash_loop ins1 old l acc = Except.ok t1 →
      rehash_loop ins2 old l acc = Except.ok t1 := by
  induction l with
  | nil => intro acc t1 he; exact he
  | cons i l ih =>
    intro acc t1 he
    unfold rehash_loop at he ⊢
    by_cases hfr : isFree (old i) = false
    · rw [if_pos hfr] at he ⊢
      cases h1 : ins1 acc (old i).pair with
      | error e =>
        rw [h1] at he
        simp at he
      | ok r =>
        rw [h1] at he
        rw [h _ _ _ h1]
        exact ih _ _ he
    · rw [if_neg hfr] at he ⊢
      exact ih _ _ he

/-- Once `rehash` returns a table with some fuel, it returns the same table with any
larger fuel: the fuel only bounds the depth of nested rehashes. -/
theorem rehash_fuel_mono (fuel : Nat) :
    ∀ (extra : Nat) (t t1 : HashTable Key T), rehash_fuel hasher fuel t = Except.ok t1 →
      rehash_fuel hasher (fuel + extra) t = Except.ok t1 := by
  induction fuel with
  | zero =>
    intro extra t t1 he
    exact absurd he (by simp [rehash_fuel])
  | succ fuel ih =>
    intro extra t t1 he
    have e : fuel + 1 + extra = (fuel + extra) + 1 := by omega
    rw [e, rehash_fuel_succ]
    rw [rehash_fuel_succ] at he
    exact rehash_loop_mono _ _
      (insert_with_mono hasher _ _ (fun t r hr => ih extra t r hr)) _ _ _ _ he

/-- On a table satisfying the invariant, every fuel above the number of OCCUPIED slots
gives the result of the public `rehash`. -/
theorem rehash_fuel_stable (hh : HashRange hasher) (t : HashTable Key T) (hi : Inv hasher t)
    (fuel : Nat) (hf : busyCount t < fuel) :
    rehash_fuel hasher fuel t = rehash hasher t := by
  obtain ⟨t1, he, _⟩ := rehash_fuel_spec hasher hh (busyCount t + 1) t hi (Nat.lt_succ_self _)
  have hle := busyCount_le t
  have h1 := rehash_fuel_mono hasher _ (fuel - (busyCount t + 1)) t t1 he
  have h2 := rehash_fuel_mono hasher _ (t.tableSize + 1 - (busyCount t + 1)) t t1 he
  have e1 : busyCount t + 1 + (fuel - (busyCount t + 1)) = fuel := by omega
  have e2 : busyCount t + 1 + (t.tableSize + 1 - (busyCount t + 1)) = t.tableSize + 1 := by
    omega
  rw [e1] at h1
  rw [e2] at h2
  unfold rehash
  rw [h1, h2]

end FuelIrrelevance

section TopLevel

variable {Key T : Type} [DecidableEq Key] [Inhabited Key] [Inhabited T]
variable (hasher : Key → Nat → Nat)

/-! ## The load-factor check at top level -/

theorem lt_of_not_overloaded (L : ℚ) (c e : Nat) (hc : 0 < c) (hL1 : L ≤ 1)
    (h : ¬ (((e + 1 : Nat) : ℚ) / (c : ℚ) ≥ L)) : e + 1 < c := by
  have hcpos : (0 : ℚ) < (c : ℚ) := by exact_mod_cast hc
  push_neg at h
  have h1 : ((e + 1 : Nat) : ℚ) < L * (c : ℚ) := (div_lt_iff₀ hcpos).mp h
  have h2 : L * (c : ℚ) ≤ (c : ℚ) := by
    have := mul_le_mul_of_nonneg_right hL1 (le_of_lt hcpos)
    linarith
  have h3 : ((e + 1 : Nat) : ℚ) < (c : ℚ) := lt_of_lt_of_le h1 h2
  exact_mod_cast h3

theorem half_lt_of_not_overloaded (L : ℚ) (c e : Nat) (hc : 0 < c) (hL1 : 2 * L ≤ 1)
    (h : ¬ (((e + 1 : Nat) : ℚ) / (c : ℚ) ≥ L)) : 2 * (e + 1) < c := by
  have hcpos : (0 : ℚ) < (c : ℚ) := by exact_mod_cast hc
  push_neg at h
  have h1 : ((e + 1 : Nat) : ℚ) < L * (c : ℚ) := (div_lt_iff₀ hcpos).mp h
  have h2 : 2 * (L * (c : ℚ)) ≤ (c : ℚ) := by
    have := mul_le_mul_of_nonneg_right hL1 (le_of_lt hcpos)
    linarith
  have h3 : (2 : ℚ) * ((e + 1 : Nat) : ℚ) < (c : ℚ) := by linarith
  have h4 : ((2 * (e + 1) : Nat) : ℚ) < (c : ℚ) := by push_cast; push_cast at h3; linarith
  exact_mod_cast h4

/-- A table that passes the load-factor check without a rehash has a free slot. -/
theorem free_of_not_overloaded {t : HashTable Key T} (hc : 0 < t.tableSize)
    (hL1 : t.maxLoadFactor ≤ 1) (hcnt : CountInv t) (hov : ¬ overloaded t) :
    busyCount t < t.tableSize := by
  unfold overloaded at hov
  rcases hcnt with h | ⟨h2, h3⟩
  · have := lt_of_not_overloaded _ _ _ hc hL1 hov
    omega
  · have h4 := half_lt_of_not_overloaded _ _ _ hc h2 hov
    have h5 := two_mul_le_two_pow (busyCount t - t.elementsCount)
    omega

/-- The load-factor check of `insert_key` at top level: it yields a table with the same
entries and a free slot, doubling the capacity zero or more times. -/
theorem pre_top (hh : HashRange hasher) {t : HashTable Key T} (hi : Inv hasher t)
    (hcnt : CountInv t) (hL1 : t.maxLoadFactor ≤ 1) :
    ∃ t1, Pre (rehash hasher) t t1 ∧ Inv hasher t1 ∧ busyCount t1 < t1.tableSize ∧
      t1.maxLoadFactor = t.maxLoadFactor ∧ busyCount t1 = busyCount t ∧
      (∀ k v, Holds t1 k v ↔ Holds t k v) ∧ PreCount t1 ∧
      (∃ b, t1.tableSize = t.tableSize * 2 ^ b) ∧
      (¬ overloaded t → t1 = bump t) ∧
      (overloaded t → RehashPost hasher (bump t) t1) := by
  have hc := hi.cap_pos
  by_cases hov : overloaded t
  · obtain ⟨t1, e1, hpost⟩ := rehash_spec hasher hh (bump t) (hi.bump_keeps hasher)
    obtain ⟨hi1, hnd1, hb1', hl1', hs1', hh1'⟩ := hpost
    have hb1 : busyCount t1 = busyCount t := hb1'
    have hl1 : t1.maxLoadFactor = t.maxLoadFactor := hl1'
    have hs1 : Sized t.maxLoadFactor t.tableSize (busyCount t) t1.tableSize
      t1.elementsCount := hs1'
    have hh1 : ∀ k v, Holds t1 k v ↔ Holds t k v := hh1'
    have hge := hs1.cap_ge
    have hble := busyCount_le t
    refine ⟨t1, Or.inl ⟨hov, e1⟩, hi1, by rw [hb1]; omega, hl1, hb1, hh1, ?_, ?_,
      fun h => absurd hov h, fun _ => ⟨hi1, hnd1, hb1', hl1', hs1', hh1'⟩⟩
    · unfold PreCount
      rw [hb1, hl1]
      rcases hs1.nest with h | h
      · left; omega
      · right
        refine ⟨h, ?_⟩
        have hd := hs1.drift
        have hle := hs1.cnt_le
        have e2 : busyCount t + 1 - t1.elementsCount
            = (busyCount t - t1.elementsCount) + 1 := by omega
        rw [e2, pow_succ]
        calc 2 ^ (busyCount t - t1.elementsCount) * 2
            ≤ 2 ^ (busyCount t - t1.elementsCount) * (2 * t.tableSize) :=
              Nat.mul_le_mul_left _ (by omega)
          _ ≤ t1.tableSize := hd
    · obtain ⟨b, hb⟩ := hs1.cap
      exact ⟨b + 1, by rw [hb, pow_succ]; ring⟩
  · refine ⟨bump t, Or.inr ⟨hov, rfl⟩, hi.bump_keeps hasher, ?_, rfl, rfl, fun _ _ => Iff.rfl, ?_,
      ⟨0, by simp [bump]⟩, fun _ => rfl, fun h => absurd h hov⟩
    · show busyCount t < t.tableSize
      exact free_of_not_overloaded hc hL1 hcnt hov
    · unfold PreCount
      rcases hcnt with h | ⟨h2, h3⟩
      · left; exact h
      · right
        refine ⟨h2, ?_⟩
        have e2 : busyCount (bump t) + 1 - (bump t).elementsCount
            = busyCount t - t.elementsCount := by
          show busyCount t + 1 - (t.elementsCount + 1) = _
          omega
        rw [e2]
        exact h3

theorem CountInv_of_PreCount_same {t1 t2 : HashTable Key T} (h : PreCount t1)
    (hb : busyCount t2 = busyCount t1) (he : t2.elementsCount = t1.elementsCount)
    (hc : t2.tableSize = t1.tableSize) (hl : t2.maxLoadFactor = t1.maxLoadFactor) :
    CountInv t2 := by
  unfold CountInv
  rw [hb, he, hc, hl]
  rcases h with h | ⟨h2, h3⟩
  · left; omega
  · right
    refine ⟨h2, le_trans (Nat.pow_le_pow_right (by decide) (by omega)) h3⟩

theorem CountInv_of_PreCount_succ {t1 t2 : HashTable Key T} (h : PreCount t1)
    (hb : busyCount t2 = busyCount t1 + 1) (he : t2.elementsCount = t1.elementsCount)
    (hc : t2.tableSize = t1.tableSize) (hl : t2.maxLoadFactor = t1.maxLoadFactor) :
    CountInv t2 := by
  unfold CountInv
  rw [hb, he, hc, hl]
  rcases h with h | ⟨h2, h3⟩
  · left; omega
  · right
    exact ⟨h2, h3⟩

theorem CountInv_of_le {t1 t2 : HashTable Key T} (h : CountInv t1)
    (hb : busyCount t2 ≤ busyCount t1) (he : t2.elementsCount = t1.elementsCount)
    (hc : t2.tableSize = t1.tableSize) (hl : t2.maxLoadFactor = t1.maxLoadFactor) :
    CountInv t2 := by
  unfold CountInv
  rw [he, hc, hl]
  rcases h with h | ⟨h2, h3⟩
  · left; omega
  · right
    refine ⟨h2, le_trans (Nat.pow_le_pow_right (by decide) (by omega)) h3⟩

theorem CountInv_of_RehashPost {t t1 : HashTable Key T} (hc : 0 < t.tableSize)
    (h : RehashPost hasher t t1) : CountInv t1 := by
  obtain ⟨_, _, hb1, hl1, hs1, _⟩ := h
  unfold CountInv
  rw [hb1, hl1]
  rcases hs1.nest with h | h
  · left; omega
  · right
    refine ⟨h, ?_⟩
    have hd := hs1.drift
    calc 2 ^ (busyCount t - t1.elementsCount)
        = 2 ^ (busyCount t - t1.elementsCount) * 1 := (Nat.mul_one _).symm
      _ ≤ 2 ^ (busyCount t - t1.elementsCount) * (2 * t.tableSize) :=
          Nat.mul_le_mul_left _ (by omega)
      _ ≤ t1.tableSize := hd

end TopLevel

section OpSpecs

variable {Key T : Type} [DecidableEq Key] [Inhabited Key] [Inhabited T]
variable (hasher : Key → Nat → Nat)

/-! ## Specifications of the public operations -/

theorem find_hit_iff_holds (hh : HashRange hasher) {t : HashTable Key T} (hi : Inv hasher t)
    (k : Key) : (find hasher t k).ptr ≠ t.tableSize ↔ ∃ w, Holds t k w := by
  constructor
  · intro h
    obtain ⟨h1, h2, h3⟩ := find_hit_sound hasher hh t hi.cap_pos k h
    exact ⟨_, _, h1, h2, Prod.ext h3 rfl⟩
  · rintro ⟨w, hw⟩ hm
    exact not_holds_of_find_miss hasher hh hi k hm w hw

theorem find_hit_transport (hh : HashRange hasher) {t t1 : HashTable Key T}
    (hi : Inv hasher t) (hi1 : Inv hasher t1) (h : ∀ k v, Holds t1 k v ↔ Holds t k v)
    (k : Key) : (find hasher t1 k).ptr ≠ t1.tableSize ↔ (find hasher t k).ptr ≠ t.tableSize := by
  rw [find_hit_iff_holds hasher hh hi, find_hit_iff_holds hasher hh hi1]
  constructor
  · rintro ⟨w, hw⟩; exact ⟨w, (h k w).mp hw⟩
  · rintro ⟨w, hw⟩; exact ⟨w, (h k w).mpr hw⟩

theorem Good.of_new (L : ℚ) : Good hasher L (HashTable.new L : HashTable Key T) := by
  refine ⟨Inv.of_blank hasher start_size L ⟨0, by simp⟩, ?_, rfl⟩
  left
  have : busyCount (HashTable.new L : HashTable Key T) = 0 := busyCount_blank start_size L
  rw [this]
  exact Nat.zero_le _

/-- The method `insert` on a good table: it returns, the result is good, a present key
yields `end()` and no change of the entries, an absent key is added with its value. -/
theorem insert_spec (hh : HashRange hasher) {L : ℚ} (hL1 : L ≤ 1) {t : HashTable Key T}
    (hg : Good hasher L t) (k : Key) (v : T) :
    ∃ t2 it, insert hasher t (k, v) = Except.ok (t2, it) ∧ Good hasher L t2 ∧
      (∃ b, t2.tableSize = t.tableSize * 2 ^ b) ∧
      ((find hasher t k).ptr ≠ t.tableSize →
        it = t2.end_ ∧ ∀ k' v', Holds t2 k' v' ↔ Holds t k' v') ∧
      ((find hasher t k).ptr = t.tableSize →
        it.ptr < t2.tableSize ∧ it.end_ptr = t2.tableSize ∧
        (t2.table it.ptr).state = condition.BUSY ∧ (t2.table it.ptr).pair = (k, v) ∧
        ∀ k' v', Holds t2 k' v' ↔ Holds t k' v' ∨ (k' = k ∧ v' = v)) := by
  have hL1' : t.maxLoadFactor ≤ 1 := by rw [hg.lf]; exact hL1
  obtain ⟨t1, hpre, hi1, hfree, hl1, hb1, hh1, hpc, hcap, _, _⟩ :=
    pre_top hasher hh hg.inv hg.cnt hL1'
  have htr := find_hit_transport hasher hh hg.inv hi1 hh1 k
  by_cases hf1 : (find hasher t1 k).ptr ≠ t1.tableSize
  · refine ⟨t1, t1.end_, insert_with_present hasher _ hpre k v hf1, ?_, hcap, ?_, ?_⟩
    · exact ⟨hi1, CountInv_of_PreCount_same hpc rfl rfl rfl rfl, by rw [hl1, hg.lf]⟩
    · intro _
      exact ⟨rfl, hh1⟩
    · intro hm
      exact absurd hm (htr.mp hf1)
  · have hm1 : (find hasher t1 k).ptr = t1.tableSize := not_not.mp hf1
    obtain ⟨j, hj, hnb, hprev, he⟩ :=
      insert_with_absent hasher hh _ hpre hi1 k v hm1 hfree
    obtain ⟨hi2, hb2, hh2⟩ := put_facts hasher hh hi1 k v hm1 j hj hnb hprev
    have hlt := probe_lt hasher hh t1 hi1.cap_pos k j
    refine ⟨_, _, he, ?_, hcap, ?_, ?_⟩
    · exact ⟨hi2, CountInv_of_PreCount_succ hpc hb2 rfl rfl rfl, by
        show t1.maxLoadFactor = L
        rw [hl1, hg.lf]⟩
    · intro hhit
      exact absurd (htr.mpr hhit) hf1
    · intro _
      refine ⟨hlt, rfl, ?_, ?_, ?_⟩
      · rw [put_state, if_pos rfl]
      · rw [put_pair, if_pos rfl]
      · intro k' v'
        rw [hh2, hh1]

/-- The method `operator[]` on a good table: it returns a reference into an OCCUPIED slot
holding the key; the other keys keep their entries. -/
theorem access_spec (hh : HashRange hasher) {L : ℚ} (hL1 : L ≤ 1) {t : HashTable Key T}
    (hg : Good hasher L t) (k : Key) :
    ∃ t2 pos, access hasher t k = Except.ok (t2, pos) ∧ Good hasher L t2 ∧
      (∃ b, t2.tableSize = t.tableSize * 2 ^ b) ∧
      pos < t2.tableSize ∧ (t2.table pos).state = condition.BUSY ∧
      (t2.table pos).pair.1 = k ∧
      (∀ k' v', k' ≠ k → (Holds t2 k' v' ↔ Holds t k' v')) ∧
      ((find hasher t k).ptr ≠ t.tableSize → t2 = t ∧ pos = (find hasher t k).ptr) := by
  unfold access
  by_cases hf : (find hasher t k).ptr ≠ t.end_.ptr
  · rw [if_pos hf]
    obtain ⟨h1, h2, h3⟩ := find_hit_sound hasher hh t hg.inv.cap_pos k hf
    exact ⟨t, _, rfl, hg, ⟨0, by simp⟩, h1, h2, h3, fun _ _ _ => Iff.rfl, fun _ => ⟨rfl, rfl⟩⟩
  · rw [if_neg hf]
    have hm : (find hasher t k).ptr = t.tableSize := not_not.mp hf
    have hL1' : t.maxLoadFactor ≤ 1 := by rw [hg.lf]; exact hL1
    obtain ⟨t1, hpre, hi1, hfree, hl1, hb1, hh1, hpc, hcap, _, _⟩ :=
      pre_top hasher hh hg.inv hg.cnt hL1'
    have htr := find_hit_transport hasher hh hg.inv hi1 hh1 k
    have hm1 : (find hasher t1 k).ptr = t1.tableSize := by
      by_contra hne
      exact (htr.mp hne) hm
    obtain ⟨j, hj, hnb, hprev, he⟩ := insert_key_probe_absent hasher hh hi1 k hm1 hfree
    obtain ⟨hi2, hb2, hh2⟩ := put_facts hasher hh hi1 k
      (t1.table (probe hasher t1 k j)).pair.2 hm1 j hj hnb hprev
    have hlt := probe_lt hasher hh t1 hi1.cap_pos k j
    unfold insert_key
    rw [insert_key_with_of_pre hasher _ hpre, he, fillNode_eq]
    refine ⟨_, _, rfl, ?_, hcap, hlt, ?_, ?_, ?_, ?_⟩
    · exact ⟨hi2, CountInv_of_PreCount_succ hpc hb2 rfl rfl rfl, by
        show t1.maxLoadFactor = L
        rw [hl1, hg.lf]⟩
    · show ((put t1 _ k _).table _).state = condition.BUSY
      rw [put_state, if_pos rfl]
    · show ((put t1 _ k _).table _).pair.1 = k
      rw [put_pair, if_pos rfl]
    · intro k' v' hne
      show Holds (put t1 _ k _) k' v' ↔ _
      rw [hh2, hh1]
      constructor
      · rintro (h | ⟨h, _⟩)
        · exact h
        · exact absurd h hne
      · intro h; exact Or.inl h
    · intro hhit
      exact absurd hm hhit

/-- The assignment `t[k] = v` on a good table: afterwards `k` holds `v` and the other keys
keep their entries. -/
theorem assign_spec (hh : HashRange hasher) {L : ℚ} (hL1 : L ≤ 1) {t : HashTable Key T}
    (hg : Good hasher L t) (k : Key) (v : T) :
    ∃ t2, assign hasher t k v = Except.ok t2 ∧ Good hasher L t2 ∧
      (∃ b, t2.tableSize = t.tableSize * 2 ^ b) ∧
      ∀ k' v', Holds t2 k' v' ↔ (k' ≠ k ∧ Holds t k' v') ∨ (k' = k ∧ v' = v) := by
  obtain ⟨t1, pos, he, hg1, hcap, hp, hb, hk, hh1, _⟩ := access_spec hasher hh hL1 hg k
  unfold assign
  rw [he]
  refine ⟨write_value t1 pos v, rfl, ?_, hcap, ?_⟩
  · refine ⟨hg1.inv.write_value_keeps hasher pos v, ?_, hg1.lf⟩
    have hbc : busyCount (write_value t1 pos v) = busyCount t1 := by
      apply busyCount_congr t1 (write_value t1 pos v) rfl
      intro i
      by_cases h : i = pos
      · subst h; simp [write_value]
      · simp [write_value, Function.update_noteq h]
    exact CountInv_of_le hg1.cnt (Nat.le_of_eq hbc) rfl rfl rfl
  · intro k' v'
    show Holds (write_value t1 pos v) k' v' ↔ _
    rw [Holds_write_value hasher hg1.inv pos v hp hb, hk]
    constructor
    · rintro (⟨hne, h⟩ | h)
      · exact Or.inl ⟨hne, (hh1 k' v' hne).mp h⟩
      · exact Or.inr h
    · rintro (⟨hne, h⟩ | h)
      · exact Or.inl ⟨hne, (hh1 k' v' hne).mpr h⟩
      · exact Or.inr h

theorem erase_eq_of_hit (t : HashTable Key T) (k : Key)
    (hf : (find hasher t k).ptr ≠ t.tableSize) :
    erase hasher t k = (tombstone t (find hasher t k).ptr, true) := by
  have hf' : (find hasher t k).ptr ≠ t.end_.ptr := hf
  unfold erase
  rw [if_pos hf']
  rfl

theorem erase_eq_of_miss (t : HashTable Key T) (k : Key)
    (hf : (find hasher t k).ptr = t.tableSize) :
    erase hasher t k = (t, false) := by
  have hf' : ¬ (find hasher t k).ptr ≠ t.end_.ptr := not_not.mpr hf
  unfold erase
  rw [if_neg hf']

theorem busyCount_tombstone_le (t : HashTable Key T) (pos : Nat) :
    busyCount (tombstone t pos) ≤ busyCount t := by
  unfold busyCount
  show List.countP _ (List.range t.tableSize) ≤ _
  apply List.countP_mono_left
  intro i _ h
  simp only [decide_eq_true_eq] at h ⊢
  rw [tombstone_state] at h
  by_cases hi : i = pos
  · rw [if_pos hi] at h
    cases h
  · rw [if_neg hi] at h
    exact h

/-- The method `erase` on a good table: the key is removed and the other keys keep their
entries. -/
theorem erase_spec (hh : HashRange hasher) {L : ℚ} {t : HashTable Key T}
    (hg : Good hasher L t) (k : Key) :
    Good hasher L (erase hasher t k).1 ∧
      (erase hasher t k).1.tableSize = t.tableSize ∧
      ∀ k' v', Holds (erase hasher t k).1 k' v' ↔ (k' ≠ k ∧ Holds t k' v') := by
  by_cases hf : (find hasher t k).ptr ≠ t.tableSize
  · rw [erase_eq_of_hit hasher t k hf]
    obtain ⟨h1, h2, h3⟩ := find_hit_sound hasher hh t hg.inv.cap_pos k hf
    refine ⟨⟨hg.inv.tombstone_keeps hasher _, ?_, hg.lf⟩, rfl, ?_⟩
    · exact CountInv_of_le hg.cnt (busyCount_tombstone_le t _) rfl rfl rfl
    · intro k' v'
      show Holds (tombstone t _) k' v' ↔ _
      rw [Holds_tombstone hasher hg.inv _ h1 h2, h3]
  · have hm : (find hasher t k).ptr = t.tableSize := not_not.mp hf
    rw [erase_eq_of_miss hasher t k hm]
    refine ⟨hg, rfl, ?_⟩
    intro k' v'
    constructor
    · intro h
      refine ⟨?_, h⟩
      rintro rfl
      exact not_holds_of_find_miss hasher hh hg.inv k' hm v' h
    · intro h; exact h.2

/-- The method `rehash` on a good table. -/
theorem rehash_good (hh : HashRange hasher) {L : ℚ} {t : HashTable Key T}
    (hg : Good hasher L t) :
    ∃ t1, rehash hasher t = Except.ok t1 ∧ Good hasher L t1 ∧ RehashPost hasher t t1 := by
  obtain ⟨t1, he, hpost⟩ := rehash_spec hasher hh t hg.inv
  refine ⟨t1, he, ⟨hpost.1, CountInv_of_RehashPost hasher hg.inv.cap_pos hpost, ?_⟩, hpost⟩
  rw [hpost.2.2.2.1, hg.lf]

/-- Every reachable table is good. -/
theorem Reachable.good (hh : HashRange hasher) {L : ℚ} (hL1 : L ≤ 1) {t : HashTable Key T}
    (hr : Reachable hasher L t) : Good hasher L t := by
  induction hr with
  | new => exact Good.of_new hasher L
  | @insert t t1 p it _ he ih =>
    obtain ⟨t2, it2, he2, hg2, _⟩ := insert_spec hasher hh hL1 ih p.1 p.2
    have hp : (p.1, p.2) = p := rfl
    rw [hp, he] at he2
    cases he2
    exact hg2
  | @access t t1 k pos _ he ih =>
    obtain ⟨t2, pos2, he2, hg2, _⟩ := access_spec hasher hh hL1 ih k
    rw [he] at he2
    cases he2
    exact hg2
  | @assign t t1 k v _ he ih =>
    obtain ⟨t2, he2, hg2, _⟩ := assign_spec hasher hh hL1 ih k v
    rw [he] at he2
    cases he2
    exact hg2
  | @erase t k _ ih => exact (erase_spec hasher hh ih k).1
  | @rehash t t1 _ he ih =>
    obtain ⟨t2, he2, hg2, _⟩ := rehash_good hasher hh ih
    rw [he] at he2
    cases he2
    exact hg2

end OpSpecs

/-! ## The string hash stays below the capacity -/

theorem DefaultHash_string_lt (str : CppString) (m : Nat) (hm : 0 < m) :
    DefaultHash_string str m < m := by
  unfold DefaultHash_string
  have key : ∀ (l : CppString) (init : Nat), init < m →
      l.foldl (fun hash c => ((hash * 53 + char_to_size_t c) % 2 ^ 64) % m) init < m := by
    intro l
    induction l with
    | nil => intro init h; exact h
    | cons c l ih =>
      intro init _
      rw [List.foldl_cons]
      exact ih _ (Nat.mod_lt _ hm)
  exact key str 0 hm

theorem DefaultHash_string_range : HashRange DefaultHash_string :=
  fun k m hm => DefaultHash_string_lt k m hm

section SequenceSpecs

variable {Key T : Type} [DecidableEq Key] [Inhabited Key] [Inhabited T]
variable (hasher : Key → Nat → Nat)

/-! ## Sequences of operations against the reference map -/

theorem holds_iff_lookup (hh : HashRange hasher) {t : HashTable Key T} (hi : Inv hasher t)
    (m : RefMap Key T) :
    (∀ k v, Holds t k v ↔ m k = some v) ↔ ∀ k, lookup hasher t k = m k := by
  constructor
  · intro h k
    apply Option.ext
    intro v
    rw [Option.mem_def, Option.mem_def, lookup_eq_some_iff hasher hh hi, h]
  · intro h k v
    rw [← lookup_eq_some_iff hasher hh hi, h]

/-- One call keeps the table in agreement with the reference map. -/
theorem apply_op_spec (hh : HashRange hasher) {L : ℚ} (hL1 : L ≤ 1) {t : HashTable Key T}
    (hg : Good hasher L t) (m : RefMap Key T) (hm : ∀ k v, Holds t k v ↔ m k = some v)
    (op : Op Key T) :
    ∃ t1, apply_op hasher t op = Except.ok t1 ∧ Good hasher L t1 ∧
      (Reachable hasher L t → Reachable hasher L t1) ∧
      ∀ k v, Holds t1 k v ↔ m.apply_op op k = some v := by
  cases op with
  | insert p =>
    obtain ⟨t2, it, he, hg2, _, hhit, hmiss⟩ := insert_spec hasher hh hL1 hg p.1 p.2
    have he' : insert hasher t p = Except.ok (t2, it) := he
    refine ⟨t2, ?_, hg2, fun hr => Reachable.insert hr he', ?_⟩
    · show (match insert hasher t p with
        | Except.error e => Except.error e
        | Except.ok r => Except.ok r.1) = Except.ok t2
      rw [he']
    · intro k v
      show _ ↔ RefMap.insert_if_absent m p k = some v
      unfold RefMap.insert_if_absent
      by_cases hf : (find hasher t p.1).ptr ≠ t.tableSize
      · obtain ⟨w, hw⟩ := (find_hit_iff_holds hasher hh hg.inv p.1).mp hf
        have hmw : m p.1 = some w := (hm _ _).mp hw
        rw [(hhit hf).2, hm, hmw]
        by_cases hk : k = p.1
        · rw [if_pos hk, hk, hmw]
        · rw [if_neg hk]
      · have hf' : (find hasher t p.1).ptr = t.tableSize := not_not.mp hf
        have hnone : m p.1 = none := by
          cases hmp : m p.1 with
          | none => rfl
          | some w =>
            exact absurd ((hm _ _).mpr hmp) (not_holds_of_find_miss hasher hh hg.inv _ hf' w)
        rw [(hmiss hf').2.2.2.2, hm, hnone]
        by_cases hk : k = p.1
        · rw [if_pos hk, hk, hnone]
          constructor
          · rintro (h | ⟨_, h⟩)
            · exact absurd h (by simp)
            · rw [h]
          · intro h
            exact Or.inr ⟨rfl, (Option.some.inj h).symm⟩
        · rw [if_neg hk]
          constructor
          · rintro (h | ⟨h, _⟩)
            · exact h
            · exact absurd h hk
          · intro h; exact Or.inl h
  | erase k0 =>
    obtain ⟨hg2, _, hh2⟩ := erase_spec hasher hh hg k0
    refine ⟨(erase hasher t k0).1, rfl, hg2, fun hr => Reachable.erase hr, ?_⟩
    intro k v
    show _ ↔ RefMap.remove m k0 k = some v
    unfold RefMap.remove
    rw [hh2, hm]
    by_cases hk : k = k0
    · rw [if_pos hk]
      simp [hk]
    · rw [if_neg hk]
      simp [hk]
  | assign k0 v0 =>
    obtain ⟨t2, he, hg2, _, hh2⟩ := assign_spec hasher hh hL1 hg k0 v0
    refine ⟨t2, he, hg2, fun hr => Reachable.assign hr he, ?_⟩
    intro k v
    show _ ↔ RefMap.insert_or_overwrite m k0 v0 k = some v
    unfold RefMap.insert_or_overwrite
    rw [hh2, hm]
    by_cases hk : k = k0
    · rw [if_pos hk]
      simp [hk, eq_comm]
    · rw [if_neg hk]
      simp [hk]

/-- A sequence of calls keeps the table in agreement with the reference map. -/
theorem run_ops_spec (hh : HashRange hasher) {L : ℚ} (hL1 : L ≤ 1) (ops : List (Op Key T)) :
    ∀ (t : HashTable Key T) (m : RefMap Key T), Good hasher L t →
      (∀ k v, Holds t k v ↔ m k = some v) →
      ∃ t1, run_ops hasher ops t = Except.ok t1 ∧ Good hasher L t1 ∧
        (Reachable hasher L t → Reachable hasher L t1) ∧
        ∀ k v, Holds t1 k v ↔ RefMap.run ops m k = some v := by
  induction ops with
  | nil =>
    intro t m hg hm
    exact ⟨t, rfl, hg, fun h => h, hm⟩
  | cons op ops ih =>
    intro t m hg hm
    obtain ⟨t1, he1, hg1, hr1, hm1⟩ := apply_op_spec hasher hh hL1 hg m hm op
    obtain ⟨t2, he2, hg2, hr2, hm2⟩ := ih t1 (m.apply_op op) hg1 hm1
    refine ⟨t2, ?_, hg2, fun h => hr2 (hr1 h), hm2⟩
    unfold run_ops
    rw [he1]
    exact he2

theorem Holds_new (L : ℚ) (k : Key) (v : T) :
    ¬ Holds (HashTable.new L : HashTable Key T) k v := by
  rintro ⟨p, _, hb, _⟩
  exact absurd hb (by simp [HashTable.new, node_t.fresh])

/-- A sequence of calls on a fresh table agrees with the reference map run from empty. -/
theorem run_ops_new (hh : HashRange hasher) {L : ℚ} (hL1 : L ≤ 1) (ops : List (Op Key T)) :
    ∃ t1, run_ops hasher ops (HashTable.new L : HashTable Key T) = Except.ok t1 ∧
      Good hasher L t1 ∧ Reachable hasher L t1 ∧
      ∀ k, lookup hasher t1 k = RefMap.run ops RefMap.empty k := by
  obtain ⟨t1, he, hg, hr, hm⟩ := run_ops_spec hasher hh hL1 ops (HashTable.new L)
    RefMap.empty (Good.of_new hasher L) (fun k v => by
      constructor
      · intro h; exact absurd h (Holds_new L k v)
      · intro h; exact absurd h (by simp [RefMap.empty]))
  exact ⟨t1, he, hg, hr Reachable.new, (holds_iff_lookup hasher hh hg.inv _).mp hm⟩

/-- The reference map after a sequence of inserts keeps, for each key, the first value. -/
theorem ref_run_inserts (l : List (Key × T)) :
    ∀ (m : RefMap Key T) (k : Key), RefMap.run (l.map Op.insert) m k
      = (match m k with
        | some w => some w
        | none => first_value l k) := by
  induction l with
  | nil =>
    intro m k
    simp only [List.map_nil, RefMap.run, first_value, List.find?_nil, Option.map_none']
    cases m k <;> rfl
  | cons p l ih =>
    intro m k
    simp only [List.map_cons, RefMap.run, RefMap.apply_op]
    rw [ih]
    unfold RefMap.insert_if_absent first_value
    by_cases hk : k = p.1
    · subst hk
      simp only [if_true, List.find?_cons, decide_True]
      cases hm : m p.1 <;> simp
    · have hk' : ¬ (p.1 = k) := fun h => hk h.symm
      simp only [if_neg hk, List.find?_cons, hk', decide_False]

end SequenceSpecs

section Claims

variable {Key T : Type} [DecidableEq Key] [Inhabited Key] [Inhabited T]
variable (hasher : Key → Nat → Nat)

/-! ## Helper facts for the claims -/

theorem find_of_holds (hh : HashRange hasher) {t : HashTable Key T} (hi : Inv hasher t)
    {k : Key} {v : T} (h : Holds t k v) :
    (find hasher t k).ptr ≠ t.end_.ptr ∧ (t.table (find hasher t k).ptr).pair = (k, v) := by
  obtain ⟨p, hp, hb, he⟩ := h
  have hk : (t.table p).pair.1 = k := by rw [he]
  have := find_hit_complete hasher hh hi p hp hb
  rw [hk] at this
  rw [this]
  exact ⟨Nat.ne_of_lt hp, he⟩

theorem holds_of_find (hh : HashRange hasher) {t : HashTable Key T} (hi : Inv hasher t)
    {k : Key} (h : (find hasher t k).ptr ≠ t.end_.ptr) :
    Holds t k (t.table (find hasher t k).ptr).pair.2 := by
  obtain ⟨h1, h2, h3⟩ := find_hit_sound hasher hh t hi.cap_pos k h
  exact ⟨_, h1, h2, Prod.ext h3 rfl⟩

theorem Pre.functional {rh : HashTable Key T → Except Exn (HashTable Key T)}
    {t t1 t2 : HashTable Key T} (h1 : Pre rh t t1) (h2 : Pre rh t t2) : t1 = t2 := by
  rcases h1 with ⟨ho1, e1⟩ | ⟨ho1, e1⟩ <;> rcases h2 with ⟨ho2, e2⟩ | ⟨ho2, e2⟩
  · rw [e1] at e2
    exact Except.ok.inj e2
  · exact absurd ho1 ho2
  · exact absurd ho2 ho1
  · rw [e1, e2]

theorem lookup_some_unfold {t : HashTable Key T} {k : Key} {v : T}
    (h : lookup hasher t k = some v) :
    (find hasher t k).ptr ≠ t.end_.ptr ∧ (t.table (find hasher t k).ptr).pair.2 = v := by
  unfold lookup at h
  by_cases hf : (find hasher t k).ptr ≠ t.end_.ptr
  · rw [if_pos hf] at h
    exact ⟨hf, Option.some.inj h⟩
  · rw [if_neg hf] at h
    exact absurd h (by simp)

theorem lookup_none_unfold {t : HashTable Key T} {k : Key}
    (h : lookup hasher t k = none) : (find hasher t k).ptr = t.end_.ptr := by
  unfold lookup at h
  by_cases hf : (find hasher t k).ptr ≠ t.end_.ptr
  · rw [if_pos hf] at h
    exact absurd h (by simp)
  · exact not_not.mp hf

theorem first_value_of_mem (l : List (Key × T)) (k : Key) (h : k ∈ l.map Prod.fst) :
    ∃ v, first_value l k = some v := by
  induction l with
  | nil => simp at h
  | cons p l ih =>
    unfold first_value
    by_cases hk : p.1 = k
    · exact ⟨p.2, by simp [List.find?_cons, hk]⟩
    · have hmem : k ∈ l.map Prod.fst := by
        rcases List.mem_map.mp h with ⟨q, hq, hqk⟩
        rcases List.mem_cons.mp hq with rfl | hq'
        · exact absurd hqk hk
        · exact List.mem_map.mpr ⟨q, hq', hqk⟩
      obtain ⟨v, hv⟩ := ih hmem
      refine ⟨v, ?_⟩
      unfold first_value at hv
      simp only [List.find?_cons, hk, decide_False]
      exact hv

theorem access_of_hit (t : HashTable Key T) (k : Key)
    (h : (find hasher t k).ptr ≠ t.end_.ptr) :
    access hasher t k = Except.ok (t, (find hasher t k).ptr) := by
  unfold access
  rw [if_pos h]

/-- Iteration from `begin()` starts with the payload of slot 0, whatever its state. -/
theorem traverse_starts_at_slot_zero (t : HashTable Key T) (hc : 0 < t.tableSize) :
    ∃ rest, traverse t = (t.table 0).pair :: rest := by
  unfold traverse collect
  have hne : t.begin_.ptr ≠ t.end_.ptr := by
    show 0 ≠ t.tableSize
    omega
  rw [if_pos hne]
  exact ⟨_, rfl⟩

end Claims

/-- A concrete reachable table: "a" inserted with value 1 into a fresh table of
`HashTable<std::string, int>(0.75)`. -/
theorem demo_insert :
    ∃ t1 it1, insert DefaultHash_string (HashTable.new (3 / 4) : HashTable CppString Int)
        ([97], 1) = Except.ok (t1, it1) ∧
      Reachable DefaultHash_string (3 / 4) t1 ∧
      (find DefaultHash_string t1 [97]).ptr ≠ t1.end_.ptr ∧
      (t1.table (find DefaultHash_string t1 [97]).ptr).pair.2 = 1 := by
  obtain ⟨t1, it1, he, hg1, _, _, hm⟩ := insert_spec DefaultHash_string
    DefaultHash_string_range (by norm_num : (3 / 4 : ℚ) ≤ 1)
    (Good.of_new DefaultHash_string (3 / 4) : Good DefaultHash_string (3 / 4)
      (HashTable.new (3 / 4) : HashTable CppString Int)) [97] 1
  obtain ⟨_, _, _, _, h5⟩ := hm (by decide!)
  obtain ⟨h6, h7⟩ := find_of_holds DefaultHash_string DefaultHash_string_range hg1.inv
    ((h5 [97] 1).mpr (Or.inr ⟨rfl, rfl⟩))
  exact ⟨t1, it1, he, Reachable.insert Reachable.new he, h6, by rw [h7]⟩

section ClaimTheorems

variable {Key T : Type} [DecidableEq Key] [Inhabited Key] [Inhabited T]

/-! ## The claims -/

/-- C1. Insert of an absent key stores it.  For every table `t` reachable from
`HashTable(L)`, `0 < L ≤ 1`, under a hash that returns indices below the capacity, and every
key `k` on which `find` misses, `insert((k, v))` returns an iterator different from `end()`
whose slot holds the pair `(k, v)`, and afterwards `find(k)` is a hit whose value is `v`.
The statement covers inserts that rehash and inserts that reuse a DELETED slot, because
it holds for every reachable table. -/
theorem C1_insert_absent_stores (hasher : Key → Nat → Nat) (hh : HashRange hasher)
    (L : ℚ) (hL0 : 0 < L) (hL1 : L ≤ 1) (t : HashTable Key T) (hr : Reachable hasher L t)
    (k : Key) (v : T) (hmiss : (find hasher t k).ptr = t.end_.ptr) :
    ∃ t2 it, insert hasher t (k, v) = Except.ok (t2, it) ∧
      it.ptr ≠ t2.end_.ptr ∧ (t2.table it.ptr).pair = (k, v) ∧
      (find hasher t2 k).ptr ≠ t2.end_.ptr ∧
      (t2.table (find hasher t2 k).ptr).pair.2 = v := by
  obtain ⟨t2, it, he, hg2, _, _, hm⟩ := insert_spec hasher hh hL1 (hr.good hasher hh hL1) k v
  obtain ⟨h1, _, _, h4, h5⟩ := hm hmiss
  have hholds : Holds t2 k v := (h5 k v).mpr (Or.inr ⟨rfl, rfl⟩)
  obtain ⟨h6, h7⟩ := find_of_holds hasher hh hg2.inv hholds
  exact ⟨t2, it, he, Nat.ne_of_lt h1, h4, h6, by rw [h7]⟩

/-- Witness of C1: the key "a" inserted with value 1 into a fresh table. -/
theorem C1_insert_absent_stores_witness :
    ∃ t2 it, insert DefaultHash_string (HashTable.new (3 / 4) : HashTable CppString Int)
        ([97], 1) = Except.ok (t2, it) ∧
      it.ptr ≠ t2.end_.ptr ∧ (t2.table it.ptr).pair = ([97], 1) ∧
      (find DefaultHash_string t2 [97]).ptr ≠ t2.end_.ptr ∧
      (t2.table (find DefaultHash_string t2 [97]).ptr).pair.2 = 1 :=
  C1_insert_absent_stores DefaultHash_string DefaultHash_string_range (3 / 4)
    (by norm_num) (by norm_num) (HashTable.new (3 / 4)) Reachable.new [97] 1 (by decide!)

/-- C3. Duplicate insert does not update and signals with the end sentinel.  For every
reachable table `t` and key `k` that `find` hits with value `v_old`, `insert((k, v))`
returns an iterator equal to `end()`, and afterwards `find(k)` is still a hit with value
`v_old`, also when the call rehashes. -/
theorem C3_duplicate_insert_keeps (hasher : Key → Nat → Nat) (hh : HashRange hasher)
    (L : ℚ) (hL0 : 0 < L) (hL1 : L ≤ 1) (t : HashTable Key T) (hr : Reachable hasher L t)
    (k : Key) (v_old v : T) (hhit : (find hasher t k).ptr ≠ t.end_.ptr)
    (hval : (t.table (find hasher t k).ptr).pair.2 = v_old) :
    ∃ t2 it, insert hasher t (k, v) = Except.ok (t2, it) ∧
      it = t2.end_ ∧ ¬ (it.ptr ≠ t2.end_.ptr) ∧
      (find hasher t2 k).ptr ≠ t2.end_.ptr ∧
      (t2.table (find hasher t2 k).ptr).pair.2 = v_old := by
  have hg := hr.good hasher hh hL1
  obtain ⟨t2, it, he, hg2, _, hh2, _⟩ := insert_spec hasher hh hL1 hg k v
  obtain ⟨h1, h2⟩ := hh2 hhit
  have hholds : Holds t2 k v_old := by
    rw [h2, ← hval]
    exact holds_of_find hasher hh hg.inv hhit
  obtain ⟨h6, h7⟩ := find_of_holds hasher hh hg2.inv hholds
  exact ⟨t2, it, he, h1, by rw [h1]; simp, h6, by rw [h7]⟩

/-- Witness of C3: "a" is inserted with 1 into a fresh table, then inserted again with 3. -/
theorem C3_duplicate_insert_keeps_witness :
    ∃ t1 it1, insert DefaultHash_string (HashTable.new (3 / 4) : HashTable CppString Int)
        ([97], 1) = Except.ok (t1, it1) ∧
      ∃ t2 it, insert DefaultHash_string t1 ([97], 3) = Except.ok (t2, it) ∧
        it = t2.end_ ∧ ¬ (it.ptr ≠ t2.end_.ptr) ∧
        (find DefaultHash_string t2 [97]).ptr ≠ t2.end_.ptr ∧
        (t2.table (find DefaultHash_string t2 [97]).ptr).pair.2 = 1 := by
  obtain ⟨t1, it1, he, hr1, h6, h7⟩ := demo_insert
  exact ⟨t1, it1, he, C3_duplicate_insert_keeps DefaultHash_string DefaultHash_string_range
    (3 / 4) (by norm_num) (by norm_num) t1 hr1 [97] 1 3 h6 h7⟩

/-- C4. Erase-then-find.  For every reachable table `t` and every key `k`, after
`erase(k)` the call `find(k)` returns `end()`. -/
theorem C4_erase_then_find (hasher : Key → Nat → Nat) (hh : HashRange hasher)
    (L : ℚ) (hL0 : 0 < L) (hL1 : L ≤ 1) (t : HashTable Key T) (hr : Reachable hasher L t)
    (k : Key) :
    (find hasher (erase hasher t k).1 k).ptr = (erase hasher t k).1.end_.ptr := by
  obtain ⟨hg2, _, hh2⟩ := erase_spec hasher hh (hr.good hasher hh hL1) k
  apply find_miss_of_not_holds hasher hh hg2.inv
  intro w hw
  exact ((hh2 k w).mp hw).1 rfl

/-- Witness of C4: "a" is inserted into a fresh table and then erased. -/
theorem C4_erase_then_find_witness :
    ∃ t1 it1, insert DefaultHash_string (HashTable.new (3 / 4) : HashTable CppString Int)
        ([97], 1) = Except.ok (t1, it1) ∧
      (find DefaultHash_string t1 [97]).ptr ≠ t1.end_.ptr ∧
      (find DefaultHash_string (erase DefaultHash_string t1 [97]).1 [97]).ptr
        = (erase DefaultHash_string t1 [97]).1.end_.ptr := by
  obtain ⟨t1, it1, he, hr1, h6, _⟩ := demo_insert
  exact ⟨t1, it1, he, h6, C4_erase_then_find DefaultHash_string DefaultHash_string_range
    (3 / 4) (by norm_num) (by norm_num) t1 hr1 [97]⟩

/-- C7. Postcondition of `erase`.  For every reachable table `t` and key `k`, `erase(k)`
returns true exactly when `find(k)` was a hit.  When it returns false the table is
unchanged.  When it returns true the slot located by `find(k)` was OCCUPIED and is now
DELETED with the same payload, and every other slot, `elementsCount`, the capacity and the
threshold are unchanged. -/
theorem C7_erase_postcondition (hasher : Key → Nat → Nat) (hh : HashRange hasher)
    (L : ℚ) (hL0 : 0 < L) (hL1 : L ≤ 1) (t : HashTable Key T) (hr : Reachable hasher L t)
    (k : Key) :
    ((erase hasher t k).2 = true ↔ (find hasher t k).ptr ≠ t.end_.ptr) ∧
    ((erase hasher t k).2 = false → (erase hasher t k).1 = t) ∧
    ((erase hasher t k).2 = true →
      (find hasher t k).ptr < t.tableSize ∧
      (t.table (find hasher t k).ptr).state = condition.BUSY ∧
      ((erase hasher t k).1.table (find hasher t k).ptr).state = condition.DELETED ∧
      ((erase hasher t k).1.table (find hasher t k).ptr).pair
        = (t.table (find hasher t k).ptr).pair ∧
      (∀ i, i ≠ (find hasher t k).ptr → (erase hasher t k).1.table i = t.table i) ∧
      (erase hasher t k).1.elementsCount = t.elementsCount ∧
      (erase hasher t k).1.tableSize = t.tableSize ∧
      (erase hasher t k).1.maxLoadFactor = t.maxLoadFactor) := by
  have hg := hr.good hasher hh hL1
  by_cases hf : (find hasher t k).ptr ≠ t.tableSize
  · rw [erase_eq_of_hit hasher t k hf]
    obtain ⟨h1, h2, _⟩ := find_hit_sound hasher hh t hg.inv.cap_pos k hf
    refine ⟨⟨fun _ => hf, fun _ => rfl⟩, fun h => absurd h (by simp), fun _ => ?_⟩
    refine ⟨h1, h2, ?_, ?_, ?_, rfl, rfl, rfl⟩
    · show ((tombstone t _).table _).state = condition.DELETED
      rw [tombstone_state, if_pos rfl]
    · show ((tombstone t _).table _).pair = _
      rw [tombstone_pair]
    · intro i hi
      show (tombstone t _).table i = t.table i
      simp [tombstone, Function.update_noteq hi]
  · have hm : (find hasher t k).ptr = t.tableSize := not_not.mp hf
    rw [erase_eq_of_miss hasher t k hm]
    refine ⟨⟨fun h => absurd h (by simp), fun h => absurd h hf⟩, fun _ => rfl,
      fun h => absurd h (by simp)⟩

/-- Witness of C7: "a" is inserted into a fresh table and then erased. -/
theorem C7_erase_postcondition_witness :
    ∃ t1 it1, insert DefaultHash_string (HashTable.new (3 / 4) : HashTable CppString Int)
        ([97], 1) = Except.ok (t1, it1) ∧
      (find DefaultHash_string t1 [97]).ptr ≠ t1.end_.ptr ∧
      (erase DefaultHash_string t1 [97]).2 = true ∧
      ((erase DefaultHash_string t1 [97]).1.table (find DefaultHash_string t1 [97]).ptr).state
        = condition.DELETED := by
  obtain ⟨t1, it1, he, hr1, h6, _⟩ := demo_insert
  have h := C7_erase_postcondition DefaultHash_string DefaultHash_string_range
    (3 / 4) (by norm_num) (by norm_num) t1 hr1 [97]
  exact ⟨t1, it1, he, h6, h.1.mpr h6, (h.2.2 (h.1.mpr h6)).2.2.1⟩

/-- C9. Postcondition of `rehash`.  For every reachable table `t` whose threshold `L`
satisfies `1 / 2 < L ≤ 1`, `rehash()` returns a table whose capacity is exactly twice the
previous one, in which `find` hits the same keys with the same values, which has no
DELETED slot, and whose `elementsCount` is the number of OCCUPIED slots. -/
theorem C9_rehash_postcondition (hasher : Key → Nat → Nat) (hh : HashRange hasher)
    (L : ℚ) (hLhalf : 1 / 2 < L) (hL1 : L ≤ 1) (t : HashTable Key T)
    (hr : Reachable hasher L t) :
    ∃ t1, rehash hasher t = Except.ok t1 ∧
      t1.tableSize = 2 * t.tableSize ∧
      (∀ k, ((find hasher t1 k).ptr ≠ t1.end_.ptr ↔ (find hasher t k).ptr ≠ t.end_.ptr) ∧
        ((find hasher t k).ptr ≠ t.end_.ptr →
          (t1.table (find hasher t1 k).ptr).pair.2 = (t.table (find hasher t k).ptr).pair.2)) ∧
      (∀ i, i < t1.tableSize → (t1.table i).state ≠ condition.DELETED) ∧
      t1.elementsCount = busyCount t1 := by
  have hg := hr.good hasher hh hL1
  obtain ⟨t1, he, hg1, hi1, hnd, hb, hl, hs, hhold⟩ := rehash_good hasher hh hg
  have hpl := hs.plain (by rw [hg.lf]; exact hLhalf)
  refine ⟨t1, he, hpl.1, ?_, hnd, by rw [hpl.2, hb]⟩
  intro k
  refine ⟨find_hit_transport hasher hh hg.inv hi1 hhold k, ?_⟩
  intro hhit
  have h1 := holds_of_find hasher hh hg.inv hhit
  have h2 := find_of_holds hasher hh hi1 ((hhold _ _).mpr h1)
  rw [h2.2]

/-- Witness of C9: the table holding "a" is rehashed. -/
theorem C9_rehash_postcondition_witness :
    ∃ t0 it0, insert DefaultHash_string (HashTable.new (3 / 4) : HashTable CppString Int)
        ([97], 1) = Except.ok (t0, it0) ∧
      ∃ t1, rehash DefaultHash_string t0 = Except.ok t1 ∧
        t1.tableSize = 2 * t0.tableSize ∧
        (∀ k, ((find DefaultHash_string t1 k).ptr ≠ t1.end_.ptr
              ↔ (find DefaultHash_string t0 k).ptr ≠ t0.end_.ptr) ∧
          ((find DefaultHash_string t0 k).ptr ≠ t0.end_.ptr →
            (t1.table (find DefaultHash_string t1 k).ptr).pair.2
              = (t0.table (find DefaultHash_string t0 k).ptr).pair.2)) ∧
        (∀ i, i < t1.tableSize → (t1.table i).state ≠ condition.DELETED) ∧
        t1.elementsCount = busyCount t1 := by
  obtain ⟨t0, it0, he, hr0, _, _⟩ := demo_insert
  exact ⟨t0, it0, he, C9_rehash_postcondition DefaultHash_string DefaultHash_string_range
    (3 / 4) (by norm_num) (by norm_num) t0 hr0⟩

/-- C10. Capacity exhaustion is unreachable.  For every reachable table, `0 < L ≤ 1`,
`insert` and `operator[]` return normally: neither raises `std::logic_error` (nor runs out
of rehash fuel).  Moreover, in the table in which the probing loop of `insert_key` runs,
some probe among the first `tableSize` ones meets a slot that is EMPTY or DELETED. -/
theorem C10_no_capacity_exhaustion (hasher : Key → Nat → Nat) (hh : HashRange hasher)
    (L : ℚ) (hL0 : 0 < L) (hL1 : L ≤ 1) (t : HashTable Key T) (hr : Reachable hasher L t)
    (k : Key) (v : T) :
    (∃ r, insert hasher t (k, v) = Except.ok r) ∧
    (∃ r, access hasher t k = Except.ok r) ∧
    (∀ t1, Pre (rehash hasher) t t1 →
      ∃ j, j < t1.tableSize ∧
        ((t1.table (probe hasher t1 k j)).state = condition.EMPTY ∨
         (t1.table (probe hasher t1 k j)).state = condition.DELETED)) := by
  have hg := hr.good hasher hh hL1
  refine ⟨?_, ?_, ?_⟩
  · obtain ⟨t2, it, he, _⟩ := insert_spec hasher hh hL1 hg k v
    exact ⟨_, he⟩
  · obtain ⟨t2, pos, he, _⟩ := access_spec hasher hh hL1 hg k
    exact ⟨_, he⟩
  · intro t1 hpre
    have hL1' : t.maxLoadFactor ≤ 1 := by rw [hg.lf]; exact hL1
    obtain ⟨t1', hpre', hi1, hfree, _⟩ := pre_top hasher hh hg.inv hg.cnt hL1'
    have := Pre.functional hpre hpre'
    subst this
    obtain ⟨s, hs, hsb⟩ := exists_not_busy t1 hfree
    obtain ⟨j, hj, hjs⟩ := probe_surj hasher hh hi1 k s hs
    refine ⟨j, hj, ?_⟩
    rw [hjs]
    cases hst : (t1.table s).state with
    | EMPTY => exact Or.inl rfl
    | DELETED => exact Or.inr rfl
    | BUSY => exact absurd hst hsb

/-- Witness of C10: an insert and an access on the table holding "a". -/
theorem C10_no_capacity_exhaustion_witness :
    ∃ t0 it0, insert DefaultHash_string (HashTable.new (3 / 4) : HashTable CppString Int)
        ([97], 1) = Except.ok (t0, it0) ∧
      (∃ r, insert DefaultHash_string t0 ([98], 2) = Except.ok r) ∧
      (∃ r, access DefaultHash_string t0 [98] = Except.ok r) := by
  obtain ⟨t0, it0, he, hr0, _, _⟩ := demo_insert
  have h := C10_no_capacity_exhaustion DefaultHash_string DefaultHash_string_range
    (3 / 4) (by norm_num) (by norm_num) t0 hr0 [98] 2
  exact ⟨t0, it0, he, h.1, h.2.1⟩

/-- C2, as stated, fails.  After `insert(("a",1))`, `insert(("b",2))`, `insert(("a",3))`
on a fresh `HashTable<std::string,int>`, `find("a")` yields 1, whereas the value of the last
insert of "a" is 3. -/
theorem C2_last_write_wins_counterexample :
    (match insert_all DefaultHash_string scenario_pairs (HashTable.new (3 / 4)) with
      | Except.ok t => lookup DefaultHash_string t [97]
      | Except.error _ => none) = some 1 ∧
    last_value scenario_pairs [97] = some 3 ∧
    (match insert_all DefaultHash_string scenario_pairs (HashTable.new (3 / 4)) with
      | Except.ok t => lookup DefaultHash_string t [97]
      | Except.error _ => none) ≠ last_value scenario_pairs [97] := by
  decide!

/-- C2, amended: round-trip with first-write-wins.  For every finite sequence of `insert`
calls on a freshly constructed table, `0 < L ≤ 1`, all calls return, and every key `k` that
occurs in the sequence is afterwards found by `find` with the value of the FIRST insert of
`k`.  Concrete instance: after `insert(("a",1))`, `insert(("b",2))`, `insert(("a",3))` on a
fresh `HashTable<std::string,int>`, `find("a")` yields 1, `find("b")` yields 2, and exactly
2 slots are OCCUPIED. -/
theorem C2_first_write_wins (hasher : Key → Nat → Nat) (hh : HashRange hasher)
    (L : ℚ) (hL0 : 0 < L) (hL1 : L ≤ 1) (l : List (Key × T)) :
    (∃ t, insert_all hasher l (HashTable.new L) = Except.ok t ∧
      ∀ k, k ∈ l.map Prod.fst →
        ∃ v, first_value l k = some v ∧ (find hasher t k).ptr ≠ t.end_.ptr ∧
          (t.table (find hasher t k).ptr).pair.2 = v) ∧
    (match insert_all DefaultHash_string scenario_pairs (HashTable.new (3 / 4)) with
      | Except.ok t =>
        (lookup DefaultHash_string t [97], lookup DefaultHash_string t [98], busyCount t)
      | Except.error _ => (none, none, 0)) = (some 1, some 2, 2) := by
  refine ⟨?_, by decide!⟩
  obtain ⟨t, he, _, _, hl⟩ := run_ops_new hasher hh hL1 (l.map Op.insert)
  refine ⟨t, he, ?_⟩
  intro k hk
  obtain ⟨v, hv⟩ := first_value_of_mem l k hk
  have h1 := hl k
  rw [ref_run_inserts] at h1
  simp only [RefMap.empty] at h1
  rw [hv] at h1
  obtain ⟨h2, h3⟩ := lookup_some_unfold hasher h1
  exact ⟨v, hv, h2, h3⟩

/-- Witness of the amended C2: the three inserts of the concrete instance. -/
theorem C2_first_write_wins_witness :
    ∃ t, insert_all DefaultHash_string scenario_pairs (HashTable.new (3 / 4)) = Except.ok t ∧
      ∀ k, k ∈ scenario_pairs.map Prod.fst →
        ∃ v, first_value scenario_pairs k = some v ∧
          (find DefaultHash_string t k).ptr ≠ t.end_.ptr ∧
          (t.table (find DefaultHash_string t k).ptr).pair.2 = v :=
  (C2_first_write_wins DefaultHash_string DefaultHash_string_range (3 / 4)
    (by norm_num) (by norm_num) scenario_pairs).1

/-- C5 fails on the code: `operator[]` on an absent key whose slot is a reused tombstone.
After `insert(("a",5))` and `erase("a")` on a fresh `HashTable<std::string,int>`, `find("a")`
misses, yet the reference returned by `t["a"]` reads 5 (the stale payload of the DELETED
slot), not the default value 0, and afterwards `find("a")` hits with value 5. -/
theorem C5_access_reads_stale_value :
    (match run_ops DefaultHash_string [Op.insert ([97], 5), Op.erase [97]]
        (HashTable.new (3 / 4) : HashTable CppString Int) with
      | Except.ok t =>
        (decide ((find DefaultHash_string t [97]).ptr = t.end_.ptr),
          match access DefaultHash_string t [97] with
          | Except.ok r => some ((r.1.table r.2).pair.2, lookup DefaultHash_string r.1 [97])
          | Except.error _ => none)
      | Except.error _ => (false, none)) = (true, some (5, some 5)) ∧
    (default : Int) = 0 := by
  decide!

/-- C6. Agreement with a reference map.  For every finite sequence of `insert((k,v))`,
`erase(k)` and `t[k] = v` applied to a fresh `HashTable(0.75)`, all calls return, and for
every key `k`: `find(k)` is a hit iff the reference map (insert-if-absent, remove,
insert-or-overwrite) contains `k`, and then the found value, which is also the value that
`t[k]` reads, is the reference map's value. -/
theorem C6_agrees_with_reference (hasher : Key → Nat → Nat) (hh : HashRange hasher)
    (ops : List (Op Key T)) :
    ∃ t, run_ops hasher ops (HashTable.new (3 / 4)) = Except.ok t ∧
      ∀ k, ((find hasher t k).ptr ≠ t.end_.ptr ↔
            ∃ v, RefMap.run ops RefMap.empty k = some v) ∧
        ∀ v, RefMap.run ops RefMap.empty k = some v →
          (t.table (find hasher t k).ptr).pair.2 = v ∧
          access hasher t k = Except.ok (t, (find hasher t k).ptr) := by
  obtain ⟨t, he, _, _, hl⟩ := run_ops_new hasher hh (by norm_num : (3 / 4 : ℚ) ≤ 1) ops
  refine ⟨t, he, ?_⟩
  intro k
  constructor
  · constructor
    · intro hhit
      refine ⟨(t.table (find hasher t k).ptr).pair.2, ?_⟩
      rw [← hl k]
      unfold lookup
      rw [if_pos hhit]
    · rintro ⟨v, hv⟩
      rw [← hl k] at hv
      exact (lookup_some_unfold hasher hv).1
  · intro v hv
    rw [← hl k] at hv
    obtain ⟨h1, h2⟩ := lookup_some_unfold hasher hv
    exact ⟨h2, access_of_hit hasher t k h1⟩

/-- Witness of C6: inserts, an erase, an assignment and a duplicate insert of string keys. -/
theorem C6_agrees_with_reference_witness :
    ∃ t, run_ops DefaultHash_string sample_ops (HashTable.new (3 / 4)) = Except.ok t ∧
      ∀ k, ((find DefaultHash_string t k).ptr ≠ t.end_.ptr ↔
            ∃ v, RefMap.run sample_ops RefMap.empty k = some v) ∧
        ∀ v, RefMap.run sample_ops RefMap.empty k = some v →
          (t.table (find DefaultHash_string t k).ptr).pair.2 = v ∧
          access DefaultHash_string t k = Except.ok (t, (find DefaultHash_string t k).ptr) :=
  C6_agrees_with_reference DefaultHash_string DefaultHash_string_range sample_ops

/-- C8 fails on the code: `begin()` does not skip to the first OCCUPIED slot.  On a
freshly constructed table, which has no OCCUPIED slot, `begin()` differs from `end()`, and
iterating from `begin()` to `end()` yields one entry, the payload of the EMPTY slot 0. -/
theorem C8_begin_yields_empty_slot :
    (HashTable.new (3 / 4) : HashTable CppString Int).begin_.ptr
      ≠ (HashTable.new (3 / 4) : HashTable CppString Int).end_.ptr ∧
    ((HashTable.new (3 / 4) : HashTable CppString Int).table 0).state = condition.EMPTY ∧
    busyCount (HashTable.new (3 / 4) : HashTable CppString Int) = 0 ∧
    traverse (HashTable.new (3 / 4) : HashTable CppString Int) = [([], 0)] := by
  decide!

end ClaimTheorems

/-! ## More on the probe sequence and the hash strategies -/

/-- During the first `m` calls of a probe functor on a table of at most `2 ^ 63` slots the
sum `current_proba + i + 1` stays below `2 ^ 64`: the `size_t` arithmetic does not wrap. -/
theorem probe_sum_no_wrap (n h j : Nat) (hn : n ≤ 63) (hh : h < 2 ^ n) (hj : j < 2 ^ n) :
    ProbPolicy.nth (ProbPolicy.new h (2 ^ n)) j + j + 1 < 2 ^ 64 := by
  have h1 := nth_new_lt h (2 ^ n) hh j
  have h2 : 2 ^ n ≤ 2 ^ 63 := Nat.pow_le_pow_right (by decide) hn
  have h3 : (2 : Nat) ^ 64 = 2 * 2 ^ 63 := by norm_num
  omega

theorem find_pow_of_pow : ∀ a, a ≤ 32 → find_pow (2 ^ a) = some a := by
  decide!

/-- The integer hash returns an index below the capacity whenever `find_pow` returns. -/
theorem DefaultHash_int_with_lt (P : Nat) (key : Int) (m fp : Nat) (hm : 0 < m)
    (hfp : find_pow m = some fp) :
    ∃ r, DefaultHash_int_with P key m = some r ∧ r < m := by
  unfold DefaultHash_int_with
  rw [hfp]
  exact ⟨_, rfl, Nat.mod_lt _ hm⟩

theorem DefaultHash_lt {T : Type} (to_size_t : T → Nat) (key : T) (m : Nat) (hm : 0 < m) :
    DefaultHash to_size_t key m < m :=
  Nat.mod_lt _ hm

theorem sample_keys_length (n : Nat) : (sample_keys n).length = n := by
  simp [sample_keys]

theorem sample_keys_nodup (n : Nat) (hn : n ≤ 65536) :
    ((sample_keys n).map Prod.fst).Nodup := by
  unfold sample_keys
  rw [List.map_map]
  apply List.Nodup.map_on _ (List.nodup_range n)
  intro i hi j hj he
  have hi' : i < 65536 := Nat.lt_of_lt_of_le (List.mem_range.mp hi) hn
  have hj' : j < 65536 := Nat.lt_of_lt_of_le (List.mem_range.mp hj) hn
  simp only [Function.comp, List.cons.injEq, and_true] at he
  obtain ⟨h1, h2⟩ := he
  have e1 := congrArg Fin.val h1
  have e2 := congrArg Fin.val h2
  simp only [Fin.ofNat, Fin.val_mk] at e1 e2
  omega

section Details

variable {Key T : Type} [DecidableEq Key] [Inhabited Key] [Inhabited T]
variable (hasher : Key → Nat → Nat)

/-! ## The two phases of `insert` in detail -/

/-- The method `insert` on a good table, phase by phase: the load-factor check yields the
table `t1`; a present key returns `end()` and leaves `t1`; an absent key is put into the
first slot of its probe sequence in `t1` that is not OCCUPIED. -/
theorem insert_cases (hh : HashRange hasher) {L : ℚ} (hL1 : L ≤ 1) {t : HashTable Key T}
    (hg : Good hasher L t) (k : Key) (v : T) :
    ∃ t1, Pre (rehash hasher) t t1 ∧ Inv hasher t1 ∧ t1.maxLoadFactor = L ∧ PreCount t1 ∧
      busyCount t1 = busyCount t ∧ (∀ k' v', Holds t1 k' v' ↔ Holds t k' v') ∧
      (¬ overloaded t → t1 = bump t) ∧
      (overloaded t → RehashPost hasher (bump t) t1) ∧
      ((find hasher t k).ptr ≠ t.tableSize →
        insert hasher t (k, v) = Except.ok (t1, t1.end_) ∧
        insert_key hasher t k = Except.ok (t1, t1.end_)) ∧
      ((find hasher t k).ptr = t.tableSize →
        ∃ j, j < t1.tableSize ∧
          (t1.table (probe hasher t1 k j)).state ≠ condition.BUSY ∧
          (∀ i, i < j → (t1.table (probe hasher t1 k i)).state = condition.BUSY ∧
            (t1.table (probe hasher t1 k i)).pair.1 ≠ k) ∧
          insert hasher t (k, v)
            = Except.ok (put t1 (probe hasher t1 k j) k v,
                ⟨probe hasher t1 k j, t1.tableSize⟩) ∧
          insert_key hasher t k = Except.ok (fillNode t1 (probe hasher t1 k j) k)) := by
  have hL1' : t.maxLoadFactor ≤ 1 := by rw [hg.lf]; exact hL1
  obtain ⟨t1, hpre, hi1, hfree, hl1, hb1, hh1, hpc, _, hno, hov⟩ :=
    pre_top hasher hh hg.inv hg.cnt hL1'
  have htr := find_hit_transport hasher hh hg.inv hi1 hh1 k
  refine ⟨t1, hpre, hi1, by rw [hl1, hg.lf], hpc, hb1, hh1, hno, hov, ?_, ?_⟩
  · intro hhit
    have hf1 := htr.mpr hhit
    refine ⟨insert_with_present hasher _ hpre k v hf1, ?_⟩
    unfold insert_key
    rw [insert_key_with_of_pre hasher _ hpre, insert_key_probe_present hasher k hf1]
  · intro hmiss
    have hm1 : (find hasher t1 k).ptr = t1.tableSize := by
      by_contra hne
      exact (htr.mp hne) hmiss
    obtain ⟨j, hj, hnb, hprev, he⟩ := insert_with_absent hasher hh _ hpre hi1 k v hm1 hfree
    obtain ⟨j', hj', hnb', hprev', he'⟩ := insert_key_probe_absent hasher hh hi1 k hm1 hfree
    have hjj : j' = j := by
      rcases Nat.lt_trichotomy j' j with h | h | h
      · exact absurd (hprev j' h).1 hnb'
      · exact h
      · exact absurd (hprev' j h).1 hnb
    subst hjj
    refine ⟨j', hj, hnb, hprev, he, ?_⟩
    unfold insert_key
    rw [insert_key_with_of_pre hasher _ hpre, he']

/-- The counters after `insert` on a good table. -/
theorem insert_counts (hh : HashRange hasher) {L : ℚ} (hL1 : L ≤ 1) {t : HashTable Key T}
    (hg : Good hasher L t) (k : Key) (v : T) :
    ∃ t2 it, insert hasher t (k, v) = Except.ok (t2, it) ∧ Good hasher L t2 ∧
      (¬ overloaded t →
        t2.tableSize = t.tableSize ∧ t2.elementsCount = t.elementsCount + 1) ∧
      (overloaded t → 1 / 2 < L →
        t2.tableSize = 2 * t.tableSize ∧ t2.elementsCount = busyCount t) ∧
      ((find hasher t k).ptr ≠ t.tableSize →
        busyCount t2 = busyCount t ∧ ∀ k' v', Holds t2 k' v' ↔ Holds t k' v') ∧
      ((find hasher t k).ptr = t.tableSize →
        busyCount t2 = busyCount t + 1 ∧
        ∀ k' v', Holds t2 k' v' ↔ Holds t k' v' ∨ (k' = k ∧ v' = v)) := by
  obtain ⟨t1, _, hi1, hl1, hpc, hb1, hh1, hno, hov, hhit, hmiss⟩ :=
    insert_cases hasher hh hL1 hg k v
  have hsame : ∀ (t2 : HashTable Key T), t2.tableSize = t1.tableSize →
      t2.elementsCount = t1.elementsCount →
      (¬ overloaded t →
        t2.tableSize = t.tableSize ∧ t2.elementsCount = t.elementsCount + 1) ∧
      (overloaded t → 1 / 2 < L →
        t2.tableSize = 2 * t.tableSize ∧ t2.elementsCount = busyCount t) := by
    intro t2 hc he
    constructor
    · intro h
      rw [hc, he, hno h]
      exact ⟨rfl, rfl⟩
    · intro h hhalf
      obtain ⟨_, _, _, _, hs, _⟩ := hov h
      have := hs.plain (by
        show 1 / 2 < t.maxLoadFactor
        rw [hg.lf]; exact hhalf)
      rw [hc, he]
      exact this
  by_cases hf : (find hasher t k).ptr ≠ t.tableSize
  · refine ⟨t1, t1.end_, (hhit hf).1, ?_, (hsame t1 rfl rfl).1, (hsame t1 rfl rfl).2, ?_, ?_⟩
    · exact ⟨hi1, CountInv_of_PreCount_same hpc rfl rfl rfl rfl, hl1⟩
    · intro _; exact ⟨hb1, hh1⟩
    · intro hm; exact absurd hm hf
  · have hm : (find hasher t k).ptr = t.tableSize := not_not.mp hf
    obtain ⟨j, hj, hnb, hprev, he, _⟩ := hmiss hm
    have htr := find_hit_transport hasher hh hg.inv hi1 hh1 k
    have hm1 : (find hasher t1 k).ptr = t1.tableSize := by
      by_contra hne
      exact (htr.mp hne) hm
    obtain ⟨hi2, hb2, hh2⟩ := put_facts hasher hh hi1 k v hm1 j hj hnb hprev
    refine ⟨_, _, he, ?_, (hsame _ rfl rfl).1, (hsame _ rfl rfl).2, ?_, ?_⟩
    · exact ⟨hi2, CountInv_of_PreCount_succ hpc hb2 rfl rfl rfl, hl1⟩
    · intro hhit'; exact absurd hhit' hf
    · intro _
      refine ⟨by rw [hb2, hb1], ?_⟩
      intro k' v'
      rw [hh2, hh1]

end Details

section Batches

variable {Key T : Type} [DecidableEq Key] [Inhabited Key] [Inhabited T]
variable (hasher : Key → Nat → Nat)

/-! ## Runs of inserts -/

theorem insert_all_nil (t : HashTable Key T) :
    insert_all hasher ([] : List (Key × T)) t = Except.ok t := rfl

theorem insert_all_cons (t t2 : HashTable Key T) (p : Key × T) (it : iterator)
    (l : List (Key × T)) (he : insert hasher t p = Except.ok (t2, it)) :
    insert_all hasher (p :: l) t = insert_all hasher l t2 := by
  show (match apply_op hasher t (Op.insert p) with
    | Except.error e => Except.error e
    | Except.ok t1 => run_ops hasher (l.map Op.insert) t1) = _
  have : apply_op hasher t (Op.insert p) = Except.ok t2 := by
    show (match insert hasher t p with
      | Except.error e => Except.error e
      | Except.ok r => Except.ok r.1) = Except.ok t2
    rw [he]
  rw [this]
  rfl

theorem insert_all_append (l1 l2 : List (Key × T)) :
    ∀ (t t1 : HashTable Key T), insert_all hasher l1 t = Except.ok t1 →
      insert_all hasher (l1 ++ l2) t = insert_all hasher l2 t1 := by
  induction l1 with
  | nil =>
    intro t t1 he
    rw [insert_all_nil] at he
    cases he
    rfl
  | cons p l1 ih =>
    intro t t1 he
    cases hins : insert hasher t p with
    | error e =>
      exfalso
      have : insert_all hasher (p :: l1) t = Except.error e := by
        show (match apply_op hasher t (Op.insert p) with
          | Except.error e => Except.error e
          | Except.ok t1 => run_ops hasher (l1.map Op.insert) t1) = _
        have : apply_op hasher t (Op.insert p) = Except.error e := by
          show (match insert hasher t p with
            | Except.error e => Except.error e
            | Except.ok r => Except.ok r.1) = Except.error e
          rw [hins]
        rw [this]
      rw [this] at he
      cases he
    | ok r =>
      obtain ⟨t2, it⟩ := r
      rw [insert_all_cons hasher t t2 p it l1 hins] at he
      rw [List.cons_append, insert_all_cons hasher t t2 p it (l1 ++ l2) hins]
      exact ih t2 t1 he

theorem not_overloaded_of_bound (t : HashTable Key T) (n : Nat) (hc : 0 < t.tableSize)
    (h : ((t.elementsCount + (n + 1) : Nat) : ℚ) / (t.tableSize : ℚ) < t.maxLoadFactor) :
    ¬ overloaded t := by
  unfold overloaded
  push_neg
  have hcpos : (0 : ℚ) < (t.tableSize : ℚ) := by exact_mod_cast hc
  have h1 : ((t.elementsCount + 1 : Nat) : ℚ) ≤ ((t.elementsCount + (n + 1) : Nat) : ℚ) := by
    have : t.elementsCount + 1 ≤ t.elementsCount + (n + 1) := by omega
    exact_mod_cast this
  exact lt_of_le_of_lt (div_le_div_of_nonneg_right h1 (le_of_lt hcpos)) h

/-- A run of inserts during which the load-factor test never succeeds: the capacity
stays, the counter grows by the number of calls, and when the keys are pairwise distinct
and absent beforehand the number of OCCUPIED slots grows by the number of calls too. -/
theorem insert_all_quiet (hh : HashRange hasher) {L : ℚ} (hL1 : L ≤ 1) (l : List (Key × T)) :
    ∀ (t : HashTable Key T), Good hasher L t →
      ((t.elementsCount + l.length : Nat) : ℚ) / (t.tableSize : ℚ) < L →
      ∃ t1, insert_all hasher l t = Except.ok t1 ∧ Good hasher L t1 ∧
        t1.tableSize = t.tableSize ∧ t1.elementsCount = t.elementsCount + l.length ∧
        ((l.map Prod.fst).Nodup → (∀ p, p ∈ l → ∀ w, ¬ Holds t p.1 w) →
          busyCount t1 = busyCount t + l.length ∧
          ∀ k v, Holds t1 k v ↔ Holds t k v ∨ (k, v) ∈ l) := by
  induction l with
  | nil =>
    intro t hg _
    refine ⟨t, rfl, hg, rfl, rfl, fun _ _ => ⟨rfl, fun k v => ?_⟩⟩
    simp
  | cons p l ih =>
    intro t hg hb
    have hno : ¬ overloaded t := by
      apply not_overloaded_of_bound t l.length hg.inv.cap_pos
      rw [hg.lf]
      exact hb
    obtain ⟨t2, it, he, hg2, hcq, _, hhit, hmiss⟩ := insert_counts hasher hh hL1 hg p.1 p.2
    have he' : insert hasher t p = Except.ok (t2, it) := he
    obtain ⟨hc2, he2⟩ := hcq hno
    have hb2 : ((t2.elementsCount + l.length : Nat) : ℚ) / (t2.tableSize : ℚ) < L := by
      rw [hc2, he2]
      have : t.elementsCount + 1 + l.length = t.elementsCount + (p :: l).length := by
        simp only [List.length_cons]; omega
      rw [this]
      exact hb
    obtain ⟨t1, e1, hg1, hc1, hcnt1, hrest⟩ := ih t2 hg2 hb2
    refine ⟨t1, ?_, hg1, by rw [hc1, hc2], ?_, ?_⟩
    · rw [insert_all_cons hasher t t2 p it l he']
      exact e1
    · rw [hcnt1, he2]
      simp only [List.length_cons]
      omega
    · intro hnd habs
      rw [List.map_cons, List.nodup_cons] at hnd
      have hm : (find hasher t p.1).ptr = t.tableSize :=
        find_miss_of_not_holds hasher hh hg.inv p.1 (habs p (List.mem_cons_self p l))
      obtain ⟨hbc, hh2⟩ := hmiss hm
      have habs2 : ∀ q, q ∈ l → ∀ w, ¬ Holds t2 q.1 w := by
        intro q hq w hw
        rcases (hh2 q.1 w).mp hw with h | ⟨h, _⟩
        · exact habs q (List.mem_cons_of_mem p hq) w h
        · apply hnd.1
          rw [← h]
          exact List.mem_map.mpr ⟨q, hq, rfl⟩
      obtain ⟨hb1, hh1⟩ := hrest hnd.2 habs2
      refine ⟨?_, ?_⟩
      · rw [hb1, hbc]
        simp only [List.length_cons]
        omega
      · intro k v
        rw [hh1, hh2, List.mem_cons]
        constructor
        · rintro ((h | ⟨h1, h2⟩) | h)
          · exact Or.inl h
          · right; left
            exact Prod.ext h1 h2
          · exact Or.inr (Or.inr h)
        · rintro (h | h | h)
          · exact Or.inl (Or.inl h)
          · left; right
            exact ⟨congrArg Prod.fst h, congrArg Prod.snd h⟩
          · exact Or.inr h

theorem overloaded_iff (t : HashTable Key T) (hc : 0 < t.tableSize) :
    overloaded t ↔ t.maxLoadFactor * (t.tableSize : ℚ) ≤ ((t.elementsCount + 1 : Nat) : ℚ) := by
  unfold overloaded
  have hcpos : (0 : ℚ) < (t.tableSize : ℚ) := by exact_mod_cast hc
  rw [ge_iff_le, le_div_iff₀ hcpos]

end Batches

section ThreeQuarters

variable {Key T : Type} [DecidableEq Key] [Inhabited Key] [Inhabited T]
variable (hasher : Key → Nat → Nat)

/-! ## Inserts into a fresh table with threshold 0.75 -/

theorem quiet_bound (e n c : Nat) (L : ℚ) (hc : 0 < c) (h : ((e + n : Nat) : ℚ) < L * (c : ℚ)) :
    ((e + n : Nat) : ℚ) / (c : ℚ) < L := by
  have hcpos : (0 : ℚ) < (c : ℚ) := by exact_mod_cast hc
  rw [div_lt_iff₀ hcpos]
  exact h

/-- Up to 767 inserts into a fresh `HashTable(0.75)` leave the capacity at 1024 and count
every call. -/
theorem inserts_below_threshold (hh : HashRange hasher) (l : List (Key × T))
    (hlen : l.length ≤ 767) :
    ∃ t, insert_all hasher l (HashTable.new (3 / 4)) = Except.ok t ∧
      Good hasher (3 / 4) t ∧ t.tableSize = 1024 ∧ t.elementsCount = l.length ∧
      ((l.map Prod.fst).Nodup →
        busyCount t = l.length ∧ ∀ k v, Holds t k v ↔ (k, v) ∈ l) := by
  have hb : (((HashTable.new (3 / 4) : HashTable Key T).elementsCount + l.length : Nat) : ℚ)
      / ((HashTable.new (3 / 4) : HashTable Key T).tableSize : ℚ) < 3 / 4 := by
    have hpos : 0 < (HashTable.new (3 / 4) : HashTable Key T).tableSize := by
      show 0 < 1024
      decide
    apply quiet_bound _ _ _ _ hpos
    show ((0 + l.length : Nat) : ℚ) < 3 / 4 * ((1024 : Nat) : ℚ)
    have : ((0 + l.length : Nat) : ℚ) ≤ 767 := by
      have : 0 + l.length ≤ 767 := by omega
      exact_mod_cast this
    norm_num
    norm_num at this
    linarith
  obtain ⟨t, he, hg, hc, hcnt, hrest⟩ :=
    insert_all_quiet hasher hh (by norm_num : (3 / 4 : ℚ) ≤ 1) l (HashTable.new (3 / 4))
      (Good.of_new hasher (3 / 4)) hb
  refine ⟨t, he, hg, hc, ?_, ?_⟩
  · rw [hcnt]
    show 0 + l.length = l.length
    omega
  · intro hnd
    obtain ⟨h1, h2⟩ := hrest hnd (fun p _ w => Holds_new (3 / 4) p.1 w)
    have hb0 : busyCount (HashTable.new (3 / 4) : HashTable Key T) = 0 :=
      busyCount_blank start_size (3 / 4)
    refine ⟨by rw [h1, hb0]; omega, ?_⟩
    intro k v
    rw [h2]
    constructor
    · rintro (h | h)
      · exact absurd h (Holds_new (3 / 4) k v)
      · exact h
    · intro h; exact Or.inr h

theorem overloaded_at_768 (t : HashTable Key T) (hc : t.tableSize = 1024)
    (he : t.elementsCount = 767) (hl : t.maxLoadFactor = 3 / 4) : overloaded t := by
  unfold overloaded
  rw [hc, he, hl]
  norm_num

theorem not_overloaded_below_768 (t : HashTable Key T) (hc : t.tableSize = 1024)
    (he : t.elementsCount < 767) (hl : t.maxLoadFactor = 3 / 4) : ¬ overloaded t := by
  unfold overloaded
  rw [hc, hl]
  push_neg
  have h1 : ((t.elementsCount + 1 : Nat) : ℚ) ≤ 767 := by
    have : t.elementsCount + 1 ≤ 767 := by omega
    exact_mod_cast this
  rw [div_lt_iff₀ (by norm_num)]
  norm_num
  norm_num at h1
  linarith

/-- The insert number 768 into a fresh `HashTable(0.75)` doubles the capacity, and after
it the counter is one less than the number of OCCUPIED slots when the keys are pairwise
distinct; up to 768 further inserts of new keys then stay in the table of 2048 slots. -/
theorem inserts_across_threshold (hh : HashRange hasher) (l1 : List (Key × T)) (x : Key × T)
    (l2 : List (Key × T)) (h1 : l1.length = 767) (h2 : l2.length ≤ 768) :
    ∃ t, insert_all hasher (l1 ++ x :: l2) (HashTable.new (3 / 4)) = Except.ok t ∧
      Good hasher (3 / 4) t ∧
      (((l1 ++ x :: l2).map Prod.fst).Nodup →
        t.tableSize = 2048 ∧ t.elementsCount = 767 + l2.length ∧
        busyCount t = 768 + l2.length) ∧
      (l2 = [] → t.tableSize = 2048) := by
  have hL1 : (3 / 4 : ℚ) ≤ 1 := by norm_num
  obtain ⟨t1, e1, hg1, hc1, hcnt1, hrest1⟩ :=
    inserts_below_threshold hasher hh l1 (by omega)
  have hov : overloaded t1 := overloaded_at_768 t1 hc1 (by rw [hcnt1, h1]) hg1.lf
  obtain ⟨t2, it, e2, hg2, _, hcq, hhit, hmiss⟩ := insert_counts hasher hh hL1 hg1 x.1 x.2
  have e2' : insert hasher t1 x = Except.ok (t2, it) := e2
  obtain ⟨hc2, hcnt2⟩ := hcq hov (by norm_num)
  have hc2' : t2.tableSize = 2048 := by rw [hc2, hc1]
  by_cases hnd : ((l1 ++ x :: l2).map Prod.fst).Nodup
  · -- the keys are pairwise distinct
    rw [List.map_append, List.map_cons] at hnd
    have hnd1 : (l1.map Prod.fst).Nodup := (List.nodup_append.mp hnd).1
    have hnd2 : (x.1 :: l2.map Prod.fst).Nodup := (List.nodup_append.mp hnd).2.1
    have hdisj := (List.nodup_append.mp hnd).2.2
    obtain ⟨hb1, hh1⟩ := hrest1 hnd1
    have hx1 : ∀ w, ¬ Holds t1 x.1 w := by
      intro w hw
      have hmem : (x.1, w) ∈ l1 := (hh1 _ _).mp hw
      exact hdisj (List.mem_map.mpr ⟨_, hmem, rfl⟩) (List.mem_cons_self _ _)
    have hm1 : (find hasher t1 x.1).ptr = t1.tableSize :=
      find_miss_of_not_holds hasher hh hg1.inv x.1 hx1
    obtain ⟨hb2, hh2⟩ := hmiss hm1
    have hbound : ((t2.elementsCount + l2.length : Nat) : ℚ) / (t2.tableSize : ℚ) < 3 / 4 := by
      apply quiet_bound _ _ _ _ (by omega)
      rw [hc2', hcnt2, hb1, h1]
      have : ((767 + l2.length : Nat) : ℚ) ≤ 1535 := by
        have : 767 + l2.length ≤ 1535 := by omega
        exact_mod_cast this
      norm_num
      norm_num at this
      linarith
    obtain ⟨t3, e3, hg3, hc3, hcnt3, hrest3⟩ := insert_all_quiet hasher hh hL1 l2 t2 hg2 hbound
    have habs2 : ∀ p, p ∈ l2 → ∀ w, ¬ Holds t2 p.1 w := by
      intro p hp w hw
      rcases (hh2 p.1 w).mp hw with h | ⟨h, _⟩
      · have hmem : (p.1, w) ∈ l1 := (hh1 _ _).mp h
        exact hdisj (List.mem_map.mpr ⟨_, hmem, rfl⟩)
          (List.mem_cons_of_mem _ (List.mem_map.mpr ⟨p, hp, rfl⟩))
      · apply (List.nodup_cons.mp hnd2).1
        rw [← h]
        exact List.mem_map.mpr ⟨p, hp, rfl⟩
    obtain ⟨hb3, _⟩ := hrest3 (List.nodup_cons.mp hnd2).2 habs2
    refine ⟨t3, ?_, hg3, ?_, ?_⟩
    · rw [insert_all_append hasher l1 (x :: l2) _ t1 e1,
        insert_all_cons hasher t1 t2 x it l2 e2']
      exact e3
    · intro _
      refine ⟨by rw [hc3, hc2'], by rw [hcnt3, hcnt2, hb1, h1], by rw [hb3, hb2, hb1, h1]⟩
    · intro hnil
      rw [hc3, hc2']
  · -- without distinctness only the case of no further insert is described
    by_cases hnil : l2 = []
    · subst hnil
      refine ⟨t2, ?_, hg2, fun h => absurd h hnd, fun _ => hc2'⟩
      rw [insert_all_append hasher l1 [x] _ t1 e1, insert_all_cons hasher t1 t2 x it [] e2']
      rfl
    · obtain ⟨t3, e3, hg3, _, _⟩ := run_ops_spec hasher hh hL1 (l2.map Op.insert) t2
        (fun k => lookup hasher t2 k) hg2
        (fun k v => (lookup_eq_some_iff hasher hh hg2.inv k v).symm)
      refine ⟨t3, ?_, hg3, fun h => absurd h hnd, fun h => absurd h hnil⟩
      rw [insert_all_append hasher l1 (x :: l2) _ t1 e1,
        insert_all_cons hasher t1 t2 x it l2 e2']
      exact e3

end ThreeQuarters

theorem split_at_767 {α : Type} (l : List α) (h : 767 < l.length) :
    ∃ l1 x l2, l = l1 ++ x :: l2 ∧ l1.length = 767 ∧ l2.length = l.length - 768 := by
  refine ⟨l.take 767, l.get ⟨767, h⟩, l.drop 768, ?_, ?_, ?_⟩
  · have h1 : l = l.take 767 ++ l.drop 767 := (List.take_append_drop 767 l).symm
    have h2 : l.drop 767 = l.get ⟨767, h⟩ :: l.drop 768 := by
      rw [List.get_eq_getElem]
      exact List.drop_eq_getElem_cons h
    rw [← h2]
    exact h1
  · rw [List.length_take]
    omega
  · rw [List.length_drop]

section Frames

variable {Key T : Type} [DecidableEq Key] [Inhabited Key] [Inhabited T]
variable (hasher : Key → Nat → Nat)

/-- Two tables holding the same pairs for one key answer the lookup of that key alike. -/
theorem lookup_frame (hh : HashRange hasher) {t t2 : HashTable Key T}
    (hi : Inv hasher t) (hi2 : Inv hasher t2) (k : Key)
    (h : ∀ v, Holds t2 k v ↔ Holds t k v) :
    lookup hasher t2 k = lookup hasher t k := by
  apply Option.ext
  intro v
  rw [Option.mem_def, Option.mem_def, lookup_eq_some_iff hasher hh hi2,
    lookup_eq_some_iff hasher hh hi, h]

theorem run_ops_reachable (hh : HashRange hasher) {L : ℚ} (hL1 : L ≤ 1)
    (ops : List (Op Key T)) (t : HashTable Key T)
    (he : run_ops hasher ops (HashTable.new L) = Except.ok t) : Reachable hasher L t := by
  obtain ⟨t1, e1, _, hr, _⟩ := run_ops_new hasher hh hL1 ops
  rw [he] at e1
  cases e1
  exact hr

end Frames

/-- C12. Probe completeness.  For every `n`, capacity `m = 2 ^ n` and initial hash `h < m`,
the first `m` values returned by successive calls of a `ProbPolicy` constructed from
`(h, m)` are all below `m` and pairwise distinct, every index below `m` is among them, so
they are a permutation of `[0, m)`; and the first value returned is `h`. -/
theorem C12_probe_completeness (n h : Nat) (hh : h < 2 ^ n) :
    (∀ j, j < 2 ^ n → ProbPolicy.nth (ProbPolicy.new h (2 ^ n)) j < 2 ^ n) ∧
    (∀ i j, i < 2 ^ n → j < 2 ^ n →
      ProbPolicy.nth (ProbPolicy.new h (2 ^ n)) i = ProbPolicy.nth (ProbPolicy.new h (2 ^ n)) j →
      i = j) ∧
    (∀ s, s < 2 ^ n → ∃ j, j < 2 ^ n ∧ ProbPolicy.nth (ProbPolicy.new h (2 ^ n)) j = s) ∧
    ((List.range (2 ^ n)).map (ProbPolicy.nth (ProbPolicy.new h (2 ^ n)))).Perm
      (List.range (2 ^ n)) ∧
    ProbPolicy.nth (ProbPolicy.new h (2 ^ n)) 0 = h := by
  refine ⟨fun j _ => nth_new_lt h _ hh j, fun i j hi hj he => nth_new_inj n h i j hh hi hj he,
    fun s hs => nth_new_surj n h s hh hs, ?_, rfl⟩
  rw [List.perm_ext_iff_of_nodup _ (List.nodup_range _)]
  · intro a
    rw [List.mem_map, List.mem_range]
    constructor
    · rintro ⟨j, _, rfl⟩
      exact nth_new_lt h _ hh j
    · intro ha
      obtain ⟨j, hj, hje⟩ := nth_new_surj n h a hh ha
      exact ⟨j, List.mem_range.mpr hj, hje⟩
  · apply List.Nodup.map_on _ (List.nodup_range _)
    intro i hi j hj he
    exact nth_new_inj n h i j hh (List.mem_range.mp hi) (List.mem_range.mp hj) he

/-- Witness of C12: capacity 8 and initial hash 5. -/
theorem C12_probe_completeness_witness :
    (∀ j, j < 2 ^ 3 → ProbPolicy.nth (ProbPolicy.new 5 (2 ^ 3)) j < 2 ^ 3) ∧
    (∀ i j, i < 2 ^ 3 → j < 2 ^ 3 →
      ProbPolicy.nth (ProbPolicy.new 5 (2 ^ 3)) i = ProbPolicy.nth (ProbPolicy.new 5 (2 ^ 3)) j →
      i = j) ∧
    (∀ s, s < 2 ^ 3 → ∃ j, j < 2 ^ 3 ∧ ProbPolicy.nth (ProbPolicy.new 5 (2 ^ 3)) j = s) ∧
    ((List.range (2 ^ 3)).map (ProbPolicy.nth (ProbPolicy.new 5 (2 ^ 3)))).Perm
      (List.range (2 ^ 3)) ∧
    ProbPolicy.nth (ProbPolicy.new 5 (2 ^ 3)) 0 = 5 :=
  C12_probe_completeness 3 5 (by decide)

/-- C13. Hash range.  For every capacity `m > 0` each default hash strategy returns an
index strictly below `m`: the string hash for every string (the empty string hashes to 0),
the integer hash for every `int` key when `m` is a power of two with `m ≤ 2 ^ 32` (where
`find_pow` returns), and the generic hash for every key convertible to `size_t`. -/
theorem C13_hash_range (m : Nat) (hm : 0 < m) :
    (∀ str, DefaultHash_string str m < m) ∧
    DefaultHash_string [] m = 0 ∧
    (∀ a, a ≤ 32 → m = 2 ^ a → ∀ key : Int, ∃ r, DefaultHash_int key m = some r ∧ r < m) ∧
    (∀ (T : Type) (to_size_t : T → Nat) (key : T), DefaultHash to_size_t key m < m) := by
  refine ⟨fun str => DefaultHash_string_lt str m hm, rfl, ?_,
    fun T c key => DefaultHash_lt c key m hm⟩
  intro a ha hma key
  apply DefaultHash_int_with_lt _ key m a hm
  rw [hma]
  exact find_pow_of_pow a ha

/-- Witness of C13: the initial capacity 1024. -/
theorem C13_hash_range_witness :
    (∀ str, DefaultHash_string str 1024 < 1024) ∧
    DefaultHash_string [] 1024 = 0 ∧
    (∀ a, a ≤ 32 → 1024 = 2 ^ a → ∀ key : Int,
      ∃ r, DefaultHash_int key 1024 = some r ∧ r < 1024) ∧
    (∀ (T : Type) (to_size_t : T → Nat) (key : T), DefaultHash to_size_t key 1024 < 1024) :=
  C13_hash_range 1024 (by decide)

section LaterClaims

variable {Key T : Type} [DecidableEq Key] [Inhabited Key] [Inhabited T]

/-- C14. Capacity is a power of two and never shrinks.  Every reachable table has capacity
`1024 * 2 ^ j`, and each of `insert`, `operator[]` (read or assigned through), `erase` and
`rehash` leaves the capacity unchanged or multiplies it by a power of two.  (`find` only
returns an iterator; it has no effect on the table.) -/
theorem C14_capacity_power_of_two (hasher : Key → Nat → Nat) (hh : HashRange hasher)
    (L : ℚ) (hL0 : 0 < L) (hL1 : L ≤ 1) (t : HashTable Key T) (hr : Reachable hasher L t) :
    (∃ j, t.tableSize = 1024 * 2 ^ j) ∧
    (∀ p t2 it, insert hasher t p = Except.ok (t2, it) →
      ∃ b, t2.tableSize = t.tableSize * 2 ^ b) ∧
    (∀ k t2 pos, access hasher t k = Except.ok (t2, pos) →
      ∃ b, t2.tableSize = t.tableSize * 2 ^ b) ∧
    (∀ k v t2, assign hasher t k v = Except.ok t2 →
      ∃ b, t2.tableSize = t.tableSize * 2 ^ b) ∧
    (∀ k, (erase hasher t k).1.tableSize = t.tableSize) ∧
    (∀ t2, rehash hasher t = Except.ok t2 → ∃ b, t2.tableSize = t.tableSize * 2 ^ (b + 1)) := by
  have hg := hr.good hasher hh hL1
  refine ⟨hg.inv.cap, ?_, ?_, ?_, ?_, ?_⟩
  · intro p t2 it he
    obtain ⟨t2', it', he', _, hcap, _⟩ := insert_spec hasher hh hL1 hg p.1 p.2
    have hp : (p.1, p.2) = p := rfl
    rw [hp, he] at he'
    cases he'
    exact hcap
  · intro k t2 pos he
    obtain ⟨t2', pos', he', _, hcap, _⟩ := access_spec hasher hh hL1 hg k
    rw [he] at he'
    cases he'
    exact hcap
  · intro k v t2 he
    obtain ⟨t2', he', _, hcap, _⟩ := assign_spec hasher hh hL1 hg k v
    rw [he] at he'
    cases he'
    exact hcap
  · intro k
    exact (erase_spec hasher hh hg k).2.1
  · intro t2 he
    obtain ⟨t2', he', _, hpost⟩ := rehash_good hasher hh hg
    rw [he] at he'
    cases he'
    obtain ⟨b, hb⟩ := hpost.2.2.2.2.1.cap
    exact ⟨b, by rw [hb, pow_succ]; ring⟩

/-- Witness of C14: the table holding "a". -/
theorem C14_capacity_power_of_two_witness :
    ∃ t0 it0, insert DefaultHash_string (HashTable.new (3 / 4) : HashTable CppString Int)
        ([97], 1) = Except.ok (t0, it0) ∧
      (∃ j, t0.tableSize = 1024 * 2 ^ j) ∧
      (∀ t2, rehash DefaultHash_string t0 = Except.ok t2 →
        ∃ b, t2.tableSize = t0.tableSize * 2 ^ (b + 1)) := by
  obtain ⟨t0, it0, he, hr0, _, _⟩ := demo_insert
  have h := C14_capacity_power_of_two DefaultHash_string DefaultHash_string_range
    (3 / 4) (by norm_num) (by norm_num) t0 hr0
  exact ⟨t0, it0, he, h.1, h.2.2.2.2.2⟩

/-- C17. Key uniqueness invariant.  The fresh table has no key in two OCCUPIED slots; so
has every reachable table; and so has the table after each of `insert`, `operator[]`,
`t[k] = v`, `erase` and `rehash` applied to a reachable table, whether or not the call
reuses a DELETED slot or rehashes. -/
theorem C17_key_uniqueness (hasher : Key → Nat → Nat) (hh : HashRange hasher)
    (L : ℚ) (hL0 : 0 < L) (hL1 : L ≤ 1) (t : HashTable Key T) (hr : Reachable hasher L t) :
    UniqueKeys (HashTable.new L : HashTable Key T) ∧
    UniqueKeys t ∧
    (∀ p t2 it, insert hasher t p = Except.ok (t2, it) → UniqueKeys t2) ∧
    (∀ k t2 pos, access hasher t k = Except.ok (t2, pos) → UniqueKeys t2) ∧
    (∀ k v t2, assign hasher t k v = Except.ok t2 → UniqueKeys t2) ∧
    (∀ k, UniqueKeys (erase hasher t k).1) ∧
    (∀ t2, rehash hasher t = Except.ok t2 → UniqueKeys t2) := by
  have key : ∀ t' : HashTable Key T, Reachable hasher L t' → UniqueKeys t' :=
    fun t' hr' => (hr'.good hasher hh hL1).inv.uniq
  exact ⟨key _ Reachable.new, key t hr,
    fun p t2 it he => key t2 (Reachable.insert hr he),
    fun k t2 pos he => key t2 (Reachable.access hr he),
    fun k v t2 he => key t2 (Reachable.assign hr he),
    fun k => key _ (Reachable.erase hr),
    fun t2 he => key t2 (Reachable.rehash hr he)⟩

/-- Witness of C17: the table holding "a". -/
theorem C17_key_uniqueness_witness :
    ∃ t0 it0, insert DefaultHash_string (HashTable.new (3 / 4) : HashTable CppString Int)
        ([97], 1) = Except.ok (t0, it0) ∧ UniqueKeys t0 ∧
      ∀ k, UniqueKeys (erase DefaultHash_string t0 k).1 := by
  obtain ⟨t0, it0, he, hr0, _, _⟩ := demo_insert
  have h := C17_key_uniqueness DefaultHash_string DefaultHash_string_range
    (3 / 4) (by norm_num) (by norm_num) t0 hr0
  exact ⟨t0, it0, he, h.2.1, h.2.2.2.2.2.1⟩

/-- C18. Probe-path invariant and completeness of `find`.  In every reachable table, the
probe sequence of the key of an OCCUPIED slot `s` reaches `s` within `tableSize` steps and
visits no EMPTY slot before it.  Consequently `find(k)` is a hit iff some OCCUPIED slot
holds `k`, and the hit is positioned at that slot, whatever DELETED slots lie on the path. -/
theorem C18_probe_path_and_find (hasher : Key → Nat → Nat) (hh : HashRange hasher)
    (L : ℚ) (hL0 : 0 < L) (hL1 : L ≤ 1) (t : HashTable Key T) (hr : Reachable hasher L t) :
    (∀ s, s < t.tableSize → (t.table s).state = condition.BUSY →
      ∃ j, j < t.tableSize ∧ probe hasher t (t.table s).pair.1 j = s ∧
        ∀ i, i < j → (t.table (probe hasher t (t.table s).pair.1 i)).state ≠ condition.EMPTY) ∧
    (∀ k, (find hasher t k).ptr ≠ t.end_.ptr ↔
      ∃ s, s < t.tableSize ∧ (t.table s).state = condition.BUSY ∧ (t.table s).pair.1 = k) ∧
    (∀ k s, s < t.tableSize → (t.table s).state = condition.BUSY → (t.table s).pair.1 = k →
      find hasher t k = ⟨s, t.tableSize⟩) := by
  have hg := hr.good hasher hh hL1
  refine ⟨hg.inv.path, ?_, ?_⟩
  · intro k
    constructor
    · intro h
      obtain ⟨h1, h2, h3⟩ := find_hit_sound hasher hh t hg.inv.cap_pos k h
      exact ⟨_, h1, h2, h3⟩
    · rintro ⟨s, hs, hb, hk⟩
      have := find_hit_complete hasher hh hg.inv s hs hb
      rw [hk] at this
      rw [this]
      exact Nat.ne_of_lt hs
  · intro k s hs hb hk
    have := find_hit_complete hasher hh hg.inv s hs hb
    rw [hk] at this
    exact this

/-- Witness of C18: the table holding "a". -/
theorem C18_probe_path_and_find_witness :
    ∃ t0 it0, insert DefaultHash_string (HashTable.new (3 / 4) : HashTable CppString Int)
        ([97], 1) = Except.ok (t0, it0) ∧
      ∀ k, (find DefaultHash_string t0 k).ptr ≠ t0.end_.ptr ↔
        ∃ s, s < t0.tableSize ∧ (t0.table s).state = condition.BUSY ∧
          (t0.table s).pair.1 = k := by
  obtain ⟨t0, it0, he, hr0, _, _⟩ := demo_insert
  have h := C18_probe_path_and_find DefaultHash_string DefaultHash_string_range
    (3 / 4) (by norm_num) (by norm_num) t0 hr0
  exact ⟨t0, it0, he, h.2.1⟩

end LaterClaims

section LaterClaims2

variable {Key T : Type} [DecidableEq Key] [Inhabited Key] [Inhabited T]

/-- C19. Tombstone-reuse placement policy.  For every reachable table `t` and absent key
`k` whose insertion does not rehash, `insert_key` returns an iterator at a slot of the probe
sequence of `k`: at the first DELETED slot when no EMPTY slot comes before it (whether an
EMPTY slot follows or the `tableSize` probes hold none), otherwise at the first EMPTY slot.
That slot was not OCCUPIED, it becomes OCCUPIED with key `k` (its value is left as it was),
and every other slot is unchanged. -/
theorem C19_placement_policy (hasher : Key → Nat → Nat) (hh : HashRange hasher)
    (L : ℚ) (hL0 : 0 < L) (hL1 : L ≤ 1) (t : HashTable Key T) (hr : Reachable hasher L t)
    (k : Key) (hmiss : (find hasher t k).ptr = t.end_.ptr) (hno : ¬ overloaded t) :
    ∃ t2 it, insert_key hasher t k = Except.ok (t2, it) ∧
      it.ptr < t.tableSize ∧ t2.tableSize = t.tableSize ∧
      (∀ jd, jd < t.tableSize →
        (t.table (probe hasher t k jd)).state = condition.DELETED →
        (∀ i, i < jd → (t.table (probe hasher t k i)).state ≠ condition.DELETED ∧
          (t.table (probe hasher t k i)).state ≠ condition.EMPTY) →
        it.ptr = probe hasher t k jd) ∧
      (∀ je, je < t.tableSize →
        (t.table (probe hasher t k je)).state = condition.EMPTY →
        (∀ i, i < je → (t.table (probe hasher t k i)).state ≠ condition.DELETED ∧
          (t.table (probe hasher t k i)).state ≠ condition.EMPTY) →
        it.ptr = probe hasher t k je) ∧
      (t.table it.ptr).state ≠ condition.BUSY ∧
      t2.table it.ptr = node_t.mk condition.BUSY (k, (t.table it.ptr).pair.2) ∧
      (∀ i, i ≠ it.ptr → t2.table i = t.table i) := by
  have hg := hr.good hasher hh hL1
  obtain ⟨t1, _, hi1, _, _, _, _, hb, _, _, hm⟩ := insert_cases hasher hh hL1 hg k default
  have ht1 := hb hno
  subst ht1
  obtain ⟨j, hj, hnb, hprev, _, he⟩ := hm hmiss
  have hlt := probe_lt hasher hh t hg.inv.cap_pos k j
  have hfirst : ∀ j', j' < t.tableSize →
      (t.table (probe hasher t k j')).state ≠ condition.BUSY →
      (∀ i, i < j' → (t.table (probe hasher t k i)).state ≠ condition.DELETED ∧
        (t.table (probe hasher t k i)).state ≠ condition.EMPTY) →
      probe hasher t k j = probe hasher t k j' := by
    intro j' _ hnb' hpre'
    rcases Nat.lt_trichotomy j j' with h | h | h
    · exfalso
      have h1 := hpre' j h
      have h2 : (t.table (probe hasher t k j)).state ≠ condition.BUSY := hnb
      cases hst : (t.table (probe hasher t k j)).state with
      | EMPTY => exact h1.2 hst
      | DELETED => exact h1.1 hst
      | BUSY => exact h2 hst
    · rw [h]
    · exact absurd (hprev j' h).1 hnb'
  refine ⟨_, _, he, hlt, rfl, ?_, ?_, hnb, ?_, ?_⟩
  · intro jd hjd hd hpre
    exact hfirst jd hjd (by rw [hd]; decide) hpre
  · intro je hje hem hpre
    exact hfirst je hje (by rw [hem]; decide) hpre
  · show (Function.update t.table (probe hasher t k j) _) (probe hasher t k j) = _
    rw [Function.update_same]
    rfl
  · intro i hi
    show (Function.update t.table (probe hasher t k j) _) i = _
    exact Function.update_noteq hi _ _

/-- Witness of C19: "a" is inserted, erased, and `insert_key("a")` reuses its tombstone. -/
theorem C19_placement_policy_witness :
    ∃ t0, run_ops DefaultHash_string [Op.insert ([97], 5), Op.erase [97]]
        (HashTable.new (3 / 4) : HashTable CppString Int) = Except.ok t0 ∧
      ∃ t2 it, insert_key DefaultHash_string t0 [97] = Except.ok (t2, it) ∧
        it.ptr < t0.tableSize ∧ t2.tableSize = t0.tableSize ∧
        (∀ jd, jd < t0.tableSize →
          (t0.table (probe DefaultHash_string t0 [97] jd)).state = condition.DELETED →
          (∀ i, i < jd →
            (t0.table (probe DefaultHash_string t0 [97] i)).state ≠ condition.DELETED ∧
            (t0.table (probe DefaultHash_string t0 [97] i)).state ≠ condition.EMPTY) →
          it.ptr = probe DefaultHash_string t0 [97] jd) ∧
        (∀ je, je < t0.tableSize →
          (t0.table (probe DefaultHash_string t0 [97] je)).state = condition.EMPTY →
          (∀ i, i < je →
            (t0.table (probe DefaultHash_string t0 [97] i)).state ≠ condition.DELETED ∧
            (t0.table (probe DefaultHash_string t0 [97] i)).state ≠ condition.EMPTY) →
          it.ptr = probe DefaultHash_string t0 [97] je) ∧
        (t0.table it.ptr).state ≠ condition.BUSY ∧
        t2.table it.ptr = node_t.mk condition.BUSY ([97], (t0.table it.ptr).pair.2) ∧
        (∀ i, i ≠ it.ptr → t2.table i = t0.table i) := by
  obtain ⟨t0, he, hg, hr, hl⟩ := run_ops_new DefaultHash_string DefaultHash_string_range
    (by norm_num : (3 / 4 : ℚ) ≤ 1)
    ([Op.insert ([97], 5), Op.erase [97]] : List (Op CppString Int))
  have hmiss : (find DefaultHash_string t0 [97]).ptr = t0.end_.ptr := by
    apply lookup_none_unfold
    rw [hl]
    decide
  have hno : ¬ overloaded t0 := by
    have h1 : (match run_ops DefaultHash_string [Op.insert ([97], 5), Op.erase [97]]
        (HashTable.new (3 / 4) : HashTable CppString Int) with
      | Except.ok t => (t.elementsCount, t.tableSize)
      | Except.error _ => (0, 0)) = (1, 1024) := by decide!
    rw [he] at h1
    have h2 : t0.elementsCount = 1 := congrArg Prod.fst h1
    have h3 : t0.tableSize = 1024 := congrArg Prod.snd h1
    unfold overloaded
    rw [h2, h3, hg.lf]
    norm_num
  exact ⟨t0, he, C19_placement_policy DefaultHash_string DefaultHash_string_range
    (3 / 4) (by norm_num) (by norm_num) t0 hr [97] hmiss hno⟩

/-- C20. Operations on one key do not disturb other keys.  For every reachable table `t`,
key `k`, value `v` and key `k'` different from `k`, each of `insert((k, v))`, `erase(k)`, a
read of `t[k]` and the assignment `t[k] = v` returns, and `find(k')` gives the same result
afterwards: a hit or a miss as before, with the same value on a hit. -/
theorem C20_other_keys_untouched (hasher : Key → Nat → Nat) (hh : HashRange hasher)
    (L : ℚ) (hL0 : 0 < L) (hL1 : L ≤ 1) (t : HashTable Key T) (hr : Reachable hasher L t)
    (k : Key) (v : T) (k' : Key) (hne : k' ≠ k) :
    (∃ t2 it, insert hasher t (k, v) = Except.ok (t2, it) ∧
      lookup hasher t2 k' = lookup hasher t k') ∧
    lookup hasher (erase hasher t k).1 k' = lookup hasher t k' ∧
    (∃ t2 pos, access hasher t k = Except.ok (t2, pos) ∧
      lookup hasher t2 k' = lookup hasher t k') ∧
    (∃ t2, assign hasher t k v = Except.ok t2 ∧
      lookup hasher t2 k' = lookup hasher t k') := by
  have hg := hr.good hasher hh hL1
  refine ⟨?_, ?_, ?_, ?_⟩
  · obtain ⟨t2, it, he, hg2, _, hhit, hmiss⟩ := insert_spec hasher hh hL1 hg k v
    refine ⟨t2, it, he, lookup_frame hasher hh hg.inv hg2.inv k' ?_⟩
    intro v'
    by_cases hf : (find hasher t k).ptr ≠ t.tableSize
    · exact (hhit hf).2 k' v'
    · rw [(hmiss (not_not.mp hf)).2.2.2.2 k' v']
      constructor
      · rintro (h | ⟨h, _⟩)
        · exact h
        · exact absurd h hne
      · intro h; exact Or.inl h
  · obtain ⟨hg2, _, hh2⟩ := erase_spec hasher hh hg k
    apply lookup_frame hasher hh hg.inv hg2.inv k'
    intro v'
    rw [hh2]
    exact ⟨fun h => h.2, fun h => ⟨hne, h⟩⟩
  · obtain ⟨t2, pos, he, hg2, _, _, _, _, hh2, _⟩ := access_spec hasher hh hL1 hg k
    exact ⟨t2, pos, he, lookup_frame hasher hh hg.inv hg2.inv k' (fun v' => hh2 k' v' hne)⟩
  · obtain ⟨t2, he, hg2, _, hh2⟩ := assign_spec hasher hh hL1 hg k v
    refine ⟨t2, he, lookup_frame hasher hh hg.inv hg2.inv k' ?_⟩
    intro v'
    rw [hh2]
    constructor
    · rintro (h | ⟨h, _⟩)
      · exact h.2
      · exact absurd h hne
    · intro h; exact Or.inl ⟨hne, h⟩

/-- Witness of C20: operations on "b" seen from "a" in the table holding "a". -/
theorem C20_other_keys_untouched_witness :
    ∃ t0 it0, insert DefaultHash_string (HashTable.new (3 / 4) : HashTable CppString Int)
        ([97], 1) = Except.ok (t0, it0) ∧
      (∃ t2 it, insert DefaultHash_string t0 ([98], 2) = Except.ok (t2, it) ∧
        lookup DefaultHash_string t2 [97] = lookup DefaultHash_string t0 [97]) ∧
      lookup DefaultHash_string (erase DefaultHash_string t0 [98]).1 [97]
        = lookup DefaultHash_string t0 [97] ∧
      (∃ t2 pos, access DefaultHash_string t0 [98] = Except.ok (t2, pos) ∧
        lookup DefaultHash_string t2 [97] = lookup DefaultHash_string t0 [97]) ∧
      (∃ t2, assign DefaultHash_string t0 [98] 2 = Except.ok t2 ∧
        lookup DefaultHash_string t2 [97] = lookup DefaultHash_string t0 [97]) := by
  obtain ⟨t0, it0, he, hr0, _, _⟩ := demo_insert
  exact ⟨t0, it0, he, C20_other_keys_untouched DefaultHash_string DefaultHash_string_range
    (3 / 4) (by norm_num) (by norm_num) t0 hr0 [98] 2 [97] (by decide)⟩

end LaterClaims2

section LaterClaims3

variable {Key T : Type} [DecidableEq Key] [Inhabited Key] [Inhabited T]

/-- C15. Rehash happens exactly at the crossing insert.  For every list of 768 pairwise
distinct keys inserted one after another into a fresh `HashTable(0.75)`, the capacity is
1024 after each of the first 767 inserts, the load-factor test of `insert_key` fails before
each of these and succeeds before the insert number 768, and after that insert the
capacity is exactly 2048. -/
theorem C15_rehash_at_crossing_insert (hasher : Key → Nat → Nat) (hh : HashRange hasher)
    (l : List (Key × T)) (hlen : l.length = 768) (hnd : (l.map Prod.fst).Nodup) :
    (∀ n, n ≤ 767 →
      ∃ t, insert_all hasher (l.take n) (HashTable.new (3 / 4)) = Except.ok t ∧
        t.tableSize = 1024 ∧ (n < 767 → ¬ overloaded t) ∧ (n = 767 → overloaded t)) ∧
    (∃ t, insert_all hasher l (HashTable.new (3 / 4)) = Except.ok t ∧ t.tableSize = 2048) := by
  constructor
  · intro n hn
    have hl : (l.take n).length = n := by
      rw [List.length_take]
      omega
    obtain ⟨t, he, hg, hc, hcnt, _⟩ := inserts_below_threshold hasher hh (l.take n) (by omega)
    rw [hl] at hcnt
    refine ⟨t, he, hc, ?_, ?_⟩
    · intro h
      exact not_overloaded_below_768 t hc (by omega) hg.lf
    · intro h
      exact overloaded_at_768 t hc (by omega) hg.lf
  · obtain ⟨l1, x, l2, hsplit, h1, h2⟩ := split_at_767 l (by omega)
    have hnil : l2 = [] := List.length_eq_zero.mp (by omega)
    obtain ⟨t, he, _, _, hc⟩ := inserts_across_threshold hasher hh l1 x l2 h1 (by omega)
    rw [← hsplit] at he
    exact ⟨t, he, hc hnil⟩

/-- Witness of C15: the 768 sample keys. -/
theorem C15_rehash_at_crossing_insert_witness :
    (∀ n, n ≤ 767 →
      ∃ t, insert_all DefaultHash_string ((sample_keys 768).take n) (HashTable.new (3 / 4))
          = Except.ok t ∧
        t.tableSize = 1024 ∧ (n < 767 → ¬ overloaded t) ∧ (n = 767 → overloaded t)) ∧
    (∃ t, insert_all DefaultHash_string (sample_keys 768) (HashTable.new (3 / 4))
        = Except.ok t ∧ t.tableSize = 2048) :=
  C15_rehash_at_crossing_insert DefaultHash_string DefaultHash_string_range (sample_keys 768)
    (sample_keys_length 768) (sample_keys_nodup 768 (by decide))

/-- C11 fails on the code.  After 1536 pairwise distinct keys are inserted into a fresh
`HashTable(0.75)`, all calls having returned, 1536 slots are OCCUPIED in a table of 2048
slots: the ratio equals the threshold 0.75 and is not strictly below it.  The same happens
after 4 inserts into a fresh `HashTable(1.0 / 512)`: 4 OCCUPIED slots of 2048. -/
theorem C11_load_factor_reaches_threshold :
    (∃ t, insert_all DefaultHash_string (sample_keys 1536) (HashTable.new (3 / 4))
        = Except.ok t ∧
      busyCount t = 1536 ∧ t.tableSize = 2048 ∧ t.elementsCount = 1535 ∧
      ¬ ((busyCount t : ℚ) / (t.tableSize : ℚ) < 3 / 4)) ∧
    (match insert_all DefaultHash_string (sample_keys 4) (HashTable.new (1 / 512)) with
      | Except.ok t =>
        (busyCount t, t.tableSize, decide ((busyCount t : ℚ) / (t.tableSize : ℚ) < 1 / 512))
      | Except.error _ => (0, 0, true)) = (4, 2048, false) := by
  refine ⟨?_, by decide!⟩
  obtain ⟨l1, x, l2, hsplit, h1, h2⟩ := split_at_767 (sample_keys 1536)
    (by rw [sample_keys_length]; decide)
  rw [sample_keys_length] at h2
  obtain ⟨t, he, _, hfacts, _⟩ := inserts_across_threshold DefaultHash_string
    DefaultHash_string_range l1 x l2 h1 (by omega)
  rw [← hsplit] at he hfacts
  obtain ⟨hc, hcnt, hb⟩ := hfacts (sample_keys_nodup 1536 (by decide))
  have hb' : busyCount t = 1536 := by omega
  refine ⟨t, he, hb', hc, by omega, ?_⟩
  rw [hb', hc]
  norm_num

/-- C16, as stated, fails.  After the 767 sample keys are inserted into a fresh
`HashTable(0.75)`, the table is reachable, `find` hits the key number 0, and 767 of 1024
slots are OCCUPIED, a ratio below 0.75; yet `erase` of that key followed by `insert` of it
leaves a table of 2048 slots. -/
theorem C16_reinsert_rehashes_counterexample :
    ∃ t, insert_all DefaultHash_string (sample_keys 767) (HashTable.new (3 / 4))
        = Except.ok t ∧
      Reachable DefaultHash_string (3 / 4) t ∧
      (find DefaultHash_string t [0, 0]).ptr ≠ t.end_.ptr ∧
      (busyCount t : ℚ) / (t.tableSize : ℚ) < 3 / 4 ∧
      ∃ t2 it, insert DefaultHash_string (erase DefaultHash_string t [0, 0]).1 ([0, 0], 5)
          = Except.ok (t2, it) ∧
        t.tableSize = 1024 ∧ t2.tableSize = 2048 := by
  have hL1 : (3 / 4 : ℚ) ≤ 1 := by norm_num
  obtain ⟨t, he, hg, hc, hcnt, hrest⟩ := inserts_below_threshold DefaultHash_string
    DefaultHash_string_range (sample_keys 767) (by rw [sample_keys_length])
  rw [sample_keys_length] at hcnt
  obtain ⟨hb, hholds⟩ := hrest (sample_keys_nodup 767 (by decide))
  rw [sample_keys_length] at hb
  have hr : Reachable DefaultHash_string (3 / 4) t :=
    run_ops_reachable DefaultHash_string DefaultHash_string_range hL1 _ t he
  have hmem : (([0, 0] : CppString), (0 : Int)) ∈ sample_keys 767 :=
    List.mem_map.mpr ⟨0, List.mem_range.mpr (by decide), rfl⟩
  have hfind := (find_of_holds DefaultHash_string DefaultHash_string_range hg.inv
    ((hholds _ _).mpr hmem)).1
  obtain ⟨hg', hc', _⟩ := erase_spec DefaultHash_string DefaultHash_string_range hg [0, 0]
  have he' : (erase DefaultHash_string t [0, 0]).1.elementsCount = 767 := by
    rw [erase_eq_of_hit DefaultHash_string t [0, 0] hfind]
    exact hcnt
  have hov : overloaded (erase DefaultHash_string t [0, 0]).1 :=
    overloaded_at_768 _ (by rw [hc', hc]) he' hg'.lf
  obtain ⟨t2, it, e2, _, _, hcq, _, _⟩ := insert_counts DefaultHash_string
    DefaultHash_string_range hL1 hg' [0, 0] 5
  refine ⟨t, he, hr, hfind, ?_, t2, it, e2, hc, ?_⟩
  · rw [hb, hc]
    norm_num
  · rw [(hcq hov (by norm_num)).1, hc', hc]

/-- C16, amended.  For every reachable table `t` with threshold `L`, every key `k` that
`find` hits and every value `v2`: if `(elementsCount + 1) / capacity < L` before the erase,
then after `erase(k)` followed by `insert((k, v2))` the call `find(k)` is a hit with value
`v2`, the capacity equals the capacity before the erase, and the slot that received the
entry was a DELETED one (the reinsert reuses a tombstone and does not rehash). -/
theorem C16_reinsert_after_erase (hasher : Key → Nat → Nat) (hh : HashRange hasher)
    (L : ℚ) (hL0 : 0 < L) (hL1 : L ≤ 1) (t : HashTable Key T) (hr : Reachable hasher L t)
    (k : Key) (v2 : T) (hhit : (find hasher t k).ptr ≠ t.end_.ptr)
    (hroom : ((t.elementsCount + 1 : Nat) : ℚ) / (t.tableSize : ℚ) < L) :
    ∃ t2 it, insert hasher (erase hasher t k).1 (k, v2) = Except.ok (t2, it) ∧
      (find hasher t2 k).ptr ≠ t2.end_.ptr ∧
      (t2.table (find hasher t2 k).ptr).pair.2 = v2 ∧
      t2.tableSize = t.tableSize ∧
      ((erase hasher t k).1.table it.ptr).state = condition.DELETED := by
  have hg := hr.good hasher hh hL1
  obtain ⟨hp, hbp, hkp⟩ := find_hit_sound hasher hh t hg.inv.cap_pos k hhit
  obtain ⟨hg', _, hholds'⟩ := erase_spec hasher hh hg k
  rw [erase_eq_of_hit hasher t k hhit] at hg' hholds' ⊢
  simp only at hg' hholds' ⊢
  have hno : ¬ overloaded (tombstone t (find hasher t k).ptr) := by
    show ¬ (((t.elementsCount + 1 : Nat) : ℚ) / (t.tableSize : ℚ) ≥ t.maxLoadFactor)
    rw [hg.lf]
    exact not_le.mpr hroom
  have hmiss' : (find hasher (tombstone t (find hasher t k).ptr) k).ptr
      = (tombstone t (find hasher t k).ptr).tableSize :=
    find_miss_of_not_holds hasher hh hg'.inv k (fun w hw => ((hholds' k w).mp hw).1 rfl)
  obtain ⟨t1, _, hi1, _, _, _, hh1, hb, _, _, hm⟩ := insert_cases hasher hh hL1 hg' k v2
  have ht1 := hb hno
  subst ht1
  obtain ⟨j, hj, hnb, hprev, he, _⟩ := hm hmiss'
  have hmiss1 : (find hasher (bump (tombstone t (find hasher t k).ptr)) k).ptr
      = (bump (tombstone t (find hasher t k).ptr)).tableSize :=
    find_miss_of_not_holds hasher hh hi1 k
      (fun w hw => ((hholds' k w).mp ((hh1 k w).mp hw)).1 rfl)
  obtain ⟨hi2, _, hh2⟩ := put_facts hasher hh hi1 k v2 hmiss1 j hj hnb hprev
  obtain ⟨hf2, hv2⟩ := find_of_holds hasher hh hi2 ((hh2 k v2).mpr (Or.inr ⟨rfl, rfl⟩))
  refine ⟨_, _, he, hf2, by rw [hv2], rfl, ?_⟩
  -- the slot that received the entry was a tombstone
  obtain ⟨jp, hjp, hjpe, hpre⟩ := hg.inv.path _ hp hbp
  rw [hkp] at hjpe hpre
  have hst : ∀ x, ((tombstone t (find hasher t k).ptr).table x).state
      = if x = (find hasher t k).ptr then condition.DELETED else (t.table x).state :=
    tombstone_state t _
  have hnb' : ((tombstone t (find hasher t k).ptr).table (probe hasher t k j)).state
      ≠ condition.BUSY := hnb
  show ((tombstone t (find hasher t k).ptr).table (probe hasher t k j)).state
    = condition.DELETED
  have hle : j ≤ jp := by
    by_contra hgt
    have h1 : ((tombstone t (find hasher t k).ptr).table (probe hasher t k jp)).state
        = condition.BUSY := (hprev jp (by omega)).1
    rw [hst, if_pos hjpe] at h1
    cases h1
  rw [hst] at hnb' ⊢
  by_cases hx : probe hasher t k j = (find hasher t k).ptr
  · rw [if_pos hx]
  · rw [if_neg hx] at hnb' ⊢
    have hlt : j < jp := by
      rcases Nat.lt_or_eq_of_le hle with h | h
      · exact h
      · exact absurd (by rw [h]; exact hjpe) hx
    have hne := hpre j hlt
    cases hs : (t.table (probe hasher t k j)).state with
    | EMPTY => exact absurd hs hne
    | DELETED => rfl
    | BUSY => exact absurd hs hnb'

/-- Witness of the amended C16: "a" is inserted into a fresh table, erased and inserted
again with value 3. -/
theorem C16_reinsert_after_erase_witness :
    ∃ t0 it0, insert DefaultHash_string (HashTable.new (3 / 4) : HashTable CppString Int)
        ([97], 1) = Except.ok (t0, it0) ∧
      ∃ t2 it, insert DefaultHash_string (erase DefaultHash_string t0 [97]).1 ([97], 3)
          = Except.ok (t2, it) ∧
        (find DefaultHash_string t2 [97]).ptr ≠ t2.end_.ptr ∧
        (t2.table (find DefaultHash_string t2 [97]).ptr).pair.2 = 3 ∧
        t2.tableSize = t0.tableSize ∧
        ((erase DefaultHash_string t0 [97]).1.table it.ptr).state = condition.DELETED := by
  obtain ⟨t0, it0, he, hr0, hf0, _⟩ := demo_insert
  have hg := hr0.good DefaultHash_string DefaultHash_string_range
    (by norm_num : (3 / 4 : ℚ) ≤ 1)
  have h1 : (match insert DefaultHash_string
      (HashTable.new (3 / 4) : HashTable CppString Int) ([97], 1) with
    | Except.ok r => (r.1.elementsCount, r.1.tableSize)
    | Except.error _ => (0, 0)) = (1, 1024) := by decide!
  rw [he] at h1
  have h2 : t0.elementsCount = 1 := congrArg Prod.fst h1
  have h3 : t0.tableSize = 1024 := congrArg Prod.snd h1
  exact ⟨t0, it0, he, C16_reinsert_after_erase DefaultHash_string DefaultHash_string_range
    (3 / 4) (by norm_num) (by norm_num) t0 hr0 [97] 3 hf0 (by rw [h2, h3]; norm_num)⟩

end LaterClaims3

end artemreyt
